import Mathlib

/-!
# Piklisp parser: tokenizer and tree builder

A shallow embedding of `parse/paren.go`: the three token regular expressions,
`findTokenEnd`, `indentSrfi49` and `parseString` (with its inner `doTopNode`
closure), over an explicit node store.

Text is a list of characters.  Every character the scanner dispatches on is
ASCII, so for UTF-8 text the byte-wise dispatch of the Go code and the
rune-wise reading of the regexp package agree; indices count characters.
Machine integers are unbounded: every integer of the program is bounded by
the length of the input.
-/

namespace Piklisp

/-- Text: a Go string read as its sequence of characters. -/
abbrev Str := List Char

/-- The double quote character. -/
def dquote : Char := Char.ofNat 34
/-- The single quote character. -/
def squote : Char := Char.ofNat 39
/-- The backslash character. -/
def bslash : Char := Char.ofNat 92
/-- The newline character. -/
def nl : Char := Char.ofNat 10
/-- The tab character. -/
def tab : Char := Char.ofNat 9

/-- How a call ends: a normal return, a returned error value, a run-time
panic (index or slice out of range, nil dereference), or an exhausted loop
budget of the model. -/
inductive Outcome (α : Type) where
  | ret (a : α)
  | err (msg : Str)
  | panic
  | fuel
  deriving DecidableEq, Repr

/-- Sequencing of outcomes: anything but a normal return is passed on. -/
def Outcome.andThen {α β : Type} (x : Outcome α) (f : α → Outcome β) : Outcome β :=
  match x with
  | .ret a => f a
  | .err m => .err m
  | .panic => .panic
  | .fuel => .fuel

/-! ## Regular expressions -/

/-- The fragment of regexp patterns used by the three token patterns. -/
inductive Regex where
  | char (c : Char)
  | notOf (cs : List Char)
  | any
  | seq (r₁ r₂ : Regex)
  | alt (r₁ r₂ : Regex)
  | star (r : Regex)
  | plus (r : Regex)
  | opt (r : Regex)

/-- Greedy repetition of a matcher `m`: the remainders after zero or more
rounds of `m`, most rounds first.  A round that consumes nothing is not
repeated. -/
def starLoop (m : Str → List Str) : Nat → Str → List Str
  | 0, s => [s]
  | f + 1, s =>
    (((m s).filter (fun s1 => decide (s1.length < s.length))).flatMap (starLoop m f)) ++ [s]

/-- Backtracking match of a pattern at the start of `s`: every remainder the
pattern can leave, in the order a leftmost-first search tries them.  `any` is
the dot, which does not match a newline. -/
def Regex.run : Regex → Str → List Str
  | .char c, s =>
    match s with
    | [] => []
    | x :: r => if x = c then [r] else []
  | .notOf cs, s =>
    match s with
    | [] => []
    | x :: r => if x ∈ cs then [] else [r]
  | .any, s =>
    match s with
    | [] => []
    | x :: r => if x = nl then [] else [r]
  | .seq r₁ r₂, s => (r₁.run s).flatMap r₂.run
  | .alt r₁ r₂, s => r₁.run s ++ r₂.run s
  | .star r, s => starLoop r.run s.length s
  | .plus r, s => (r.run s).flatMap (fun s1 => starLoop r.run s1.length s1)
  | .opt r, s => r.run s ++ [s]

/-- Length of the preferred match of `re` at the start of `s`, if any. -/
def Regex.matchLen (re : Regex) (s : Str) : Option Nat :=
  (re.run s).head?.map (fun r => s.length - r.length)

/-- Leftmost match of `re` in `s`, scanning start offsets from `off`. -/
def findFrom (re : Regex) : Nat → Str → Option (Nat × Nat)
  | off, [] =>
    match re.matchLen [] with
    | some len => some (off, off + len)
    | none => none
  | off, c :: r =>
    match re.matchLen (c :: r) with
    | some len => some (off, off + len)
    | none => findFrom re (off + 1) r

/-- The method `FindStringIndex`: start and end of the leftmost match. -/
def FindStringIndex (re : Regex) (s : Str) : Option (Nat × Nat) :=
  findFrom re 0 s

/-- The pattern `"([^"\\]|\\.)*"`. -/
def stringRegex : Regex :=
  .seq (.char dquote)
    (.seq (.star (.alt (.notOf [dquote, bslash]) (.seq (.char bslash) .any)))
      (.char dquote))

/-- The pattern `'\\?.'`. -/
def charRegex : Regex :=
  .seq (.char squote) (.seq (.opt (.char bslash)) (.seq .any (.char squote)))

/-- The pattern `[^ \t\n\"()]+`. -/
def tokenRegex : Regex :=
  .plus (.notOf [' ', tab, nl, dquote, '(', ')'])

/-- The function `findTokenEnd`: the end index of the leftmost match of the
pattern chosen by the first character, or `-1`.  Indexing an empty string
panics. -/
def findTokenEnd (s : Str) : Outcome Int :=
  match s with
  | [] => .panic
  | c :: _ =>
    let re := if c = dquote then stringRegex else if c = squote then charRegex else tokenRegex
    match FindStringIndex re s with
    | none => .ret (-1)
    | some loc => .ret (loc.2 : Int)

/-! ## The node store -/

/-- Modelled from the spec: the type `Node` (section 3 of the specification;
its Go declaration is not part of the sources).  A node has a content
string, a back-reference to its parent (absent for the root) and an ordered
sequence of children.  Nodes live in a store and are named by their index. -/
structure Node where
  content : Str
  parent : Option Nat
  children : List Nat
  deriving DecidableEq, Repr

/-- The store owning all nodes of one parse. -/
abbrev Store := List Node

/-- A node pointer; `none` is the nil pointer. -/
abbrev Ptr := Option Nat

/-- Modelled from the spec: the field `first`, the reference to the first
child (nil when there is none). -/
def Node.first (nd : Node) : Ptr := nd.children.head?

/-- Modelled from the spec: the field `last`, the reference to the last
child (nil when there is none). -/
def Node.last (nd : Node) : Ptr := nd.children.getLast?

/-- A node with no content and no children. -/
def Node.blank (parent : Option Nat) : Node :=
  { content := [], parent := parent, children := [] }

/-- Modelled from the spec: `Root()`, a detached node with no parent, no
content and no children. -/
def Root : Store × Ptr := ([Node.blank none], some 0)

/-- Modelled from the spec: `MakeChild`, which creates a content-less node,
appends it as the last child of `p` and returns it.  A nil receiver panics. -/
def MakeChild (h : Store) (p : Ptr) : Outcome (Store × Ptr) :=
  match p with
  | none => .panic
  | some i =>
    match h[i]? with
    | none => .panic
    | some nd =>
      .ret ((h.set i { nd with children := nd.children ++ [h.length] })
              ++ [Node.blank (some i)], some h.length)

/-- Modelled from the spec: `Parent`, which returns the parent reference of
`p`; for the root that reference is absent, so the result is nil.  A nil
receiver panics. -/
def Parent (h : Store) (p : Ptr) : Outcome Ptr :=
  match p with
  | none => .panic
  | some i =>
    match h[i]? with
    | none => .panic
    | some nd => .ret nd.parent

/-- Modelled from the spec: `AddToken`, which appends a new leaf holding
`text` as the last child of `p` and returns nothing.  A nil receiver
panics. -/
def AddToken (h : Store) (p : Ptr) (text : Str) : Outcome Store :=
  match p with
  | none => .panic
  | some i =>
    match h[i]? with
    | none => .panic
    | some nd =>
      .ret ((h.set i { nd with children := nd.children ++ [h.length] })
              ++ [{ content := text, parent := some i, children := [] }])

/-! ## Depth transitions -/

/-- The loop `for i := depthChange; i < 0; i++ { node = node.Parent() }`,
given its number of rounds. -/
def parentTimes : Nat → Store → Ptr → Outcome Ptr
  | 0, _, node => .ret node
  | k + 1, h, node => (Parent h node).andThen (parentTimes k h)

/-- The loop `for i := 0; i < depthChange; i++ { node = node.MakeChild() }`,
given its number of rounds. -/
def makeChildTimes : Nat → Store → Ptr → Outcome (Store × Ptr)
  | 0, h, node => .ret (h, node)
  | k + 1, h, node => (MakeChild h node).andThen (fun r => makeChildTimes k r.1 r.2)

/-- The function `indentSrfi49`. -/
def indentSrfi49 (depthChange : Int) (h : Store) (node : Ptr) : Outcome (Store × Ptr) :=
  if depthChange < 0 then
    (parentTimes depthChange.natAbs h node).andThen (fun node1 =>
      (Parent h node1).andThen (fun p => MakeChild h p))
  else if depthChange = 0 then
    (Parent h node).andThen (fun p => MakeChild h p)
  else if depthChange > 0 then
    makeChildTimes depthChange.toNat h node
  else
    .panic

/-! ## Block processing -/

/-- The loop `for s != "" && s[0] == '\n' { s = s[1:] }`. -/
def skipNewlines : Str → Str
  | [] => []
  | c :: r => if c = nl then skipNewlines r else c :: r

/-- The loop `for s != "" && s[0] == '\t' { newDepth++; s = s[1:] }`. -/
def countTabs : Nat → Str → Nat × Str
  | newDepth, [] => (newDepth, [])
  | newDepth, c :: r => if c = tab then countTabs (newDepth + 1) r else (newDepth, c :: r)

/-- The loop `for s != "" && s[0] != '\n' { s = s[1:] }`. -/
def skipLine : Str → Str
  | [] => []
  | c :: r => if c = nl then c :: r else skipLine r

/-- The loop `for s[0] != '\n' { s = s[1:] }` of the top level, which indexes
the string without testing for its end. -/
def skipLineTop : Str → Outcome Str
  | [] => .panic
  | c :: r => if c = nl then .ret (c :: r) else skipLineTop r

/-- The slice `s[0:e]`, which panics when `e` is out of range. -/
def sliceTo (s : Str) (e : Nat) : Outcome Str :=
  if e ≤ s.length then .ret (s.take e) else .panic

/-- The slice `s[e:]`, which panics when `e` is out of range. -/
def sliceFrom (s : Str) (e : Nat) : Outcome Str :=
  if e ≤ s.length then .ret (s.drop e) else .panic

/-- The variables of the loop of `doTopNode`: the remaining input, the node
store, the cursor `n` and `tabDepth`. -/
structure Scan where
  s : Str
  h : Store
  n : Ptr
  tabDepth : Int
  deriving DecidableEq, Repr

/-- What one round of a loop does: go on with new variables, leave the loop,
return an error, or panic. -/
inductive Step (σ : Type) where
  | next (st : σ)
  | brk (st : σ)
  | fail (msg : Str)
  | panic
  deriving DecidableEq, Repr

/-- The message of `fmt.Errorf("Could not find end of token %s.", s)`. -/
def tokenError (s : Str) : Str :=
  "Could not find end of token ".toList ++ s ++ ".".toList

/-- One round of the loop of `doTopNode`: the switch on `s[0]`. -/
def blockStep (isens : Bool) (root : Ptr) (st : Scan) : Step Scan :=
  match st.s with
  | [] => .panic
  | c :: r =>
    if c = '(' then
      match MakeChild st.h st.n with
      | .ret (h1, n1) => .next { st with s := r, h := h1, n := n1 }
      | _ => .panic
    else if c = ')' then
      match Parent st.h st.n with
      | .ret n1 => .next { st with s := r, n := n1 }
      | _ => .panic
    else if c = ' ' ∨ c = tab then
      .next { st with s := r }
    else if c = nl then
      let s1 := skipNewlines (c :: r)
      if !isens then
        if st.n = root then .brk { st with s := s1 } else .next { st with s := s1 }
      else if s1 = [] ∨ s1.head? ≠ some tab then
        .brk { st with s := s1 }
      else
        let (newDepth, s2) := countTabs 0 s1
        match indentSrfi49 ((newDepth : Int) - st.tabDepth) st.h st.n with
        | .ret (h1, n1) => .next { s := s2, h := h1, n := n1, tabDepth := newDepth }
        | _ => .panic
    else if c = ';' then
      match sliceFrom (skipLine (c :: r)) 1 with
      | .ret s1 => .next { st with s := s1 }
      | _ => .panic
    else
      match findTokenEnd (c :: r) with
      | .ret e =>
        if e < 0 then .fail (tokenError (c :: r))
        else
          match sliceTo (c :: r) e.toNat, sliceFrom (c :: r) e.toNat with
          | .ret tok, .ret s1 =>
            match AddToken st.h st.n tok with
            | .ret h1 => .next { st with s := s1, h := h1 }
            | _ => .panic
          | _, _ => .panic
      | _ => .panic

/-- The loop `for s != "" { ... }` of `doTopNode`, with a budget of rounds;
it returns the remaining input and the store. -/
def doTopNodeLoop (isens : Bool) (root : Ptr) : Nat → Scan → Outcome (Str × Store)
  | 0, _ => .fuel
  | f + 1, st =>
    if st.s = [] then .ret (st.s, st.h)
    else
      match blockStep isens root st with
      | .next st1 => doTopNodeLoop isens root f st1
      | .brk st1 => .ret (st1.s, st1.h)
      | .fail msg => .err msg
      | .panic => .panic

/-- The closure `doTopNode`: it reads the syntax mode off the first
character, makes the working node of the block and runs the loop. -/
def doTopNode (root : Ptr) (s : Str) (h : Store) : Outcome (Str × Store) :=
  match s with
  | [] => .panic
  | c :: r =>
    let isens := !(decide (c = '('))
    let s1 := if c = '(' then r else c :: r
    match MakeChild h root with
    | .ret (h1, n) =>
      doTopNodeLoop isens root (s1.length + 1) { s := s1, h := h1, n := n, tabDepth := 0 }
    | _ => .panic

/-! ## The top level -/

/-- One round of the top-level loop of `parseString`. -/
def topStep (root : Ptr) (s : Str) (h : Store) : Step (Str × Store) :=
  match s with
  | [] => .panic
  | c :: r =>
    if c = ' ' ∨ c = tab then .next (r, h)
    else if c = nl then .next (r, h)
    else if c = ';' then
      match skipLineTop (c :: r) with
      | .ret s1 => .next (s1, h)
      | _ => .panic
    else
      match doTopNode root (c :: r) h with
      | .ret (s1, h1) => .next (s1, h1)
      | .err msg => .fail msg
      | .panic => .panic
      | .fuel => .brk (c :: r, h)

/-- The top-level loop `for s != "" { ... }`, with a budget of rounds. -/
def topLoop (root : Ptr) : Nat → Str → Store → Outcome Store
  | 0, _, _ => .fuel
  | f + 1, s, h =>
    if s = [] then .ret h
    else
      match topStep root s h with
      | .next (s1, h1) => topLoop root f s1 h1
      | .brk _ => .fuel
      | .fail msg => .err msg
      | .panic => .panic

/-- The loop `for root != nil && root.first == root.last &&
root.content == "" { root = root.first }`, with a budget of rounds. -/
def collapse (h : Store) : Nat → Ptr → Outcome Ptr
  | 0, _ => .fuel
  | f + 1, root =>
    match root with
    | none => .ret none
    | some i =>
      match h[i]? with
      | none => .panic
      | some nd =>
        if nd.first = nd.last ∧ nd.content = [] then collapse h f nd.first
        else .ret root

/-- The function `parseString`: the store holding the tree and the node
handed back, or the error.  The budgets cover every input: each round of
either loop consumes input, and each round of the collapse moves to a node
created later. -/
def parseString (s : Str) : Outcome (Store × Ptr) :=
  match topLoop Root.2 (s.length + 1) s Root.1 with
  | .ret h =>
    match collapse h (h.length + 1) Root.2 with
    | .ret r => .ret (h, r)
    | .err msg => .err msg
    | .panic => .panic
    | .fuel => .fuel
  | .err msg => .err msg
  | .panic => .panic
  | .fuel => .fuel

/-- The characters that end a bare token. -/
def delims : List Char := [' ', tab, nl, dquote, '(', ')']

/-- Patterns every match of which consumes at least one character. -/
def Regex.consuming : Regex → Bool
  | .char _ => true
  | .notOf _ => true
  | .any => true
  | .seq a b => a.consuming || b.consuming
  | .alt a b => a.consuming && b.consuming
  | .star _ => false
  | .plus a => a.consuming
  | .opt _ => false

/-- The loop of `doTopNode` run to its end from given loop variables. -/
def blockRun (isens : Bool) (root : Ptr) (st : Scan) : Outcome (Str × Store) :=
  doTopNodeLoop isens root (st.s.length + 1) st

/-- The top-level loop run to its end from a given remaining input and store. -/
def topRun (root : Ptr) (s : Str) (h : Store) : Outcome Store :=
  topLoop root (s.length + 1) s h

/-- A bare token: a non-empty run of characters none of which ends a token,
not starting with `;` (a comment) or a single quote (a character literal). -/
def Atom (t : Str) : Prop :=
  t ≠ [] ∧ (∀ c ∈ t, c ∉ delims) ∧ t.head? ≠ some ';' ∧ t.head? ≠ some squote

instance instDecidableAtom (t : Str) : Decidable (Atom t) := by
  unfold Atom; infer_instance

/-- What may follow a bare token: the end of the input or a character that
ends the token. -/
def TokenEnd (rest : Str) : Prop :=
  match rest with
  | [] => True
  | c :: _ => c ∈ delims

instance instDecidableTokenEnd (rest : Str) : Decidable (TokenEnd rest) := by
  unfold TokenEnd; split <;> infer_instance

/-- Five lines at tab depths 0, 1, 2, 1, 0 holding the tokens `a` to `e`. -/
def indentedText (a b c d e : Str) : Str :=
  a ++ nl :: tab :: (b ++ nl :: tab :: tab :: (c ++ nl :: tab :: (d ++ nl :: e)))

/-- The classic text `(a (b (c)) (d))`, a newline, and `(e)`. -/
def classicText (a b c d e : Str) : Str :=
  '(' :: (a ++ ' ' :: '(' :: (b ++ ' ' :: '(' :: (c ++ ')' :: ')' :: ' ' :: '(' ::
    (d ++ ')' :: ')' :: nl :: '(' :: (e ++ [')'])))))

/-- The tree of both texts: two blocks under the root, the first holding `a`,
the node of `b` (which holds the node of `c`) and the node of `d`, the second
holding `e`. -/
def fiveLineStore (a b c d e : Str) : Store :=
  [{ content := [], parent := none, children := [1, 9] },
   { content := [], parent := some 0, children := [2, 3, 7] },
   { content := a, parent := some 1, children := [] },
   { content := [], parent := some 1, children := [4, 5] },
   { content := b, parent := some 3, children := [] },
   { content := [], parent := some 3, children := [6] },
   { content := c, parent := some 5, children := [] },
   { content := [], parent := some 1, children := [8] },
   { content := d, parent := some 7, children := [] },
   { content := [], parent := some 0, children := [10] },
   { content := e, parent := some 9, children := [] }]

/-- Following the words of the claim on string tokens: scanning the
characters after the opening quote, `i` being the index of the next one, the
index just after the first double quote that is not escaped by a backslash,
if there is one.  A backslash escapes the character after it. -/
def closingQuoteEnd : Nat → Str → Option Nat
  | _, [] => none
  | i, [c] => if c = dquote then some (i + 1) else none
  | i, c :: x :: r =>
    if c = dquote then some (i + 1)
    else if c = bslash then closingQuoteEnd (i + 2) r
    else closingQuoteEnd (i + 1) (x :: r)

/-- Following the words of the claim on character tokens: a single quote, an
optional backslash, one character and a closing single quote. -/
def isCharLiteral (t : Str) : Bool :=
  match t with
  | [q1, _, q2] => q1 = squote && q2 = squote
  | [q1, b, _, q2] => q1 = squote && b = bslash && q2 = squote
  | _ => false

/-- The parent reference of node `i`, when the node exists and has one. -/
def parentOf (h : Store) (i : Nat) : Option Nat :=
  match h[i]? with
  | none => none
  | some nd => nd.parent

/-- The `k`-th ancestor of node `i`: the node reached by following `k`
parent references. -/
def ancestor (h : Store) : Nat → Nat → Option Nat
  | 0, i => if i < h.length then some i else none
  | k + 1, i =>
    match parentOf h i with
    | none => none
    | some p => ancestor h k p

/-- The number of parent references from node `i` up to a node without
parent, counted with a budget of steps. -/
def depthFuel (h : Store) : Nat → Nat → Option Nat
  | 0, _ => none
  | f + 1, i =>
    match h[i]? with
    | none => none
    | some nd =>
      match nd.parent with
      | none => some 0
      | some p =>
        match depthFuel h f p with
        | none => none
        | some d => some (d + 1)

/-- The depth of node `i` below the root of its tree. -/
def depth (h : Store) (i : Nat) : Option Nat := depthFuel h h.length i
/-- A store `h1` extends `h`: it is at least as long and every node of `h`
is still there with the same parent reference. -/
def Extends (h h1 : Store) : Prop :=
  h.length ≤ h1.length ∧
  ∀ (j : Nat) (nd : Node), h[j]? = some nd →
    ∃ nd1 : Node, h1[j]? = some nd1 ∧ nd1.parent = nd.parent

/-- The rest of a parse from inside a block: the block loop run to its end,
then the top-level loop on the input it leaves. -/
def resume (isens : Bool) (root : Ptr) (st : Scan) : Outcome Store :=
  match blockRun isens root st with
  | .ret (s1, h1) => topRun root s1 h1
  | .err msg => .err msg
  | .panic => .panic
  | .fuel => .fuel

/-- The tokens of a store in the order they were added, each with the depth
of the node it is attached to. -/
def leafDepths (h : Store) : List (Str × Nat) :=
  h.filterMap (fun nd =>
    if nd.content = [] then none
    else
      match nd.parent with
      | none => none
      | some p =>
        match depth h p with
        | none => none
        | some d => some (nd.content, d))

/-- Following the words of the claim on balanced parentheses: the bare
tokens of a text without quotes and comments, in order, each with the number
of `(` before it that no `)` has matched yet.  `cnt` is that number so far
and `cur` the token being read. -/
def tokenDepths : Nat → Str → Str → List (Str × Nat)
  | cnt, cur, [] => if cur = [] then [] else [(cur, cnt)]
  | cnt, cur, c :: r =>
    if c ∈ delims then
      (if cur = [] then [] else [(cur, cnt)]) ++
        tokenDepths (if c = '(' then cnt + 1 else if c = ')' then cnt - 1 else cnt) [] r
    else tokenDepths cnt (cur ++ [c]) r

/-- Following the words of the claim on balanced parentheses: a classic
text.  It holds no quote character and no semicolon; its parentheses are
balanced (`cnt`, the number of unmatched `(` so far, never drops below zero
and ends at zero); and every top-level block begins with `(`: where the scan
is at the top level (`top`: at the start of the text, and after a newline at
which all parentheses are closed, blanks and newlines skipped) no token
starts. -/
def classicOK : Bool → Nat → Str → Bool
  | _, cnt, [] => cnt == 0
  | top, cnt, c :: r =>
    if c = '(' then classicOK false (cnt + 1) r
    else if c = ')' then decide (0 < cnt) && classicOK false (cnt - 1) r
    else if c = nl then classicOK (cnt == 0) cnt r
    else if c = ' ' ∨ c = tab then classicOK top cnt r
    else if c = dquote ∨ c = squote ∨ c = ';' then false
    else !top && classicOK false cnt r

/-- A store that is one tree under node 0: every node has a depth, and node 0
is the only one without a parent. -/
def WellFormed (h : Store) : Prop :=
  (∀ i, i < h.length → ∃ d, depth h i = some d) ∧
  (∀ (i : Nat) (nd : Node), h[i]? = some nd → nd.parent = none → i = 0) ∧
  depth h 0 = some 0

/-- The store after a node `new` has been added as last child of node `q`
(whose record was `ndq`): what `MakeChild` and `AddToken` do to the store. -/
def grow (h : Store) (q : Nat) (ndq new : Node) : Store :=
  h.set q { ndq with children := ndq.children ++ [h.length] } ++ [new]

/-- The number of `(` of a text minus the number of its `)`. -/
def unmatched (s : Str) : Int := (s.count '(' : Int) - (s.count ')' : Int)

/-- Balanced parentheses, read off the characters: no leading part of the
text has more `)` than `(`, and the whole text has as many of each. -/
def parenBalanced (s : Str) : Prop :=
  (∀ k, k < s.length + 1 → 0 ≤ unmatched (s.take k)) ∧ unmatched s = 0

instance instDecidableParenBalanced (s : Str) : Decidable (parenBalanced s) := by
  unfold parenBalanced; infer_instance

/-- Following the words of the claim on string literals: a body made of
characters other than the double quote and the backslash, mixed with escaped
quotes (a backslash, then a double quote). -/
def isStringBody : Str → Bool
  | [] => true
  | [c] => c ≠ dquote && c ≠ bslash
  | c :: d :: r =>
    if c = bslash then d = dquote && isStringBody r
    else c ≠ dquote && isStringBody (d :: r)

/-- A property of store and cursor that the three node operations keep. -/
structure Kept (I : Store → Ptr → Prop) : Prop where
  make : ∀ h n h1 n1, I h n → MakeChild h n = .ret (h1, n1) → I h1 n1
  parent : ∀ h n n1, I h n → Parent h n = .ret n1 → I h n1
  token : ∀ h n t h1, I h n → AddToken h n t = .ret h1 → I h1 n

/-- A tidy store: it is not empty, and the children of every node are listed
in increasing order, each created after its parent and present in the
store. -/
def Tidy (h : Store) : Prop :=
  0 < h.length ∧
  ∀ (i : Nat) (nd : Node), h[i]? = some nd →
    nd.children.Pairwise (fun a b => a < b) ∧ ∀ c ∈ nd.children, i < c ∧ c < h.length

/-- The walk of the final collapse, as a relation: from node `i`, as long as
the node has no content and exactly one child the walk moves to that child;
it stops at a node with content or with two or more children, which is the
result; at a node with no content and no children the result is nil. -/
inductive Collapses (h : Store) : Nat → Ptr → Prop where
  | stay (i : Nat) (nd : Node) : h[i]? = some nd →
      (nd.content ≠ [] ∨ 2 ≤ nd.children.length) → Collapses h i (some i)
  | drop (i : Nat) (nd : Node) : h[i]? = some nd → nd.content = [] → nd.children = [] →
      Collapses h i none
  | down (i : Nat) (nd : Node) (c : Nat) (r : Ptr) : h[i]? = some nd → nd.content = [] →
      nd.children = [c] → Collapses h c r → Collapses h i r

/-- Text that stays inside the outermost parentheses of a classic block and
holds no quote character and no semicolon: `cnt`, the number of `(` not yet
matched by a `)`, the opening one of the block included, never drops below
one. -/
def insideOK : Nat → Str → Bool
  | _, [] => true
  | cnt, c :: r =>
    if c = '(' then insideOK (cnt + 1) r
    else if c = ')' then decide (2 ≤ cnt) && insideOK (cnt - 1) r
    else if c = dquote ∨ c = squote ∨ c = ';' then false
    else insideOK cnt r

/-- The states of the block loop met in a parse: `InBlock root s h isens st o c`
says that the top-level loop, run from the input `s` and the store `h`, comes
to a block of mode `isens` whose loop reaches the variables `st` at the head
of a round, after rounds at `o` characters `(` and `c` characters `)` in this
block.  `start` is the entry of `doTopNode` into its loop, `step` one round
of that loop, and `later` one round of the top-level loop before the
block. -/
inductive InBlock (root : Ptr) : Str → Store → Bool → Scan → Nat → Nat → Prop where
  | start (x : Char) (r : Str) (h h1 : Store) (n : Ptr) :
      x ≠ ' ' → x ≠ tab → x ≠ nl → x ≠ ';' → MakeChild h root = .ret (h1, n) →
      InBlock root (x :: r) h (!(decide (x = '(')))
        { s := if x = '(' then r else x :: r, h := h1, n := n, tabDepth := 0 } 0 0
  | step (s : Str) (h : Store) (isens : Bool) (st : Scan) (o c : Nat) (x : Char) (r : Str)
      (st1 : Scan) :
      InBlock root s h isens st o c → st.s = x :: r → blockStep isens root st = .next st1 →
      InBlock root s h isens st1 (if x = '(' then o + 1 else o) (if x = ')' then c + 1 else c)
  | later (s : Str) (h : Store) (s1 : Str) (h1 : Store) (isens : Bool) (st : Scan)
      (o c : Nat) :
      topStep root s h = .next (s1, h1) → InBlock root s1 h1 isens st o c →
      InBlock root s h isens st o c

/-- The depth of the cursor below the root, with `-1` for the nil cursor,
which stands above the root. -/
def cursorDepth (h : Store) (n : Ptr) : Option Int :=
  match n with
  | none => some (-1)
  | some i =>
    match depth h i with
    | none => none
    | some d => some (d : Int)

/-- The chain of last children from node `i` down to node `q`. -/
inductive Chain (h : Store) : Nat → Nat → Prop where
  | here (i : Nat) : Chain h i i
  | down (p : Nat) (nd : Node) (c q : Nat) : h[p]? = some nd →
      nd.children.getLast? = some c → Chain h c q → Chain h p q

/-- The rightmost path of the tree: the root, its last child, the last child
of that node, and so on. -/
def RightPath (h : Store) (q : Nat) : Prop := Chain h 0 q

/-- The nodes below node `i`, node `i` first, read depth-first and left to
right, with a budget of levels. -/
def dfs (h : Store) : Nat → Nat → List Nat
  | 0, _ => []
  | f + 1, i =>
    match h[i]? with
    | none => []
    | some nd => i :: nd.children.flatMap (dfs h f)

/-- The content of node `i` when it is a token. -/
def tokenAt (h : Store) (i : Nat) : Option Str :=
  match h[i]? with
  | none => none
  | some nd => if nd.content = [] then none else some nd.content

/-- The tokens of the tree read depth-first, left to right, from the root. -/
def dfsTokens (h : Store) : List Str :=
  (dfs h h.length 0).filterMap (tokenAt h)

/-- The tokens in the order in which the scan has added them: every
`AddToken` puts its node at the end of the store. -/
def addedTokens (h : Store) : List Str :=
  h.filterMap (fun nd => if nd.content = [] then none else some nd.content)

/-- An ordered store: it is tidy, node 0 has no parent, every child names
its parent, and reading the tree depth-first, left to right, from node 0
lists the nodes in the order in which they were created. -/
def Ordered (h : Store) : Prop :=
  Tidy h ∧ parentOf h 0 = none ∧
  (∀ (p : Nat) (nd : Node) (c : Nat), h[p]? = some nd → c ∈ nd.children →
    parentOf h c = some p) ∧
  dfs h h.length 0 = List.range h.length

/-- The tokens of a text in the order of the text, as the scan cuts them:
parentheses, blanks and newlines are passed over, a comment is passed over up
to and including its newline, and at any other character `findTokenEnd`
gives the end of the token that starts there. -/
inductive Tokens : Str → List Str → Prop where
  | done : Tokens [] []
  | skip (c : Char) (r : Str) (L : List Str) :
      c = '(' ∨ c = ')' ∨ c = ' ' ∨ c = tab ∨ c = nl → Tokens r L → Tokens (c :: r) L
  | comment (r : Str) (L : List Str) :
      Tokens ((skipLine r).drop 1) L → Tokens (';' :: r) L
  | token (c : Char) (r : Str) (e : Int) (L : List Str) :
      c ≠ '(' → c ≠ ')' → c ≠ ' ' → c ≠ tab → c ≠ nl → c ≠ ';' →
      findTokenEnd (c :: r) = .ret e → 0 < e → e.toNat ≤ (c :: r).length →
      Tokens ((c :: r).drop e.toNat) L → Tokens (c :: r) ((c :: r).take e.toNat :: L)

/-- A stretch of the scan from the input `s` and the store `h` to the input
`s1` and the store `h1` cuts tokens in order: the tokens it has added to the
store, followed by the tokens of `s1`, are the tokens of `s`. -/
def Cuts (s : Str) (h : Store) (s1 : Str) (h1 : Store) : Prop :=
  ∃ new : List Str, addedTokens h1 = addedTokens h ++ new ∧
    ∀ L, Tokens s1 L → Tokens s (new ++ L)

/-! # Theorems -/

/-! ## Facts about the matcher -/

theorem starLoop_ne_nil (m : Str → List Str) (f : Nat) (s : Str) : starLoop m f s ≠ [] := by
  cases f <;> simp [starLoop]

theorem starLoop_length_le (m : Str → List Str) :
    ∀ (f : Nat) (s r : Str), r ∈ starLoop m f s → r.length ≤ s.length := by
  intro f
  induction f with
  | zero => intro s r hr; simp [starLoop] at hr; simp [hr]
  | succ f ih =>
    intro s r hr
    simp only [starLoop, List.mem_append, List.mem_flatMap, List.mem_filter,
      List.mem_singleton, decide_eq_true_eq] at hr
    rcases hr with ⟨s1, ⟨_, h1⟩, h2⟩ | h
    · have := ih s1 r h2; omega
    · simp [h]

theorem run_length_le : ∀ (re : Regex) (s r : Str), r ∈ re.run s → r.length ≤ s.length := by
  intro re
  induction re with
  | char c =>
    intro s r hr
    cases s with
    | nil => simp [Regex.run] at hr
    | cons x t =>
      simp only [Regex.run] at hr
      split at hr <;> simp at hr
      simp [hr]
  | notOf cs =>
    intro s r hr
    cases s with
    | nil => simp [Regex.run] at hr
    | cons x t =>
      simp only [Regex.run] at hr
      split at hr <;> simp at hr
      simp [hr]
  | any =>
    intro s r hr
    cases s with
    | nil => simp [Regex.run] at hr
    | cons x t =>
      simp only [Regex.run] at hr
      split at hr <;> simp at hr
      simp [hr]
  | seq a b iha ihb =>
    intro s r hr
    simp only [Regex.run, List.mem_flatMap] at hr
    obtain ⟨s1, h1, h2⟩ := hr
    have := iha s s1 h1; have := ihb s1 r h2; omega
  | alt a b iha ihb =>
    intro s r hr
    simp only [Regex.run, List.mem_append] at hr
    rcases hr with h | h
    · exact iha s r h
    · exact ihb s r h
  | star a _ =>
    intro s r hr
    simp only [Regex.run] at hr
    exact starLoop_length_le _ _ _ _ hr
  | plus a iha =>
    intro s r hr
    simp only [Regex.run, List.mem_flatMap] at hr
    obtain ⟨s1, h1, h2⟩ := hr
    have := iha s s1 h1; have := starLoop_length_le _ _ _ _ h2; omega
  | opt a iha =>
    intro s r hr
    simp only [Regex.run, List.mem_append, List.mem_singleton] at hr
    rcases hr with h | h
    · exact iha s r h
    · simp [h]

theorem run_length_lt : ∀ (re : Regex), re.consuming = true →
    ∀ (s r : Str), r ∈ re.run s → r.length < s.length := by
  intro re
  induction re with
  | char c =>
    intro _ s r hr
    cases s with
    | nil => simp [Regex.run] at hr
    | cons x t =>
      simp only [Regex.run] at hr
      split at hr <;> simp at hr
      simp [hr]
  | notOf cs =>
    intro _ s r hr
    cases s with
    | nil => simp [Regex.run] at hr
    | cons x t =>
      simp only [Regex.run] at hr
      split at hr <;> simp at hr
      simp [hr]
  | any =>
    intro _ s r hr
    cases s with
    | nil => simp [Regex.run] at hr
    | cons x t =>
      simp only [Regex.run] at hr
      split at hr <;> simp at hr
      simp [hr]
  | seq a b iha ihb =>
    intro hc s r hr
    simp only [Regex.run, List.mem_flatMap] at hr
    obtain ⟨s1, h1, h2⟩ := hr
    have l1 := run_length_le a s s1 h1
    have l2 := run_length_le b s1 r h2
    simp only [Regex.consuming, Bool.or_eq_true] at hc
    rcases hc with hc | hc
    · have := iha hc s s1 h1; omega
    · have := ihb hc s1 r h2; omega
  | alt a b iha ihb =>
    intro hc s r hr
    simp only [Regex.consuming, Bool.and_eq_true] at hc
    simp only [Regex.run, List.mem_append] at hr
    rcases hr with h | h
    · exact iha hc.1 s r h
    · exact ihb hc.2 s r h
  | star a _ => intro hc; simp [Regex.consuming] at hc
  | plus a iha =>
    intro hc s r hr
    simp only [Regex.consuming] at hc
    simp only [Regex.run, List.mem_flatMap] at hr
    obtain ⟨s1, h1, h2⟩ := hr
    have := iha hc s s1 h1; have := starLoop_length_le _ _ _ _ h2; omega
  | opt a _ => intro hc; simp [Regex.consuming] at hc

theorem matchLen_bounds (re : Regex) (hc : re.consuming = true) (s : Str) (len : Nat)
    (h : re.matchLen s = some len) : 1 ≤ len ∧ len ≤ s.length := by
  unfold Regex.matchLen at h
  cases hrun : re.run s with
  | nil => simp [hrun] at h
  | cons r t =>
    simp [hrun] at h
    have : r ∈ re.run s := by simp [hrun]
    have := run_length_lt re hc s r this
    omega

theorem findFrom_bounds (re : Regex) (hc : re.consuming = true) :
    ∀ (s : Str) (off i j : Nat), findFrom re off s = some (i, j) →
      off ≤ i ∧ i < j ∧ j ≤ off + s.length := by
  intro s
  induction s with
  | nil =>
    intro off i j h
    simp only [findFrom] at h
    split at h
    · rename_i len hl
      have := matchLen_bounds re hc [] len hl
      simp at this; omega
    · simp at h
  | cons c r ih =>
    intro off i j h
    simp only [findFrom] at h
    split at h
    · rename_i len hl
      have := matchLen_bounds re hc (c :: r) len hl
      simp at h; simp at this ⊢; omega
    · have := ih (off + 1) i j h
      simp; omega

theorem stringRegex_consuming : stringRegex.consuming = true := by decide

theorem charRegex_consuming : charRegex.consuming = true := by decide

theorem tokenRegex_consuming : tokenRegex.consuming = true := by decide

/-- The end found by `findTokenEnd` on a non-empty string is `-1` or a
position from 1 to the length of the string. -/
theorem findTokenEnd_bounds (c : Char) (r : Str) :
    ∃ e : Int, findTokenEnd (c :: r) = .ret e ∧ (e = -1 ∨ (1 ≤ e ∧ e ≤ (c :: r).length)) := by
  have hre : (if c = dquote then stringRegex else if c = squote then charRegex
      else tokenRegex).consuming = true := by
    split
    · exact stringRegex_consuming
    · split
      · exact charRegex_consuming
      · exact tokenRegex_consuming
  simp only [findTokenEnd, FindStringIndex]
  cases hf : findFrom (if c = dquote then stringRegex else if c = squote then charRegex
      else tokenRegex) 0 (c :: r) with
  | none => exact ⟨-1, rfl, Or.inl rfl⟩
  | some loc =>
    obtain ⟨i, j⟩ := loc
    have := findFrom_bounds _ hre _ _ _ _ hf
    refine ⟨(j : Int), rfl, Or.inr ?_⟩
    simp at this ⊢
    omega

theorem starLoop_class (m : Str → List Str) (cs : List Char) (hnil : m [] = [])
    (hcons : ∀ (x : Char) (t : Str), m (x :: t) = if x ∈ cs then [] else [t]) :
    ∀ (f : Nat) (s : Str), s.length ≤ f →
      (starLoop m f s).head? = some (s.dropWhile (fun c => decide (c ∉ cs))) := by
  intro f
  induction f with
  | zero =>
    intro s hs
    have : s = [] := List.length_eq_zero.mp (by omega)
    subst this
    simp [starLoop]
  | succ f ih =>
    intro s hs
    cases s with
    | nil => simp [starLoop, hnil]
    | cons x t =>
      by_cases hx : x ∈ cs
      · simp [starLoop, hcons, hx, List.dropWhile]
      · have ht : t.length ≤ f := by simpa using hs
        have h1 := ih t ht
        have hne := starLoop_ne_nil m f t
        simp only [starLoop, hcons, hx, if_false, List.filter, List.length_cons,
          Nat.lt_succ_self, decide_True, List.flatMap_cons, List.flatMap_nil, List.append_nil]
        rw [List.head?_append_of_ne_nil _ hne, h1]
        simp [List.dropWhile, hx]

theorem run_notOf_nil (cs : List Char) : Regex.run (.notOf cs) [] = [] := rfl

theorem run_notOf_cons (cs : List Char) (x : Char) (t : Str) :
    Regex.run (.notOf cs) (x :: t) = if x ∈ cs then [] else [t] := rfl

theorem run_plus (r : Regex) (s : Str) :
    Regex.run (.plus r) s = (r.run s).flatMap (fun s1 => starLoop r.run s1.length s1) := rfl

theorem takeWhile_length_add_dropWhile (p : Char → Bool) (s : Str) :
    (s.takeWhile p).length + (s.dropWhile p).length = s.length := by
  have := congrArg List.length (List.takeWhile_append_dropWhile p s)
  rw [List.length_append] at this
  exact this

/-- On a string that starts with a character allowed in a bare token, the
match of the token pattern is the longest run of such characters. -/
theorem tokenRegex_matchLen (x : Char) (t : Str) (hx : x ∉ delims) :
    tokenRegex.matchLen (x :: t)
      = some ((x :: t).takeWhile (fun c => decide (c ∉ delims))).length := by
  have h1 := starLoop_class (Regex.run (.notOf delims)) delims (run_notOf_nil _)
    (run_notOf_cons _) t.length t (le_refl _)
  have hlen := takeWhile_length_add_dropWhile (fun c => decide (c ∉ delims)) t
  have hrun : tokenRegex.run (x :: t) = starLoop (Regex.run (.notOf delims)) t.length t := by
    show Regex.run (.plus (.notOf delims)) (x :: t) = _
    rw [run_plus, run_notOf_cons]
    simp [hx]
  unfold Regex.matchLen
  rw [hrun, h1]
  simp only [Option.map_some', List.length_cons, List.takeWhile, hx, not_false_eq_true,
    decide_True]
  congr 1
  omega

/-- The value of `findTokenEnd` on a string that starts a bare token. -/
theorem findTokenEnd_bare (x : Char) (t : Str) (hx : x ∉ delims) (hq : x ≠ squote) :
    findTokenEnd (x :: t)
      = .ret (((x :: t).takeWhile (fun c => decide (c ∉ delims))).length : Int) := by
  have hd : x ≠ dquote := by
    intro h; apply hx; rw [h]; decide
  simp only [findTokenEnd, FindStringIndex, hd, hq, if_false, findFrom,
    tokenRegex_matchLen x t hx]
  simp

theorem take_all_iff_le_takeWhile (p : Char → Bool) :
    ∀ (s : Str) (k : Nat), k ≤ s.length →
      ((∀ c ∈ s.take k, p c = true) ↔ k ≤ (s.takeWhile p).length) := by
  intro s
  induction s with
  | nil => intro k hk; simp at hk; simp [hk]
  | cons x t ih =>
    intro k hk
    cases k with
    | zero => simp
    | succ k =>
      have hk2 : k ≤ t.length := by simpa using hk
      by_cases hp : p x = true
      · simp [List.takeWhile, hp, ih k hk2]
      · simp [List.takeWhile, hp]

/-! ## Every round consumes input -/

theorem skipNewlines_length_le (s : Str) : (skipNewlines s).length ≤ s.length := by
  induction s with
  | nil => simp [skipNewlines]
  | cons c r ih =>
    simp only [skipNewlines]
    split
    · simp; omega
    · simp

theorem countTabs_length_le : ∀ (s : Str) (d : Nat), (countTabs d s).2.length ≤ s.length := by
  intro s
  induction s with
  | nil => intro d; simp [countTabs]
  | cons c r ih =>
    intro d
    simp only [countTabs]
    split
    · have := ih (d + 1); simp; omega
    · simp

theorem skipLine_length_le (s : Str) : (skipLine s).length ≤ s.length := by
  induction s with
  | nil => simp [skipLine]
  | cons c r ih =>
    simp only [skipLine]
    split
    · simp
    · simp; omega

theorem skipLineTop_length_le : ∀ (s s1 : Str), skipLineTop s = .ret s1 → s1.length ≤ s.length := by
  intro s
  induction s with
  | nil => intro s1 h; simp [skipLineTop] at h
  | cons c r ih =>
    intro s1 h
    simp only [skipLineTop] at h
    split at h
    · simp at h; simp [← h]
    · have := ih s1 h; simp; omega

/-- A round of the block loop that goes on, or leaves the loop, has consumed
at least one character. -/
theorem blockStep_length_lt (isens : Bool) (root : Ptr) (st st1 : Scan)
    (h : blockStep isens root st = .next st1 ∨ blockStep isens root st = .brk st1) :
    st1.s.length < st.s.length := by
  obtain ⟨s, hp, n, td⟩ := st
  cases s with
  | nil => simp [blockStep] at h
  | cons c r =>
    have hsn := skipNewlines_length_le r
    have hsl := skipLine_length_le r
    simp only [blockStep] at h
    split at h
    · -- open paren
      split at h
      · rcases h with h | h <;> simp at h
        simp [← h]
      · simp at h
    · split at h
      · split at h
        · rcases h with h | h <;> simp at h
          simp [← h]
        · simp at h
      · split at h
        · rcases h with h | h <;> simp at h
          simp [← h]
        · split at h
          · rename_i hnl
            simp only [skipNewlines, hnl, if_true] at h
            split at h
            · split at h
              · rcases h with h | h <;> simp at h
                simp [← h]; omega
              · rcases h with h | h <;> simp at h
                simp [← h]; omega
            · split at h
              · rcases h with h | h <;> simp at h
                simp [← h]; omega
              · have hct := countTabs_length_le (skipNewlines r) 0
                split at h
                · rcases h with h | h <;> simp at h
                  simp only [← h]
                  simp at hct ⊢; omega
                · simp at h
          · split at h
            · rename_i hnl hsc
              simp only [skipLine, hnl, if_false, sliceFrom] at h
              split at h
              · rename_i s1 heq
                split at heq
                · simp at heq
                  rcases h with h | h <;> simp at h
                  simp [← h, ← heq]; omega
                · simp at heq
              · simp at h
            · obtain ⟨e, he, hb⟩ := findTokenEnd_bounds c r
              rw [he] at h
              simp only at h
              split at h
              · simp at h
              · rename_i hneg
                rcases hb with hb | hb
                · omega
                · simp only [sliceTo, sliceFrom] at h
                  have hle : e.toNat ≤ (c :: r).length := by omega
                  simp only [hle, if_true] at h
                  split at h
                  · rcases h with h | h <;> simp at h
                    simp only [← h, List.length_drop]
                    simp; omega
                  · simp at h

theorem doTopNodeLoop_fuel (isens : Bool) (root : Ptr) :
    ∀ (f g : Nat) (st : Scan), st.s.length < f → st.s.length < g →
      doTopNodeLoop isens root f st = doTopNodeLoop isens root g st := by
  intro f
  induction f with
  | zero => intro g st hf; omega
  | succ f ih =>
    intro g st hf hg
    cases g with
    | zero => omega
    | succ g =>
      simp only [doTopNodeLoop]
      split
      · rfl
      · cases hstep : blockStep isens root st with
        | next st1 =>
          have := blockStep_length_lt isens root st st1 (Or.inl hstep)
          exact ih g st1 (by omega) (by omega)
        | brk st1 => rfl
        | fail msg => rfl
        | panic => rfl

theorem doTopNodeLoop_succ (isens : Bool) (root : Ptr) (f : Nat) (st : Scan) :
    doTopNodeLoop isens root (f + 1) st =
      if st.s = [] then .ret (st.s, st.h)
      else
        match blockStep isens root st with
        | .next st1 => doTopNodeLoop isens root f st1
        | .brk st1 => .ret (st1.s, st1.h)
        | .fail msg => .err msg
        | .panic => .panic := rfl

/-- Unfolding of the block loop by one round. -/
theorem blockRun_eq (isens : Bool) (root : Ptr) (st : Scan) :
    blockRun isens root st =
      if st.s = [] then .ret (st.s, st.h)
      else
        match blockStep isens root st with
        | .next st1 => blockRun isens root st1
        | .brk st1 => .ret (st1.s, st1.h)
        | .fail msg => .err msg
        | .panic => .panic := by
  unfold blockRun
  rw [doTopNodeLoop_succ]
  split
  · rfl
  · cases hstep : blockStep isens root st with
    | next st1 =>
      have := blockStep_length_lt isens root st st1 (Or.inl hstep)
      show doTopNodeLoop isens root st.s.length st1
        = doTopNodeLoop isens root (st1.s.length + 1) st1
      apply doTopNodeLoop_fuel <;> omega
    | brk st1 => rfl
    | fail msg => rfl
    | panic => rfl

/-- The block loop never exhausts its budget, and what it leaves of the
input is no longer than what it was given. -/
theorem blockRun_total (isens : Bool) (root : Ptr) :
    ∀ (k : Nat) (st : Scan), st.s.length ≤ k →
      blockRun isens root st ≠ .fuel ∧
      ∀ s1 h1, blockRun isens root st = .ret (s1, h1) →
        s1.length ≤ st.s.length ∧ (st.s ≠ [] → s1.length < st.s.length) := by
  intro k
  induction k with
  | zero =>
    intro st hk
    have h0 : st.s = [] := List.length_eq_zero.mp (by omega)
    rw [blockRun_eq]
    simp [h0]
  | succ k ih =>
    intro st hk
    rw [blockRun_eq]
    split
    · rename_i h0
      simp [h0]
    · cases hstep : blockStep isens root st with
      | next st1 =>
        have hlt := blockStep_length_lt isens root st st1 (Or.inl hstep)
        have := ih st1 (by omega)
        refine ⟨this.1, ?_⟩
        intro s1 h1 hr
        have := this.2 s1 h1 hr
        exact ⟨by omega, fun _ => by omega⟩
      | brk st1 =>
        have hlt := blockStep_length_lt isens root st st1 (Or.inr hstep)
        simp
        exact ⟨by omega, fun _ => by omega⟩
      | fail msg => simp
      | panic => simp

theorem doTopNode_eq (root : Ptr) (c : Char) (r : Str) (h : Store) :
    doTopNode root (c :: r) h =
      match MakeChild h root with
      | .ret (h1, n) =>
        blockRun (!(decide (c = '('))) root
          { s := if c = '(' then r else c :: r, h := h1, n := n, tabDepth := 0 }
      | _ => .panic := rfl

/-- A call of `doTopNode` on a non-empty input never exhausts its budget and
returns strictly less input than it was given. -/
theorem doTopNode_total (root : Ptr) (c : Char) (r : Str) (h : Store) :
    doTopNode root (c :: r) h ≠ .fuel ∧
    ∀ s1 h1, doTopNode root (c :: r) h = .ret (s1, h1) → s1.length < (c :: r).length := by
  rw [doTopNode_eq]
  split
  · rename_i h1 n _
    have := blockRun_total (!(decide (c = '('))) root _
      { s := if c = '(' then r else c :: r, h := h1, n := n, tabDepth := 0 } (le_refl _)
    refine ⟨this.1, ?_⟩
    intro s1 h2 hr
    have := this.2 s1 h2 hr
    by_cases hc : c = '('
    · simp [hc] at this ⊢; omega
    · simp [hc] at this ⊢; omega
  · simp

/-- A round of the top-level loop that goes on has consumed input, and no
round leaves the loop by exhausting a budget. -/
theorem topStep_length_lt (root : Ptr) (s : Str) (h : Store) :
    (∀ q, topStep root s h ≠ .brk q) ∧
    ∀ s1 h1, topStep root s h = .next (s1, h1) → s1.length < s.length := by
  cases s with
  | nil => simp [topStep]
  | cons c r =>
    have hd := doTopNode_total root c r h
    simp only [topStep]
    split
    · simp
    · split
      · simp
      · split
        · rename_i hnl hsc
          cases hsk : skipLineTop (c :: r) with
          | ret s2 =>
            have := skipLineTop_length_le (c :: r) s2 hsk
            simp only [skipLineTop, hnl, if_false] at hsk
            have := skipLineTop_length_le r s2 hsk
            simp; omega
          | err m => simp
          | panic => simp
          | fuel => simp
        · cases hdo : doTopNode root (c :: r) h with
          | ret p =>
            obtain ⟨s2, h2⟩ := p
            have := hd.2 s2 h2 hdo
            simp at this ⊢
            omega
          | err m => simp
          | panic => simp
          | fuel => exact absurd hdo hd.1

theorem topLoop_fuel (root : Ptr) :
    ∀ (f g : Nat) (s : Str) (h : Store), s.length < f → s.length < g →
      topLoop root f s h = topLoop root g s h := by
  intro f
  induction f with
  | zero => intro g s h hf; omega
  | succ f ih =>
    intro g s h hf hg
    cases g with
    | zero => omega
    | succ g =>
      simp only [topLoop]
      split
      · rfl
      · cases hstep : topStep root s h with
        | next p =>
          obtain ⟨s1, h1⟩ := p
          have := (topStep_length_lt root s h).2 s1 h1 hstep
          exact ih g s1 h1 (by omega) (by omega)
        | brk st1 => rfl
        | fail msg => rfl
        | panic => rfl

theorem topLoop_succ (root : Ptr) (f : Nat) (s : Str) (h : Store) :
    topLoop root (f + 1) s h =
      if s = [] then .ret h
      else
        match topStep root s h with
        | .next (s1, h1) => topLoop root f s1 h1
        | .brk _ => .fuel
        | .fail msg => .err msg
        | .panic => .panic := rfl

/-- Unfolding of the top-level loop by one round. -/
theorem topRun_eq (root : Ptr) (s : Str) (h : Store) :
    topRun root s h =
      if s = [] then .ret h
      else
        match topStep root s h with
        | .next (s1, h1) => topRun root s1 h1
        | .brk _ => .fuel
        | .fail msg => .err msg
        | .panic => .panic := by
  unfold topRun
  rw [topLoop_succ]
  split
  · rfl
  · cases hstep : topStep root s h with
    | next p =>
      obtain ⟨s1, h1⟩ := p
      have := (topStep_length_lt root s h).2 s1 h1 hstep
      show topLoop root s.length s1 h1 = topLoop root (s1.length + 1) s1 h1
      apply topLoop_fuel <;> omega
    | brk st1 => rfl
    | fail msg => rfl
    | panic => rfl

theorem parseString_eq (s : Str) :
    parseString s =
      match topRun Root.2 s Root.1 with
      | .ret h =>
        match collapse h (h.length + 1) Root.2 with
        | .ret r => .ret (h, r)
        | .err msg => .err msg
        | .panic => .panic
        | .fuel => .fuel
      | .err msg => .err msg
      | .panic => .panic
      | .fuel => .fuel := rfl

/-! ## Rounds of the block loop, by leading character -/

theorem takeWhile_append_of_all (p : Char → Bool) :
    ∀ (t rest : Str), (∀ c ∈ t, p c = true) → (rest.head?.all (fun c => !p c) = true) →
      (t ++ rest).takeWhile p = t := by
  intro t
  induction t with
  | nil =>
    intro rest _ hr
    cases rest with
    | nil => rfl
    | cons c r =>
      simp at hr
      simp [List.takeWhile, hr]
  | cons x t ih =>
    intro rest ht hr
    have hx : p x = true := ht x (by simp)
    have := ih rest (fun c hc => ht c (by simp [hc])) hr
    rw [List.cons_append, List.takeWhile_cons, hx, if_pos rfl, this]

theorem findTokenEnd_atom (t rest : Str) (ht : Atom t) (hr : TokenEnd rest) :
    findTokenEnd (t ++ rest) = .ret (t.length : Int) := by
  obtain ⟨hne, hall, hsc, hsq⟩ := ht
  cases t with
  | nil => exact absurd rfl hne
  | cons x t =>
    have hx : x ∉ delims := hall x (by simp)
    have hq : x ≠ squote := by simpa using hsq
    have htw : ((x :: t) ++ rest).takeWhile (fun c => decide (c ∉ delims)) = x :: t := by
      apply takeWhile_append_of_all
      · intro c hc; simpa using hall c hc
      · cases rest with
        | nil => rfl
        | cons c r =>
          have : c ∈ delims := hr
          simp [this]
    have := findTokenEnd_bare x (t ++ rest) hx hq
    rw [List.cons_append, this, ← List.cons_append, htw]

theorem atom_head (t : Str) (ht : Atom t) :
    ∃ x r, t = x :: r ∧ x ≠ '(' ∧ x ≠ ')' ∧ x ≠ ' ' ∧ x ≠ tab ∧ x ≠ nl ∧ x ≠ ';' ∧
      x ≠ dquote ∧ x ≠ squote := by
  obtain ⟨hne, hall, hsc, hsq⟩ := ht
  cases t with
  | nil => exact absurd rfl hne
  | cons x r =>
    have hx : x ∉ delims := hall x (by simp)
    simp only [delims, List.mem_cons, List.mem_singleton, List.mem_nil_iff, or_false,
      not_or] at hx
    refine ⟨x, r, rfl, hx.2.2.2.2.1, hx.2.2.2.2.2, hx.1, hx.2.1, hx.2.2.1, ?_, hx.2.2.2.1, ?_⟩
    · simpa using hsc
    · simpa using hsq

/-- A round at a bare token adds it below the cursor and moves past it. -/
theorem blockStep_atom (isens : Bool) (root : Ptr) (t rest : Str) (h : Store) (n : Ptr)
    (td : Int) (ht : Atom t) (hr : TokenEnd rest) :
    blockStep isens root { s := t ++ rest, h := h, n := n, tabDepth := td } =
      match AddToken h n t with
      | .ret h1 => .next { s := rest, h := h1, n := n, tabDepth := td }
      | _ => .panic := by
  have hf := findTokenEnd_atom t rest ht hr
  obtain ⟨x, r, rfl, h1, h2, h3, h4, h5, h6, _, _⟩ := atom_head t ht
  simp only [List.cons_append] at hf ⊢
  simp only [blockStep, h1, h2, h3, h4, h5, h6, if_false, or_self, hf]
  have hlt : ¬ ((((x :: r).length : Nat) : Int) < 0) := by omega
  simp only [hlt, if_false, Int.toNat_ofNat, sliceTo, sliceFrom]
  have hle : (x :: r).length ≤ (x :: (r ++ rest)).length := by simp
  simp only [hle, if_true]
  have e1 : (x :: (r ++ rest)).take (x :: r).length = x :: r := by
    rw [← List.cons_append]; simp
  have e2 : (x :: (r ++ rest)).drop (x :: r).length = rest := by
    rw [← List.cons_append]; simp
  rw [e1, e2]

theorem blockStep_open (isens : Bool) (root : Ptr) (r : Str) (h : Store) (n : Ptr) (td : Int) :
    blockStep isens root { s := '(' :: r, h := h, n := n, tabDepth := td } =
      match MakeChild h n with
      | .ret (h1, n1) => .next { s := r, h := h1, n := n1, tabDepth := td }
      | _ => .panic := by
  simp [blockStep]

theorem blockStep_close (isens : Bool) (root : Ptr) (r : Str) (h : Store) (n : Ptr) (td : Int) :
    blockStep isens root { s := ')' :: r, h := h, n := n, tabDepth := td } =
      match Parent h n with
      | .ret n1 => .next { s := r, h := h, n := n1, tabDepth := td }
      | _ => .panic := by
  simp [blockStep]

theorem blockStep_space (isens : Bool) (root : Ptr) (r : Str) (h : Store) (n : Ptr) (td : Int) :
    blockStep isens root { s := ' ' :: r, h := h, n := n, tabDepth := td } =
      .next { s := r, h := h, n := n, tabDepth := td } := by
  simp [blockStep]

theorem blockStep_tab (isens : Bool) (root : Ptr) (r : Str) (h : Store) (n : Ptr) (td : Int) :
    blockStep isens root { s := tab :: r, h := h, n := n, tabDepth := td } =
      .next { s := r, h := h, n := n, tabDepth := td } := by
  have : tab ≠ '(' := by decide
  have : tab ≠ ')' := by decide
  simp [blockStep, *]

theorem blockStep_nl_classic (root : Ptr) (r : Str) (h : Store) (n : Ptr) (td : Int) :
    blockStep false root { s := nl :: r, h := h, n := n, tabDepth := td } =
      if n = root then .brk { s := skipNewlines r, h := h, n := n, tabDepth := td }
      else .next { s := skipNewlines r, h := h, n := n, tabDepth := td } := by
  have : nl ≠ '(' := by decide
  have : nl ≠ ')' := by decide
  have : nl ≠ ' ' := by decide
  have : nl ≠ tab := by decide
  simp [blockStep, skipNewlines, *]

theorem blockStep_nl_isens (root : Ptr) (r : Str) (h : Store) (n : Ptr) (td : Int) :
    blockStep true root { s := nl :: r, h := h, n := n, tabDepth := td } =
      if skipNewlines r = [] ∨ (skipNewlines r).head? ≠ some tab then
        .brk { s := skipNewlines r, h := h, n := n, tabDepth := td }
      else
        match indentSrfi49 (((countTabs 0 (skipNewlines r)).1 : Int) - td) h n with
        | .ret (h1, n1) =>
          .next { s := (countTabs 0 (skipNewlines r)).2, h := h1, n := n1,
                  tabDepth := (countTabs 0 (skipNewlines r)).1 }
        | _ => .panic := by
  have : nl ≠ '(' := by decide
  have : nl ≠ ')' := by decide
  have : nl ≠ ' ' := by decide
  have : nl ≠ tab := by decide
  simp only [blockStep, skipNewlines, *, if_true, if_false, or_self, Bool.not_true]
  simp only [Bool.false_eq_true, if_false]

theorem blockStep_comment (isens : Bool) (root : Ptr) (r : Str) (h : Store) (n : Ptr) (td : Int) :
    blockStep isens root { s := ';' :: r, h := h, n := n, tabDepth := td } =
      match skipLine r with
      | [] => .panic
      | _ :: s1 => .next { s := s1, h := h, n := n, tabDepth := td } := by
  have : ';' ≠ nl := by decide
  have : ';' ≠ tab := by decide
  simp only [blockStep, skipLine, sliceFrom, *]
  simp only [Char.reduceEq, if_false, or_self]
  cases skipLine r with
  | nil => simp
  | cons c s1 => simp

theorem topStep_atom (root : Ptr) (t rest : Str) (h : Store) (ht : Atom t) :
    topStep root (t ++ rest) h =
      match doTopNode root (t ++ rest) h with
      | .ret (s1, h1) => .next (s1, h1)
      | .err msg => .fail msg
      | .panic => .panic
      | .fuel => .brk (t ++ rest, h) := by
  obtain ⟨x, r, rfl, h1, h2, h3, h4, h5, h6, _, _⟩ := atom_head t ht
  simp only [List.cons_append, topStep, h3, h4, h5, h6, or_self, if_false]

theorem doTopNode_atom (root : Ptr) (t rest : Str) (h : Store) (ht : Atom t) :
    doTopNode root (t ++ rest) h =
      match MakeChild h root with
      | .ret (h1, n) => blockRun true root { s := t ++ rest, h := h1, n := n, tabDepth := 0 }
      | _ => .panic := by
  obtain ⟨x, r, rfl, h1, h2, h3, h4, h5, h6, _, _⟩ := atom_head t ht
  simp only [List.cons_append, doTopNode_eq, h1, if_false, decide_False, Bool.not_false]

theorem blockRun_nil (isens : Bool) (root : Ptr) (h : Store) (n : Ptr) (td : Int) :
    blockRun isens root { s := [], h := h, n := n, tabDepth := td } = .ret ([], h) := by
  rw [blockRun_eq]; simp

theorem blockRun_atom (isens : Bool) (root : Ptr) (t rest : Str) (h : Store) (n : Ptr)
    (td : Int) (ht : Atom t) (hr : TokenEnd rest) :
    blockRun isens root { s := t ++ rest, h := h, n := n, tabDepth := td } =
      match AddToken h n t with
      | .ret h1 => blockRun isens root { s := rest, h := h1, n := n, tabDepth := td }
      | _ => .panic := by
  have hne : t ++ rest ≠ [] := by
    intro h0; exact ht.1 (List.append_eq_nil.mp h0).1
  rw [blockRun_eq, blockStep_atom isens root t rest h n td ht hr]
  simp only [hne, if_false]
  cases AddToken h n t <;> rfl

theorem topRun_nil (root : Ptr) (h : Store) : topRun root [] h = .ret h := by
  rw [topRun_eq]; simp

/-- Claim C10: parsing a single bare token succeeds, and the node handed back
is a leaf whose content is the token and which has no children. -/
theorem parseString_single_atom (t : Str) (ht : Atom t) :
    parseString t =
      .ret ([{ content := [], parent := none, children := [1] },
             { content := [], parent := some 0, children := [2] },
             { content := t, parent := some 1, children := [] }], some 2) := by
  have h1 := topStep_atom (some 0) t [] [Node.blank none] ht
  have h2 := doTopNode_atom (some 0) t [] [Node.blank none] ht
  have h3 := blockRun_atom true (some 0) t []
    [{ content := [], parent := none, children := [1] }, Node.blank (some 0)] (some 1) 0 ht trivial
  simp only [List.append_nil] at h1 h2 h3
  have hne : t ≠ [] := ht.1
  rw [parseString_eq]
  simp only [Root]
  rw [topRun_eq, h1, h2]
  simp only [MakeChild, Node.blank, List.getElem?_cons_zero, List.set_cons_zero, List.length_cons,
    List.length_nil, List.append_nil, List.singleton_append, List.cons_append, List.nil_append,
    zero_add] at h3 ⊢
  rw [h3]
  simp only [AddToken, blockRun_nil, topRun_nil, hne, if_false]
  simp [collapse, Node.first, Node.last, hne, blockRun_nil, topRun_nil]

theorem tokenEnd_nil : TokenEnd [] := trivial
theorem tokenEnd_nl (r : Str) : TokenEnd (nl :: r) := by show nl ∈ delims; decide
theorem tokenEnd_space (r : Str) : TokenEnd (' ' :: r) := by show ' ' ∈ delims; decide
theorem tokenEnd_tab (r : Str) : TokenEnd (tab :: r) := by show tab ∈ delims; decide
theorem tokenEnd_open (r : Str) : TokenEnd ('(' :: r) := by show '(' ∈ delims; decide
theorem tokenEnd_close (r : Str) : TokenEnd (')' :: r) := by show ')' ∈ delims; decide
theorem tokenEnd_dquote (r : Str) : TokenEnd (dquote :: r) := by show dquote ∈ delims; decide

theorem blockRun_open (isens : Bool) (root : Ptr) (r : Str) (h : Store) (n : Ptr) (td : Int) :
    blockRun isens root { s := '(' :: r, h := h, n := n, tabDepth := td } =
      match MakeChild h n with
      | .ret (h1, n1) => blockRun isens root { s := r, h := h1, n := n1, tabDepth := td }
      | _ => .panic := by
  rw [blockRun_eq, blockStep_open]
  simp only [List.cons_ne_nil, if_false]
  cases MakeChild h n <;> rfl

theorem blockRun_close (isens : Bool) (root : Ptr) (r : Str) (h : Store) (n : Ptr) (td : Int) :
    blockRun isens root { s := ')' :: r, h := h, n := n, tabDepth := td } =
      match Parent h n with
      | .ret n1 => blockRun isens root { s := r, h := h, n := n1, tabDepth := td }
      | _ => .panic := by
  rw [blockRun_eq, blockStep_close]
  simp only [List.cons_ne_nil, if_false]
  cases Parent h n <;> rfl

theorem blockRun_space (isens : Bool) (root : Ptr) (r : Str) (h : Store) (n : Ptr) (td : Int) :
    blockRun isens root { s := ' ' :: r, h := h, n := n, tabDepth := td } =
      blockRun isens root { s := r, h := h, n := n, tabDepth := td } := by
  rw [blockRun_eq, blockStep_space]
  simp only [List.cons_ne_nil, if_false]

theorem blockRun_tab (isens : Bool) (root : Ptr) (r : Str) (h : Store) (n : Ptr) (td : Int) :
    blockRun isens root { s := tab :: r, h := h, n := n, tabDepth := td } =
      blockRun isens root { s := r, h := h, n := n, tabDepth := td } := by
  rw [blockRun_eq, blockStep_tab]
  simp only [List.cons_ne_nil, if_false]

theorem blockRun_nl_classic (root : Ptr) (r : Str) (h : Store) (n : Ptr) (td : Int) :
    blockRun false root { s := nl :: r, h := h, n := n, tabDepth := td } =
      if n = root then .ret (skipNewlines r, h)
      else blockRun false root { s := skipNewlines r, h := h, n := n, tabDepth := td } := by
  rw [blockRun_eq, blockStep_nl_classic]
  simp only [List.cons_ne_nil, if_false]
  by_cases hn : n = root
  · simp only [hn, if_true]
  · simp only [hn, if_false]

theorem blockRun_nl_isens (root : Ptr) (r : Str) (h : Store) (n : Ptr) (td : Int) :
    blockRun true root { s := nl :: r, h := h, n := n, tabDepth := td } =
      if skipNewlines r = [] ∨ (skipNewlines r).head? ≠ some tab then
        .ret (skipNewlines r, h)
      else
        match indentSrfi49 (((countTabs 0 (skipNewlines r)).1 : Int) - td) h n with
        | .ret (h1, n1) =>
          blockRun true root { s := (countTabs 0 (skipNewlines r)).2, h := h1, n := n1,
                               tabDepth := (countTabs 0 (skipNewlines r)).1 }
        | _ => .panic := by
  rw [blockRun_eq, blockStep_nl_isens]
  simp only [List.cons_ne_nil, if_false]
  by_cases hc : skipNewlines r = [] ∨ (skipNewlines r).head? ≠ some tab
  · simp only [hc, if_true]
  · simp only [hc, if_false]
    cases indentSrfi49 (((countTabs 0 (skipNewlines r)).1 : Int) - td) h n <;> rfl

theorem blockRun_comment (isens : Bool) (root : Ptr) (r : Str) (h : Store) (n : Ptr) (td : Int) :
    blockRun isens root { s := ';' :: r, h := h, n := n, tabDepth := td } =
      match skipLine r with
      | [] => .panic
      | _ :: s1 => blockRun isens root { s := s1, h := h, n := n, tabDepth := td } := by
  rw [blockRun_eq, blockStep_comment]
  simp only [List.cons_ne_nil, if_false]
  cases skipLine r <;> rfl

theorem skipNewlines_atom (t rest : Str) (ht : Atom t) :
    skipNewlines (t ++ rest) = t ++ rest := by
  obtain ⟨x, r, rfl, h1, h2, h3, h4, h5, h6, _, _⟩ := atom_head t ht
  simp [skipNewlines, h5]

theorem countTabs_atom (k : Nat) (t rest : Str) (ht : Atom t) :
    countTabs k (t ++ rest) = (k, t ++ rest) := by
  obtain ⟨x, r, rfl, h1, h2, h3, h4, h5, h6, _, _⟩ := atom_head t ht
  simp [countTabs, h4]

theorem head_atom_ne_tab (t rest : Str) (ht : Atom t) : (t ++ rest).head? ≠ some tab := by
  obtain ⟨x, r, rfl, h1, h2, h3, h4, h5, h6, _, _⟩ := atom_head t ht
  simp [h4]

theorem atom_append_ne_nil (t rest : Str) (ht : Atom t) : t ++ rest ≠ [] := by
  intro h0; exact ht.1 (List.append_eq_nil.mp h0).1

theorem skipNewlines_tab (r : Str) : skipNewlines (tab :: r) = tab :: r := by
  have : tab ≠ nl := by decide
  simp [skipNewlines, this]

theorem skipNewlines_open (r : Str) : skipNewlines ('(' :: r) = '(' :: r := by
  have : '(' ≠ nl := by decide
  simp [skipNewlines, this]

theorem countTabs_tab (k : Nat) (r : Str) : countTabs k (tab :: r) = countTabs (k + 1) r := by
  simp [countTabs]

theorem topRun_atom (root : Ptr) (t rest : Str) (h : Store) (ht : Atom t) :
    topRun root (t ++ rest) h =
      match MakeChild h root with
      | .ret (h1, n) =>
        match blockRun true root { s := t ++ rest, h := h1, n := n, tabDepth := 0 } with
        | .ret (s1, h2) => topRun root s1 h2
        | .err msg => .err msg
        | .panic => .panic
        | .fuel => .fuel
      | _ => .panic := by
  rw [topRun_eq, topStep_atom root t rest h ht, doTopNode_atom root t rest h ht]
  simp only [atom_append_ne_nil t rest ht, if_false]
  cases MakeChild h root with
  | ret p =>
    obtain ⟨h1, n⟩ := p
    simp only
    cases blockRun true root { s := t ++ rest, h := h1, n := n, tabDepth := 0 } <;> rfl
  | err m => rfl
  | panic => rfl
  | fuel => rfl

theorem topRun_open (root : Ptr) (r : Str) (h : Store) :
    topRun root ('(' :: r) h =
      match MakeChild h root with
      | .ret (h1, n) =>
        match blockRun false root { s := r, h := h1, n := n, tabDepth := 0 } with
        | .ret (s1, h2) => topRun root s1 h2
        | .err msg => .err msg
        | .panic => .panic
        | .fuel => .fuel
      | _ => .panic := by
  have e1 : '(' ≠ tab := by decide
  have e2 : '(' ≠ nl := by decide
  rw [topRun_eq]
  simp only [topStep, doTopNode_eq, e1, e2, Char.reduceEq, or_self, if_false, if_true,
    List.cons_ne_nil, decide_True, Bool.not_true]
  cases MakeChild h root with
  | ret p =>
    obtain ⟨h1, n⟩ := p
    simp only
    cases blockRun false root { s := r, h := h1, n := n, tabDepth := 0 } <;> rfl
  | err m => rfl
  | panic => rfl
  | fuel => rfl

theorem indentSrfi49_one (h : Store) (n : Ptr) : indentSrfi49 1 h n = MakeChild h n := by
  simp only [indentSrfi49]
  norm_num [makeChildTimes, Outcome.andThen]
  cases MakeChild h n <;> rfl

theorem indentSrfi49_neg_one (h : Store) (n : Ptr) :
    indentSrfi49 (-1) h n =
      (Parent h n).andThen (fun p => (Parent h p).andThen (fun q => MakeChild h q)) := by
  simp only [indentSrfi49]
  norm_num [parentTimes, Outcome.andThen]
  cases Parent h n <;> rfl

theorem indentSrfi49_zero (h : Store) (n : Ptr) :
    indentSrfi49 0 h n = (Parent h n).andThen (fun p => MakeChild h p) := by
  simp [indentSrfi49]

theorem classicText_parse (a b c d e : Str) (ha : Atom a) (hb : Atom b) (hc : Atom c)
    (hd : Atom d) (he : Atom e) :
    parseString (classicText a b c d e) = .ret (fiveLineStore a b c d e, some 0) := by
  rw [parseString_eq]
  simp only [Root, classicText, Node.blank, fiveLineStore]
  rw [topRun_open]
  simp only [blockRun_atom, blockRun_open, blockRun_close, blockRun_space, blockRun_nl_classic,
    blockRun_nil, ha, hb, hc, hd, he, tokenEnd_space, tokenEnd_close, tokenEnd_nil,
    skipNewlines_open,
    MakeChild, AddToken, Parent, Node.blank, List.getElem?_cons_zero, List.getElem?_cons_succ,
    List.set_cons_zero, List.set_cons_succ, List.length_cons,
    List.length_nil, List.append_nil, List.singleton_append, List.cons_append, List.nil_append,
    zero_add, Nat.reduceAdd, if_true]
  rw [topRun_open]
  simp only [blockRun_atom, blockRun_open, blockRun_close, blockRun_space, blockRun_nl_classic,
    blockRun_nil, ha, hb, hc, hd, he, tokenEnd_space, tokenEnd_close, tokenEnd_nil,
    skipNewlines_open, topRun_nil,
    MakeChild, AddToken, Parent, Node.blank, List.getElem?_cons_zero, List.getElem?_cons_succ,
    List.set_cons_zero, List.set_cons_succ, List.length_cons,
    List.length_nil, List.append_nil, List.singleton_append, List.cons_append, List.nil_append,
    zero_add, Nat.reduceAdd, if_true]
  simp [collapse, Node.first, Node.last]

theorem indentedText_parse (a b c d e : Str) (ha : Atom a) (hb : Atom b) (hc : Atom c)
    (hd : Atom d) (he : Atom e) :
    parseString (indentedText a b c d e) = .ret (fiveLineStore a b c d e, some 0) := by
  rw [parseString_eq]
  simp only [Root, indentedText, Node.blank, fiveLineStore]
  rw [topRun_atom _ _ _ _ ha]
  simp only [MakeChild, Node.blank, List.getElem?_cons_zero, List.getElem?_cons_succ,
    List.set_cons_zero, List.set_cons_succ, List.length_cons,
    List.length_nil, List.append_nil, List.singleton_append, List.cons_append, List.nil_append,
    zero_add, Nat.reduceAdd, if_true]
  rw [blockRun_atom _ _ a _ _ _ _ ha (tokenEnd_nl _)]
  simp only [AddToken, Node.blank, List.getElem?_cons_zero, List.getElem?_cons_succ,
    List.set_cons_zero, List.set_cons_succ, List.length_cons,
    List.length_nil, List.append_nil, List.singleton_append, List.cons_append, List.nil_append,
    zero_add, Nat.reduceAdd, if_true]
  rw [blockRun_nl_isens]
  simp only [skipNewlines_tab, countTabs_tab, countTabs_atom _ _ _ hb, List.cons_ne_nil,
    List.head?_cons, ne_eq, not_true_eq_false, or_self, if_false, zero_add,
    Nat.cast_one, sub_zero, indentSrfi49_one,
    MakeChild, Node.blank, List.getElem?_cons_zero, List.getElem?_cons_succ,
    List.set_cons_zero, List.set_cons_succ, List.length_cons,
    List.length_nil, List.append_nil, List.singleton_append, List.cons_append, List.nil_append,
    zero_add, Nat.reduceAdd, if_true]
  rw [blockRun_atom _ _ b _ _ _ _ hb (tokenEnd_nl _)]
  simp only [AddToken, Node.blank, List.getElem?_cons_zero, List.getElem?_cons_succ,
    List.set_cons_zero, List.set_cons_succ, List.length_cons,
    List.length_nil, List.append_nil, List.singleton_append, List.cons_append, List.nil_append,
    zero_add, Nat.reduceAdd, if_true]
  rw [blockRun_nl_isens]
  simp only [skipNewlines_tab, countTabs_tab, countTabs_atom _ _ _ hc, List.cons_ne_nil,
    List.head?_cons, ne_eq, not_true_eq_false, or_self, if_false, zero_add,
    Nat.cast_one, Nat.cast_ofNat, Int.reduceSub, indentSrfi49_one,
    MakeChild, Node.blank, List.getElem?_cons_zero, List.getElem?_cons_succ,
    List.set_cons_zero, List.set_cons_succ, List.length_cons,
    List.length_nil, List.append_nil, List.singleton_append, List.cons_append, List.nil_append,
    zero_add, Nat.reduceAdd, if_true]
  rw [blockRun_atom _ _ c _ _ _ _ hc (tokenEnd_nl _)]
  simp only [AddToken, Node.blank, List.getElem?_cons_zero, List.getElem?_cons_succ,
    List.set_cons_zero, List.set_cons_succ, List.length_cons,
    List.length_nil, List.append_nil, List.singleton_append, List.cons_append, List.nil_append,
    zero_add, Nat.reduceAdd, if_true]
  rw [blockRun_nl_isens]
  simp only [skipNewlines_tab, countTabs_tab, countTabs_atom _ _ _ hd, List.cons_ne_nil,
    List.head?_cons, ne_eq, not_true_eq_false, or_self, if_false, zero_add,
    Nat.cast_one, Nat.cast_ofNat, Int.reduceSub, indentSrfi49_neg_one, Outcome.andThen, Parent,
    MakeChild, Node.blank, List.getElem?_cons_zero, List.getElem?_cons_succ,
    List.set_cons_zero, List.set_cons_succ, List.length_cons,
    List.length_nil, List.append_nil, List.singleton_append, List.cons_append, List.nil_append,
    zero_add, Nat.reduceAdd, if_true]
  rw [blockRun_atom _ _ d _ _ _ _ hd (tokenEnd_nl _)]
  simp only [AddToken, Node.blank, List.getElem?_cons_zero, List.getElem?_cons_succ,
    List.set_cons_zero, List.set_cons_succ, List.length_cons,
    List.length_nil, List.append_nil, List.singleton_append, List.cons_append, List.nil_append,
    zero_add, Nat.reduceAdd, if_true]
  rw [blockRun_nl_isens]
  have hne : e ≠ [] := he.1
  have h0 := skipNewlines_atom e [] he
  have h1 := head_atom_ne_tab e [] he
  simp only [List.append_nil] at h0 h1
  simp only [h0, h1, ne_eq, not_false_eq_true, or_true, if_true]
  have h2 := topRun_atom (some 0) e [] 
    [{ content := [], parent := none, children := [1] },
        { content := [], parent := some 0, children := [2, 3, 7] }, { content := a, parent := some 1, children := [] },
        { content := [], parent := some 1, children := [4, 5] }, { content := b, parent := some 3, children := [] },
        { content := [], parent := some 3, children := [6] }, { content := c, parent := some 5, children := [] },
        { content := [], parent := some 1, children := [8] }, { content := d, parent := some 7, children := [] }] he
  have h3 := fun h n => blockRun_atom true (some 0) e [] h n 0 he tokenEnd_nil
  simp only [List.append_nil] at h2 h3
  rw [h2]
  simp only [h3, blockRun_nil, topRun_nil,
    MakeChild, AddToken, Node.blank, List.getElem?_cons_zero, List.getElem?_cons_succ,
    List.set_cons_zero, List.set_cons_succ, List.length_cons,
    List.length_nil, List.append_nil, List.singleton_append, List.cons_append, List.nil_append,
    zero_add, Nat.reduceAdd, if_true]
  simp [collapse, Node.first, Node.last]


/-! ## Claims on whole parses of bare tokens -/

/-- Claim C7: for bare tokens `a` to `e`, the five-line text at tab depths
0, 1, 2, 1, 0 parses to the same result as the classic text
`(a (b (c)) (d))`, newline, `(e)`: the same store, node for node, with the
tokens in the same places, and the root handed back. -/
theorem depth_change_equivalence (a b c d e : Str) (ha : Atom a) (hb : Atom b) (hc : Atom c)
    (hd : Atom d) (he : Atom e) :
    parseString (indentedText a b c d e) = parseString (classicText a b c d e) ∧
    parseString (classicText a b c d e) = .ret (fiveLineStore a b c d e, some 0) := by
  rw [indentedText_parse a b c d e ha hb hc hd he, classicText_parse a b c d e ha hb hc hd he]
  exact ⟨rfl, rfl⟩

/-- Claim C7 at the tokens `a`, `b`, `c`, `d`, `e`. -/
theorem depth_change_equivalence_witness :
    Atom "a".toList ∧ Atom "b".toList ∧ Atom "c".toList ∧ Atom "d".toList ∧ Atom "e".toList ∧
    parseString (indentedText "a".toList "b".toList "c".toList "d".toList "e".toList)
      = parseString (classicText "a".toList "b".toList "c".toList "d".toList "e".toList) :=
  ⟨by decide, by decide, by decide, by decide, by decide,
    (depth_change_equivalence "a".toList "b".toList "c".toList "d".toList "e".toList
      (by decide) (by decide) (by decide) (by decide) (by decide)).1⟩

/-- Claim C10 at the token `abc`. -/
theorem parseString_single_atom_witness :
    Atom "abc".toList ∧
    parseString "abc".toList =
      .ret ([{ content := [], parent := none, children := [1] },
             { content := [], parent := some 0, children := [2] },
             { content := "abc".toList, parent := some 1, children := [] }], some 2) :=
  ⟨by decide, parseString_single_atom "abc".toList (by decide)⟩

/-- Claim C1, at the input `;`: the top-level comment loop indexes the
string past its end, so the parse panics instead of returning. -/
theorem parseString_comment_panics : parseString ";".toList = .panic := by decide

/-! ## Claims on `findTokenEnd` -/

/-- Claim C3, at the input `"\`, newline, `"x"`: the first double quote that
is not escaped is at index 3, so the claim gives the end 4; the code gives 6,
the end of a match that starts at index 3. -/
theorem findTokenEnd_string_late_match :
    findTokenEnd [dquote, bslash, nl, dquote, 'x', dquote] = .ret 6 ∧
    closingQuoteEnd 1 [bslash, nl, dquote, 'x', dquote] = some 4 := by
  decide

/-- Claim C4, at the input `'a 'b'`: the code returns 6, the end of a match
that starts at index 3, and the token of six characters it cuts off is not a
character literal. -/
theorem findTokenEnd_char_late_match :
    findTokenEnd [squote, 'a', ' ', squote, 'b', squote] = .ret 6 ∧
    isCharLiteral ([squote, 'a', ' ', squote, 'b', squote].take 6) = false := by
  decide

/-- Claim C5: on a string whose first character is none of space, tab,
newline, double quote, single quote and the two parentheses, `findTokenEnd`
returns the length `e` of the longest run of characters from the start that
holds none of space, tab, newline, double quote and the parentheses: a
leading part of `k` characters is free of them exactly when `k ≤ e`; and
`e` is at least 1. -/
theorem findTokenEnd_longest_run (s : Str) (x : Char) (hhead : s.head? = some x)
    (hx : x ∉ [' ', tab, nl, dquote, squote, '(', ')']) :
    ∃ e : Nat, findTokenEnd s = .ret (e : Int) ∧ 1 ≤ e ∧ e ≤ s.length ∧
      ∀ k, k ≤ s.length →
        ((∀ c ∈ s.take k, c ∉ [' ', tab, nl, dquote, '(', ')']) ↔ k ≤ e) := by
  cases s with
  | nil => simp at hhead
  | cons y t =>
    have hy : y = x := by simpa using hhead
    subst hy
    have hd : y ∉ delims := by
      simp only [delims, List.mem_cons, List.mem_singleton, List.mem_nil_iff, or_false,
        not_or] at hx ⊢
      exact ⟨hx.1, hx.2.1, hx.2.2.1, hx.2.2.2.1, hx.2.2.2.2.2.1, hx.2.2.2.2.2.2⟩
    have hq : y ≠ squote := by
      simp only [List.mem_cons, List.mem_singleton, List.mem_nil_iff, or_false,
        not_or] at hx
      exact hx.2.2.2.2.1
    refine ⟨((y :: t).takeWhile (fun c => decide (c ∉ delims))).length,
      findTokenEnd_bare y t hd hq, ?_, ?_, ?_⟩
    · simp [List.takeWhile, hd]
    · exact (List.takeWhile_sublist _).length_le
    · intro k hk
      have := take_all_iff_le_takeWhile (fun c => decide (c ∉ delims)) (y :: t) k hk
      simpa [delims] using this

/-- Claim C5 at the string `ab(c`. -/
theorem findTokenEnd_longest_run_witness :
    "ab(c".toList.head? = some 'a' ∧ 'a' ∉ [' ', tab, nl, dquote, squote, '(', ')'] ∧
    ∃ e : Nat, findTokenEnd "ab(c".toList = .ret (e : Int) ∧ 1 ≤ e ∧ e ≤ "ab(c".toList.length ∧
      ∀ k, k ≤ "ab(c".toList.length →
        ((∀ c ∈ "ab(c".toList.take k, c ∉ [' ', tab, nl, dquote, '(', ')']) ↔ k ≤ e) :=
  ⟨by decide, by decide, findTokenEnd_longest_run "ab(c".toList 'a' (by decide) (by decide)⟩

/-! ## An unterminated string -/

theorem starLoop_suffix (m : Str → List Str) (hm : ∀ s r, r ∈ m s → r <:+ s) :
    ∀ (f : Nat) (s r : Str), r ∈ starLoop m f s → r <:+ s := by
  intro f
  induction f with
  | zero => intro s r hr; simp [starLoop] at hr; simp [hr]
  | succ f ih =>
    intro s r hr
    simp only [starLoop, List.mem_append, List.mem_flatMap, List.mem_filter,
      List.mem_singleton, decide_eq_true_eq] at hr
    rcases hr with ⟨s1, ⟨h0, _⟩, h2⟩ | h
    · exact (ih s1 r h2).trans (hm s s1 h0)
    · simp [h]

theorem run_suffix : ∀ (re : Regex) (s r : Str), r ∈ re.run s → r <:+ s := by
  intro re
  induction re with
  | char c =>
    intro s r hr
    cases s with
    | nil => simp [Regex.run] at hr
    | cons x t =>
      simp only [Regex.run] at hr
      split at hr <;> simp at hr
      rw [hr]; exact List.suffix_cons x t
  | notOf cs =>
    intro s r hr
    cases s with
    | nil => simp [Regex.run] at hr
    | cons x t =>
      simp only [Regex.run] at hr
      split at hr <;> simp at hr
      rw [hr]; exact List.suffix_cons x t
  | any =>
    intro s r hr
    cases s with
    | nil => simp [Regex.run] at hr
    | cons x t =>
      simp only [Regex.run] at hr
      split at hr <;> simp at hr
      rw [hr]; exact List.suffix_cons x t
  | seq a b iha ihb =>
    intro s r hr
    simp only [Regex.run, List.mem_flatMap] at hr
    obtain ⟨s1, h1, h2⟩ := hr
    exact (ihb s1 r h2).trans (iha s s1 h1)
  | alt a b iha ihb =>
    intro s r hr
    simp only [Regex.run, List.mem_append] at hr
    rcases hr with h | h
    · exact iha s r h
    · exact ihb s r h
  | star a iha =>
    intro s r hr
    simp only [Regex.run] at hr
    exact starLoop_suffix _ iha _ _ _ hr
  | plus a iha =>
    intro s r hr
    simp only [Regex.run, List.mem_flatMap] at hr
    obtain ⟨s1, h1, h2⟩ := hr
    exact (starLoop_suffix _ iha _ _ _ h2).trans (iha s s1 h1)
  | opt a iha =>
    intro s r hr
    simp only [Regex.run, List.mem_append, List.mem_singleton] at hr
    rcases hr with h | h
    · exact iha s r h
    · simp [h]

theorem run_char_mem (c : Char) (s r : Str) (h : r ∈ Regex.run (.char c) s) : s = c :: r := by
  cases s with
  | nil => simp [Regex.run] at h
  | cons x t =>
    simp only [Regex.run] at h
    split at h
    · rename_i hx
      simp at h
      rw [hx, h]
    · simp at h

theorem run_seq (a b : Regex) (s : Str) :
    Regex.run (.seq a b) s = (a.run s).flatMap b.run := rfl

theorem run_star (a : Regex) (s : Str) :
    Regex.run (.star a) s = starLoop a.run s.length s := rfl

/-- The string pattern matches only where two double quotes are left. -/
theorem stringRegex_run_nil (s : Str) (h : s.count dquote < 2) : stringRegex.run s = [] := by
  by_contra hne
  obtain ⟨r, hr⟩ := List.exists_mem_of_ne_nil _ hne
  simp only [stringRegex, run_seq, run_star, List.mem_flatMap] at hr
  obtain ⟨s1, h1, s2, h2, h3⟩ := hr
  have e1 := run_char_mem dquote s s1 h1
  have e3 := run_char_mem dquote s2 r h3
  have hsuf : s2 <:+ s1 :=
    starLoop_suffix _ (run_suffix _) _ _ _ h2
  have hmem : dquote ∈ s1 := hsuf.subset (by rw [e3]; simp)
  have : 0 < s1.count dquote := List.count_pos_iff.mpr hmem
  rw [e1] at h
  simp at h
  omega

theorem findFrom_stringRegex_none :
    ∀ (s : Str) (off : Nat), s.count dquote < 2 → findFrom stringRegex off s = none := by
  intro s
  induction s with
  | nil =>
    intro off h
    simp [findFrom, Regex.matchLen, stringRegex_run_nil [] h]
  | cons c r ih =>
    intro off h
    have hr : r.count dquote < 2 := by
      have := List.count_le_count_cons dquote c r
      omega
    simp [findFrom, Regex.matchLen, stringRegex_run_nil (c :: r) h, ih (off + 1) hr]

/-- On an opening double quote with no double quote after it, `findTokenEnd`
finds no token. -/
theorem findTokenEnd_unterminated (r : Str) (h : dquote ∉ r) :
    findTokenEnd (dquote :: r) = .ret (-1) := by
  have hc : (dquote :: r).count dquote < 2 := by
    simp [List.count_eq_zero_of_not_mem h]
  simp [findTokenEnd, FindStringIndex, findFrom_stringRegex_none _ 0 hc]

theorem blockStep_unterminated (isens : Bool) (root : Ptr) (r : Str) (h : Store) (n : Ptr)
    (td : Int) (hr : dquote ∉ r) :
    blockStep isens root { s := dquote :: r, h := h, n := n, tabDepth := td } =
      .fail (tokenError (dquote :: r)) := by
  have e1 : dquote ≠ '(' := by decide
  have e2 : dquote ≠ ')' := by decide
  have e3 : dquote ≠ ' ' := by decide
  have e4 : dquote ≠ tab := by decide
  have e5 : dquote ≠ nl := by decide
  have e6 : dquote ≠ ';' := by decide
  simp [blockStep, e1, e2, e3, e4, e5, e6, findTokenEnd_unterminated r hr]

theorem blockRun_unterminated (isens : Bool) (root : Ptr) (r : Str) (h : Store) (n : Ptr)
    (td : Int) (hr : dquote ∉ r) :
    blockRun isens root { s := dquote :: r, h := h, n := n, tabDepth := td } =
      .err (tokenError (dquote :: r)) := by
  rw [blockRun_eq, blockStep_unterminated isens root r h n td hr]
  simp

theorem AddToken_some (h : Store) (i : Nat) (t : Str) (hi : i < h.length) :
    ∃ h1, AddToken h (some i) t = .ret h1 ∧ h1.length = h.length + 1 := by
  have : h[i]? = some h[i] := List.getElem?_eq_getElem hi
  simp [AddToken, this]

theorem MakeChild_some (h : Store) (i : Nat) (hi : i < h.length) :
    ∃ h1, MakeChild h (some i) = .ret (h1, some h.length) ∧ h1.length = h.length + 1 := by
  have : h[i]? = some h[i] := List.getElem?_eq_getElem hi
  simp [MakeChild, this]

/-- A text that starts with a character of a bare token splits into a bare
token and a rest that, before anything that ends a token, ends the token. -/
theorem split_atom (c : Char) (p : Str) (hc : c ∉ delims) (h1 : c ≠ ';')
    (h2 : c ≠ squote) :
    ∃ t p2, c :: p = t ++ p2 ∧ Atom t ∧ p2.length ≤ p.length ∧ (∀ x ∈ p2, x ∈ p) ∧
      ∀ tail, TokenEnd tail → TokenEnd (p2 ++ tail) := by
  refine ⟨c :: p.takeWhile (fun x => decide (x ∉ delims)),
    p.dropWhile (fun x => decide (x ∉ delims)), ?_, ?_, ?_, ?_, ?_⟩
  · simp [List.takeWhile_append_dropWhile]
  · refine ⟨by simp, ?_, by simpa using h1, by simpa using h2⟩
    intro x hx
    rcases List.mem_cons.mp hx with hx | hx
    · rw [hx]; exact hc
    · simpa using List.mem_takeWhile_imp hx
  · exact (List.dropWhile_sublist _).length_le
  · intro x hx
    exact (List.dropWhile_sublist _).subset hx
  · intro tail ht
    cases hd : p.dropWhile (fun x => decide (x ∉ delims)) with
    | nil => simpa using ht
    | cons y q =>
      have hne : p.dropWhile (fun x => decide (x ∉ delims)) ≠ [] := by rw [hd]; simp
      have := List.head_dropWhile_not (fun x => decide (x ∉ delims)) p hne
      simp only [hd, List.head_cons] at this
      show y ∈ delims
      simpa using this

/-- Inside a block, a line of bare tokens and blanks that runs into an
unterminated string ends the block with the token error. -/
theorem blockRun_line_unterminated (root : Ptr) (r : Str) (hr : dquote ∉ r) :
    ∀ (k : Nat) (p : Str), p.length ≤ k →
      (∀ c ∈ p, c ∉ [nl, dquote, squote, '(', ')', ';']) →
      ∀ (h : Store) (i : Nat) (td : Int), i < h.length →
        blockRun true root { s := p ++ dquote :: r, h := h, n := some i, tabDepth := td }
          = .err (tokenError (dquote :: r)) := by
  intro k
  induction k with
  | zero =>
    intro p hp _ h i td _
    have : p = [] := List.length_eq_zero.mp (by omega)
    subst this
    exact blockRun_unterminated true root r h (some i) td hr
  | succ k ih =>
    intro p hp hall h i td hi
    cases p with
    | nil => exact blockRun_unterminated true root r h (some i) td hr
    | cons c p1 =>
      have hp1 : p1.length ≤ k := by simpa using hp
      have hall1 : ∀ x ∈ p1, x ∉ [nl, dquote, squote, '(', ')', ';'] :=
        fun x hx => hall x (by simp [hx])
      have hcx := hall c (by simp)
      simp only [List.mem_cons, List.mem_singleton, List.mem_nil_iff, or_false, not_or] at hcx
      by_cases hsp : c = ' '
      · subst hsp
        rw [List.cons_append, blockRun_space]
        exact ih p1 hp1 hall1 h i td hi
      · by_cases htb : c = tab
        · subst htb
          rw [List.cons_append, blockRun_tab]
          exact ih p1 hp1 hall1 h i td hi
        · have hcd : c ∉ delims := by
            simp only [delims, List.mem_cons, List.mem_singleton, List.mem_nil_iff, or_false,
              not_or]
            exact ⟨hsp, htb, hcx.1, hcx.2.1, hcx.2.2.2.1, hcx.2.2.2.2.1⟩
          obtain ⟨t, p2, hsplit, hat, hlen, hsub, htail⟩ :=
            split_atom c p1 hcd hcx.2.2.2.2.2 hcx.2.2.1
          have hte := htail (dquote :: r) (tokenEnd_dquote r)
          obtain ⟨h1, hadd, hlen1⟩ := AddToken_some h i t hi
          rw [hsplit, List.append_assoc, blockRun_atom true root t _ h (some i) td hat hte, hadd]
          exact ih p2 (by omega) (fun x hx => hall1 x (hsub x hx)) h1 i td (by omega)

/-- At the top level, a line of bare tokens and blanks that runs into an
unterminated string makes the parse return the token error. -/
theorem topRun_line_unterminated (r : Str) (hr : dquote ∉ r) :
    ∀ (p : Str), (∀ c ∈ p, c ∉ [nl, dquote, squote, '(', ')', ';']) →
      ∀ (h : Store), 0 < h.length →
        topRun (some 0) (p ++ dquote :: r) h = .err (tokenError (dquote :: r)) := by
  intro p
  induction p with
  | nil =>
    intro _ h hh
    obtain ⟨h1, hmk, hlen1⟩ := MakeChild_some h 0 hh
    have e1 : dquote ≠ ' ' := by decide
    have e2 : dquote ≠ tab := by decide
    have e3 : dquote ≠ nl := by decide
    have e4 : dquote ≠ ';' := by decide
    have e5 : dquote ≠ '(' := by decide
    rw [topRun_eq]
    simp only [List.nil_append, List.cons_ne_nil, if_false, topStep, e1, e2, e3, e4, or_self,
      doTopNode_eq, hmk, e5, decide_False, Bool.not_false,
      blockRun_unterminated true (some 0) r h1 (some h.length) 0 hr]
  | cons c p1 ih =>
    intro hall h hh
    have hall1 : ∀ x ∈ p1, x ∉ [nl, dquote, squote, '(', ')', ';'] :=
      fun x hx => hall x (by simp [hx])
    have hcx := hall c (by simp)
    simp only [List.mem_cons, List.mem_singleton, List.mem_nil_iff, or_false, not_or] at hcx
    obtain ⟨h1, hmk, hlen1⟩ := MakeChild_some h 0 hh
    rw [topRun_eq]
    by_cases hb : c = ' ' ∨ c = tab
    · simp only [List.cons_append, List.cons_ne_nil, if_false, topStep, hb, if_true]
      exact ih hall1 h hh
    · have hblock := blockRun_line_unterminated (some 0) r hr (c :: p1).length (c :: p1)
        (le_refl _) hall h1 h.length 0 (by omega)
      simp only [List.cons_append] at hblock
      simp only [List.cons_append, List.cons_ne_nil, if_false, topStep, hb, hcx.1,
        hcx.2.2.2.2.2, doTopNode_eq, hmk, hcx.2.2.2.1, decide_False, Bool.not_false, hblock]

/-- Claim C2, as stated, fails: the text `;"`, newline, `a` holds a double
quote with no double quote after it, and it parses to the leaf `a`, because
the quote stands in a comment. -/
theorem unterminated_quote_in_comment :
    List.count dquote [';', dquote, nl, 'a'] = 1 ∧
    parseString [';', dquote, nl, 'a'] =
      .ret ([{ content := [], parent := none, children := [1] },
             { content := [], parent := some 0, children := [2] },
             { content := ['a'], parent := some 1, children := [] }], some 2) := by
  decide

/-! ## Depth in the node store -/

theorem depthFuel_lt (h : Store) :
    ∀ (f i d : Nat), depthFuel h f i = some d → d < f := by
  intro f
  induction f with
  | zero => intro i d hd; simp [depthFuel] at hd
  | succ f ih =>
    intro i d hd
    simp only [depthFuel] at hd
    cases hnd : h[i]? with
    | none => simp [hnd] at hd
    | some nd =>
      cases hp : nd.parent with
      | none => simp [hnd, hp] at hd; omega
      | some p =>
        cases h1 : depthFuel h f p with
        | none => simp [hnd, hp, h1] at hd
        | some d1 =>
          simp [hnd, hp, h1] at hd
          have := ih p d1 h1
          omega

theorem depthFuel_mono (h : Store) :
    ∀ (f g i d : Nat), depthFuel h f i = some d → f ≤ g → depthFuel h g i = some d := by
  intro f
  induction f with
  | zero => intro g i d hd; simp [depthFuel] at hd
  | succ f ih =>
    intro g i d hd hfg
    cases g with
    | zero => omega
    | succ g =>
      simp only [depthFuel] at hd ⊢
      split at hd
      · simp at hd
      · rename_i nd hnd
        split at hd
        · exact hd
        · rename_i p hp
          split at hd
          · simp at hd
          · rename_i d1 h1
            rw [ih g p d1 h1 (by omega)]
            exact hd

theorem depthFuel_extends (h h1 : Store) (hext : Extends h h1) :
    ∀ (f i d : Nat), depthFuel h f i = some d → depthFuel h1 f i = some d := by
  intro f
  induction f with
  | zero => intro i d hd; simp [depthFuel] at hd
  | succ f ih =>
    intro i d hd
    simp only [depthFuel] at hd ⊢
    cases hnd : h[i]? with
    | none => simp [hnd] at hd
    | some nd =>
      obtain ⟨nd1, hnd1, hpar⟩ := hext.2 i nd hnd
      cases hp : nd.parent with
      | none =>
        simp only [hnd, hp] at hd
        simp only [hnd1, hpar, hp]
        exact hd
      | some p =>
        cases h1d : depthFuel h f p with
        | none => simp [hnd, hp, h1d] at hd
        | some d1 =>
          simp only [hnd, hp, h1d] at hd
          simp only [hnd1, hpar, hp, ih p d1 h1d]
          exact hd

theorem depth_extends (h h1 : Store) (hext : Extends h h1) (i d : Nat)
    (hd : depth h i = some d) : depth h1 i = some d :=
  depthFuel_mono h1 _ _ i d (depthFuel_extends h h1 hext _ i d hd) hext.1

/-- A node added to a store, with its parent at depth `dq`, is at depth
`dq + 1`. -/
theorem depth_new (h h1 : Store) (hext : Extends h h1) (hlt : h.length < h1.length)
    (q dq r : Nat) (nd : Node) (hq : depth h q = some dq) (hr : h1[r]? = some nd)
    (hp : nd.parent = some q) : depth h1 r = some (dq + 1) := by
  have h1q : depthFuel h1 h.length q = some dq := depthFuel_extends h h1 hext _ q dq hq
  obtain ⟨g, hg⟩ : ∃ g, h1.length = g + 1 := ⟨h1.length - 1, by omega⟩
  have h2q : depthFuel h1 g q = some dq := depthFuel_mono h1 _ _ q dq h1q (by omega)
  unfold depth
  rw [hg]
  simp only [depthFuel, hr, hp, h2q]

/-- The parent of a node at depth `d + 1` is at depth `d`. -/
theorem depth_parent (h : Store) (i d : Nat) (hd : depth h i = some (d + 1)) :
    ∃ nd p, h[i]? = some nd ∧ nd.parent = some p ∧ depth h p = some d := by
  unfold depth at hd
  cases hl : h.length with
  | zero => rw [hl] at hd; simp [depthFuel] at hd
  | succ f =>
    rw [hl] at hd
    simp only [depthFuel] at hd
    split at hd
    · simp at hd
    · rename_i nd hnd
      split at hd
      · simp at hd
      · rename_i p hp
        split at hd
        · simp at hd
        · rename_i d1 h1
          simp at hd
          subst hd
          refine ⟨nd, p, hnd, hp, ?_⟩
          unfold depth
          exact depthFuel_mono h _ _ p d1 h1 (by omega)

theorem depth_exists (h : Store) (i d : Nat) (hd : depth h i = some d) : i < h.length := by
  unfold depth at hd
  cases hl : h.length with
  | zero => rw [hl] at hd; simp [depthFuel] at hd
  | succ f =>
    rw [hl] at hd
    simp only [depthFuel] at hd
    split at hd
    · simp at hd
    · rename_i nd hnd
      have := (List.getElem?_eq_some_iff.mp hnd).1
      omega

/-- Climbing `k` levels from a node at depth `d ≥ k`: the loop of `Parent`
calls returns the `k`-th ancestor, which is at depth `d - k`. -/
theorem parentTimes_climb (h : Store) :
    ∀ (k i d : Nat), depth h i = some d → k ≤ d →
      ∃ q, parentTimes k h (some i) = .ret (some q) ∧ ancestor h k i = some q ∧
        depth h q = some (d - k) := by
  intro k
  induction k with
  | zero =>
    intro i d hd _
    have := depth_exists h i d hd
    exact ⟨i, rfl, by simp [ancestor, this], by simpa using hd⟩
  | succ k ih =>
    intro i d hd hk
    obtain ⟨d1, rfl⟩ : ∃ d1, d = d1 + 1 := ⟨d - 1, by omega⟩
    obtain ⟨nd, p, hnd, hp, hdp⟩ := depth_parent h i d1 hd
    obtain ⟨q, h1, h2, h3⟩ := ih p d1 hdp (by omega)
    refine ⟨q, ?_, ?_, ?_⟩
    · simp only [parentTimes, Parent, hnd, hp, Outcome.andThen]
      exact h1
    · simp only [ancestor, parentOf, hnd, hp]
      exact h2
    · rw [h3]; congr 1; omega

theorem parentTimes_succ (h : Store) :
    ∀ (k : Nat) (n : Ptr),
      parentTimes (k + 1) h n = (parentTimes k h n).andThen (fun m => Parent h m) := by
  intro k
  induction k with
  | zero =>
    intro n
    simp only [parentTimes, Outcome.andThen]
    cases Parent h n <;> rfl
  | succ k ih =>
    intro n
    have e : parentTimes (k + 1 + 1) h n = (Parent h n).andThen (parentTimes (k + 1) h) := rfl
    have e2 : parentTimes (k + 1) h n = (Parent h n).andThen (parentTimes k h) := rfl
    rw [e, e2]
    cases hP : Parent h n with
    | ret m => simp only [Outcome.andThen]; exact ih m
    | err m => rfl
    | panic => rfl
    | fuel => rfl

/-- What `MakeChild` does to the store: one node is added at the end, blank
and with parent `q`; it is appended to the children of `q`; nothing else
changes. -/
theorem MakeChild_spec (h : Store) (q : Nat) (nd : Node) (hq : h[q]? = some nd) :
    ∃ h1, MakeChild h (some q) = .ret (h1, some h.length) ∧
      h1.length = h.length + 1 ∧
      h1[q]? = some { nd with children := nd.children ++ [h.length] } ∧
      h1[h.length]? = some (Node.blank (some q)) ∧
      (∀ j, j ≠ q → j < h.length → h1[j]? = h[j]?) ∧
      Extends h h1 := by
  have hql : q < h.length := (List.getElem?_eq_some_iff.mp hq).1
  refine ⟨h.set q { nd with children := nd.children ++ [h.length] } ++ [Node.blank (some q)],
    by simp only [MakeChild, hq], by simp, ?_, ?_, ?_, ?_⟩
  · rw [List.getElem?_append_left (by simpa using hql)]
    simp [List.getElem?_set, hql]
  · rw [List.getElem?_append_right (by simp)]
    simp
  · intro j hj hjl
    rw [List.getElem?_append_left (by simpa using hjl)]
    simp [List.getElem?_set, Ne.symm hj]
  · refine ⟨by simp, ?_⟩
    intro j ndj hndj
    have hjl : j < h.length := (List.getElem?_eq_some_iff.mp hndj).1
    rw [List.getElem?_append_left (by simpa using hjl)]
    by_cases hjq : q = j
    · subst hjq
      rw [hq] at hndj
      simp only [Option.some.injEq] at hndj
      subst hndj
      exact ⟨{ nd with children := nd.children ++ [h.length] },
        by simp [List.getElem?_set, hql], rfl⟩
    · exact ⟨ndj, by simp [List.getElem?_set, hjq, hndj], rfl⟩

theorem makeChildTimes_succ (k : Nat) (h : Store) (n : Ptr) :
    makeChildTimes (k + 1) h n
      = (MakeChild h n).andThen (fun r => makeChildTimes k r.1 r.2) := rfl

/-- Descending `k + 1` levels below a node at depth `d` builds a chain of
`k + 1` new nodes under it and returns the innermost, at depth
`d + (k + 1)`. -/
theorem makeChildTimes_chain :
    ∀ (k : Nat) (h : Store) (i d : Nat) (ndi : Node), h[i]? = some ndi → depth h i = some d →
      ∃ h1, makeChildTimes (k + 1) h (some i) = .ret (h1, some (h.length + k)) ∧
        h1.length = h.length + (k + 1) ∧
        h1[i]? = some { ndi with children := ndi.children ++ [h.length] } ∧
        (∀ j, j < h.length → j ≠ i → h1[j]? = h[j]?) ∧
        (∀ j, j ≤ k → h1[h.length + j]? =
          some { content := [], parent := some (if j = 0 then i else h.length + j - 1),
                 children := if j < k then [h.length + j + 1] else [] }) ∧
        depth h1 (h.length + k) = some (d + (k + 1)) := by
  intro k
  induction k with
  | zero =>
    intro h i d ndi hi hd
    obtain ⟨h1, hmk, hlen, hq, hnew, hold, hext⟩ := MakeChild_spec h i ndi hi
    refine ⟨h1, ?_, hlen, hq, fun j hj hji => hold j hji hj, ?_, ?_⟩
    · rw [makeChildTimes_succ, hmk]; rfl
    · intro j hj
      have : j = 0 := by omega
      subst this
      simpa [Node.blank] using hnew
    · exact depth_new h h1 hext (by omega) i d _ _ hd hnew rfl
  | succ k ih =>
    intro h i d ndi hi hd
    have hil : i < h.length := (List.getElem?_eq_some_iff.mp hi).1
    obtain ⟨h2, hmk, hlen, hq, hnew, hold, hext⟩ := MakeChild_spec h i ndi hi
    have hd2 : depth h2 h.length = some (d + 1) :=
      depth_new h h2 hext (by omega) i d _ _ hd hnew rfl
    obtain ⟨h1, hrun, hlen1, hq1, hold1, hchain1, hdep1⟩ :=
      ih h2 h.length (d + 1) (Node.blank (some i)) hnew hd2
    have e1 : h2.length + k = h.length + (k + 1) := by omega
    refine ⟨h1, ?_, by omega, ?_, ?_, ?_, ?_⟩
    · rw [makeChildTimes_succ, hmk]
      simp only [Outcome.andThen]
      rw [hrun, e1]
    · rw [hold1 i (by omega) (by omega)]
      exact hq
    · intro j hj hji
      rw [hold1 j (by omega) (by omega)]
      exact hold j hji hj
    · intro j hj
      cases j with
      | zero =>
        simp only [Nat.add_zero, if_true]
        rw [hq1]
        simp [Node.blank, hlen]
      | succ j =>
        have e2 : h.length + (j + 1) = h2.length + j := by omega
        have hc := hchain1 j (by omega)
        rw [← e2] at hc
        have p1 : (if j = 0 then h.length else h.length + (j + 1) - 1)
            = (if j + 1 = 0 then i else h.length + (j + 1) - 1) := by
          by_cases hj0 : j = 0
          · simp [hj0]
          · simp only [hj0, if_false, Nat.succ_ne_zero]
        have p2 : (if j < k then [h.length + (j + 1) + 1] else ([] : List Nat))
            = (if j + 1 < k + 1 then [h.length + (j + 1) + 1] else []) := by
          by_cases hjk : j < k
          · have : j + 1 < k + 1 := by omega
            simp only [hjk, this, if_true]
          · have : ¬ (j + 1 < k + 1) := by omega
            simp only [hjk, this, if_false]
        rw [hc, p1, p2]
    · rw [← e1, hdep1]
      congr 1
      omega

theorem Parent_some (h : Store) (i : Nat) (nd : Node) (hi : h[i]? = some nd) :
    Parent h (some i) = .ret nd.parent := by
  simp [Parent, hi]

/-- Claim C6: `indentSrfi49` follows the depth-transition rule.  From a node
`i` at depth `d` (with `|delta| + 1 ≤ d` when `delta ≤ 0`) it returns a node
`r` created by the call (its index is not in the old store), blank (no
content, no children), at depth `d + delta`.  For `delta ≤ 0`, `r` is the
one node added, appended as last child to `q`, the parent of the
`|delta|`-th ancestor `a` of `i`, and nothing else changes.  For
`delta > 0`, `delta` nodes are added in a chain: the first is appended as
last child to `i`, each next one is the only child of the one before, and
`r` is the last of them. -/
theorem indentSrfi49_transition (h : Store) (i d : Nat) (delta : Int)
    (hd : depth h i = some d) (hanc : delta ≤ 0 → delta.natAbs + 1 ≤ d) :
    ∃ (h1 : Store) (r : Nat),
      indentSrfi49 delta h (some i) = .ret (h1, some r) ∧
      h.length ≤ r ∧
      (∃ par, h1[r]? = some { content := [], parent := some par, children := [] }) ∧
      (∃ d1, depth h1 r = some d1 ∧ (d1 : Int) = d + delta) ∧
      (delta ≤ 0 → ∃ (a q : Nat) (ndq : Node),
          ancestor h delta.natAbs i = some a ∧ parentOf h a = some q ∧ h[q]? = some ndq ∧
          r = h.length ∧ h1.length = h.length + 1 ∧
          h1[r]? = some { content := [], parent := some q, children := [] } ∧
          h1[q]? = some { ndq with children := ndq.children ++ [r] } ∧
          ∀ j, j < h.length → j ≠ q → h1[j]? = h[j]?) ∧
      (0 < delta → ∃ ndi : Node, h[i]? = some ndi ∧
          r + 1 = h.length + delta.toNat ∧ h1.length = h.length + delta.toNat ∧
          h1[i]? = some { ndi with children := ndi.children ++ [h.length] } ∧
          (∀ j, j < h.length → j ≠ i → h1[j]? = h[j]?) ∧
          ∀ j, j < delta.toNat → h1[h.length + j]? =
            some { content := [], parent := some (if j = 0 then i else h.length + j - 1),
                   children := if j + 1 < delta.toNat then [h.length + j + 1] else [] }) := by
  by_cases hpos : 0 < delta
  · -- descend
    obtain ⟨k, hk⟩ : ∃ k : Nat, delta = (k : Int) + 1 := ⟨(delta - 1).toNat, by omega⟩
    have hil := depth_exists h i d hd
    have hi : h[i]? = some h[i] := List.getElem?_eq_getElem hil
    obtain ⟨h1, hrun, hlen, hq, hold, hchain, hdep⟩ := makeChildTimes_chain k h i d h[i] hi hd
    have htn : delta.toNat = k + 1 := by omega
    have hnn : ¬ delta < 0 := by omega
    have hnz : ¬ delta = 0 := by omega
    refine ⟨h1, h.length + k, ?_, by omega, ?_, ?_, ?_, ?_⟩
    · simp only [indentSrfi49, hnn, hnz, hpos, if_true, if_false, htn]
      exact hrun
    · have := hchain k (le_refl _)
      simp only [lt_irrefl, if_false] at this
      exact ⟨_, this⟩
    · exact ⟨d + (k + 1), hdep, by omega⟩
    · intro hle; omega
    · intro _
      refine ⟨h[i], hi, by omega, by omega, hq, hold, ?_⟩
      intro j hj
      rw [hchain j (by omega)]
      have : (j < k) = (j + 1 < delta.toNat) := by
        rw [htn]; simp
      simp only [this]
  · -- climb, then a new sibling
    have hle : delta ≤ 0 := by omega
    have hkd := hanc hle
    obtain ⟨a, hclimb, hanca, hda⟩ := parentTimes_climb h delta.natAbs i d hd (by omega)
    obtain ⟨d2, hd2⟩ : ∃ d2, d - delta.natAbs = d2 + 1 := ⟨d - delta.natAbs - 1, by omega⟩
    rw [hd2] at hda
    obtain ⟨nda, q, hnda, hpa, hdq⟩ := depth_parent h a d2 hda
    have hql := depth_exists h q d2 hdq
    have hq : h[q]? = some h[q] := List.getElem?_eq_getElem hql
    obtain ⟨h1, hmk, hlen, hq1, hnew, hold, hext⟩ := MakeChild_spec h q h[q] hq
    have hrun : indentSrfi49 delta h (some i) = .ret (h1, some h.length) := by
      by_cases hneg : delta < 0
      · simp only [indentSrfi49, hneg, if_true, hclimb, Outcome.andThen,
          Parent_some h a nda hnda, hpa, hmk]
      · have h0 : delta = 0 := by omega
        subst h0
        simp only [Int.natAbs_zero, parentTimes] at hclimb
        simp only [Outcome.ret.injEq, Option.some.injEq] at hclimb
        subst hclimb
        simp only [indentSrfi49, lt_irrefl, if_false, if_true, Outcome.andThen,
          Parent_some h i nda hnda, hpa, hmk]
    refine ⟨h1, h.length, hrun, le_refl _, ⟨q, by simpa [Node.blank] using hnew⟩, ?_, ?_, ?_⟩
    · refine ⟨d2 + 1, depth_new h h1 hext (by omega) q d2 _ _ hdq hnew rfl, ?_⟩
      omega
    · intro _
      refine ⟨a, q, h[q], hanca, by simp [parentOf, hnda, hpa], hq, rfl, hlen,
        by simpa [Node.blank] using hnew, hq1, fun j hj hjq => hold j hjq hj⟩
    · intro h0; omega

/-- Claim C6 at the node of `c` in the five-line tree, one level up. -/
theorem indentSrfi49_transition_witness :
    depth (fiveLineStore ['a'] ['b'] ['c'] ['d'] ['e']) 5 = some 3 ∧
    ∃ (h1 : Store) (r : Nat),
      indentSrfi49 (-1) (fiveLineStore ['a'] ['b'] ['c'] ['d'] ['e']) (some 5)
        = .ret (h1, some r) ∧
      ∃ d1, depth h1 r = some d1 ∧ (d1 : Int) = 3 + (-1) := by
  refine ⟨by decide, ?_⟩
  obtain ⟨h1, r, hrun, _, _, hdep, _⟩ :=
    indentSrfi49_transition (fiveLineStore ['a'] ['b'] ['c'] ['d'] ['e']) 5 3 (-1)
      (by decide) (by decide)
  exact ⟨h1, r, hrun, hdep⟩

/-! ## Comment lines -/

theorem skipNewlines_append (p z : Str) :
    skipNewlines (p ++ z) = if skipNewlines p = [] then skipNewlines z else skipNewlines p ++ z := by
  induction p with
  | nil => simp [skipNewlines]
  | cons x p ih =>
    by_cases hx : x = nl
    · rw [List.cons_append]
      simp only [skipNewlines, hx, if_true]
      exact ih
    · simp [skipNewlines, hx]

theorem skipNewlines_sublist (p : Str) : (skipNewlines p).Sublist p := by
  induction p with
  | nil => simp [skipNewlines]
  | cons x p ih =>
    simp only [skipNewlines]
    split
    · exact ih.cons x
    · exact List.Sublist.refl _

theorem skipNewlines_head (p : Str) : (skipNewlines p).head? ≠ some nl := by
  induction p with
  | nil => simp [skipNewlines]
  | cons x p ih =>
    simp only [skipNewlines]
    split
    · exact ih
    · rename_i hx; simpa using hx

theorem skipNewlines_idem (p : Str) : skipNewlines (skipNewlines p) = skipNewlines p := by
  induction p with
  | nil => simp [skipNewlines]
  | cons x p ih =>
    by_cases hx : x = nl
    · simp only [skipNewlines, hx, if_true, ih]
    · simp [skipNewlines, hx]

theorem countTabs_append (z : Str) (hz : z.head? ≠ some tab) :
    ∀ (p : Str) (m : Nat),
      countTabs m (p ++ z) = ((countTabs m p).1, (countTabs m p).2 ++ z) := by
  intro p
  induction p with
  | nil =>
    intro m
    cases z with
    | nil => simp [countTabs]
    | cons y z =>
      have : y ≠ tab := by simpa using hz
      simp [countTabs, this]
  | cons x p ih =>
    intro m
    by_cases hx : x = tab
    · rw [List.cons_append]
      simp only [countTabs, hx, if_true]
      exact ih (m + 1)
    · simp [countTabs, hx]

theorem countTabs_sublist : ∀ (p : Str) (m : Nat), (countTabs m p).2.Sublist p := by
  intro p
  induction p with
  | nil => intro m; simp [countTabs]
  | cons x p ih =>
    intro m
    simp only [countTabs]
    split
    · exact (ih (m + 1)).cons x
    · exact List.Sublist.refl _

theorem skipLine_append (p z : Str) : skipLine (p ++ nl :: z) = skipLine p ++ nl :: z := by
  induction p with
  | nil => simp [skipLine]
  | cons x p ih =>
    by_cases hx : x = nl
    · simp [skipLine, hx]
    · rw [List.cons_append]
      simp only [skipLine, hx, if_false]
      exact ih

theorem skipLine_sublist (p : Str) : (skipLine p).Sublist p := by
  induction p with
  | nil => simp [skipLine]
  | cons x p ih =>
    simp only [skipLine]
    split
    · exact List.Sublist.refl _
    · exact ih.cons x

theorem skipLine_head (p : Str) : skipLine p = [] ∨ ∃ q, skipLine p = nl :: q := by
  induction p with
  | nil => simp [skipLine]
  | cons x p ih =>
    simp only [skipLine]
    split
    · rename_i hx; exact Or.inr ⟨p, by rw [hx]⟩
    · exact ih

theorem skipLine_of_not_mem (c : Str) (hc : nl ∉ c) : skipLine c = [] := by
  induction c with
  | nil => simp [skipLine]
  | cons x c ih =>
    have hx : x ≠ nl := fun h => hc (by simp [h])
    simp only [skipLine, hx, if_false]
    exact ih (fun h => hc (by simp [h]))

theorem skipLineTop_append (p z : Str) :
    skipLineTop (p ++ nl :: z) = .ret (skipLine p ++ nl :: z) := by
  induction p with
  | nil => simp [skipLineTop, skipLine]
  | cons x p ih =>
    by_cases hx : x = nl
    · simp [skipLineTop, skipLine, hx]
    · rw [List.cons_append]
      simp only [skipLineTop, skipLine, hx, if_false]
      exact ih

theorem topRun_nl (root : Ptr) (s : Str) (h : Store) :
    topRun root (nl :: s) h = topRun root s h := by
  have e1 : nl ≠ ' ' := by decide
  have e2 : nl ≠ tab := by decide
  rw [topRun_eq]
  simp [topStep, e1, e2]

theorem topRun_space (root : Ptr) (s : Str) (h : Store) :
    topRun root (' ' :: s) h = topRun root s h := by
  rw [topRun_eq]
  simp [topStep]

theorem topRun_tab (root : Ptr) (s : Str) (h : Store) :
    topRun root (tab :: s) h = topRun root s h := by
  rw [topRun_eq]
  simp [topStep]

theorem topRun_skipNewlines (root : Ptr) (s : Str) (h : Store) :
    topRun root s h = topRun root (skipNewlines s) h := by
  induction s with
  | nil => simp [skipNewlines]
  | cons x s ih =>
    by_cases hx : x = nl
    · simp only [skipNewlines, hx, if_true, topRun_nl]
      exact ih
    · simp [skipNewlines, hx]

theorem topRun_comment (root : Ptr) (p z : Str) (h : Store) :
    topRun root (';' :: (p ++ nl :: z)) h = topRun root (skipLine p ++ nl :: z) h := by
  have e1 : ';' ≠ tab := by decide
  have e2 : ';' ≠ nl := by decide
  have e := skipLineTop_append (';' :: p) z
  simp only [List.cons_append, skipLine, e2, if_false] at e
  rw [topRun_eq]
  simp only [List.cons_ne_nil, if_false, topStep, e1, e2, Char.reduceEq, or_self, if_true, e]

/-- At the top level, any character that is not a blank, a newline or a
semicolon opens a block; the rest of the parse resumes from inside it. -/
theorem topRun_block (root : Ptr) (x : Char) (s : Str) (h : Store)
    (h1 : x ≠ ' ') (h2 : x ≠ tab) (h3 : x ≠ nl) (h4 : x ≠ ';') :
    topRun root (x :: s) h =
      match MakeChild h root with
      | .ret (h1, n) =>
        resume (!(decide (x = '('))) root
          { s := if x = '(' then s else x :: s, h := h1, n := n, tabDepth := 0 }
      | _ => .panic := by
  rw [topRun_eq]
  simp only [List.cons_ne_nil, if_false, topStep, h1, h2, h3, h4, or_self, doTopNode_eq]
  cases MakeChild h root with
  | ret p =>
    obtain ⟨h1, n⟩ := p
    simp only [resume]
    cases blockRun (!(decide (x = '('))) root
      { s := if x = '(' then s else x :: s, h := h1, n := n, tabDepth := 0 } <;> rfl
  | err m => rfl
  | panic => rfl
  | fuel => rfl

theorem blockRun_comment_line (isens : Bool) (root : Ptr) (c r : Str) (h : Store) (n : Ptr)
    (td : Int) (hc : nl ∉ c) :
    blockRun isens root { s := ';' :: (c ++ nl :: r), h := h, n := n, tabDepth := td } =
      blockRun isens root { s := r, h := h, n := n, tabDepth := td } := by
  rw [blockRun_comment, skipLine_append, skipLine_of_not_mem c hc]
  rfl

theorem blockRun_classic_skipNewlines (root : Ptr) (r : Str) (h : Store) (n : Ptr) (td : Int)
    (hn : n ≠ root) :
    blockRun false root { s := r, h := h, n := n, tabDepth := td } =
      blockRun false root { s := skipNewlines r, h := h, n := n, tabDepth := td } := by
  cases r with
  | nil => simp [skipNewlines]
  | cons x r =>
    by_cases hx : x = nl
    · subst hx
      rw [blockRun_nl_classic]
      simp [hn, skipNewlines]
    · simp [skipNewlines, hx]

/-! ## The rest of a parse, by leading character -/

theorem resume_open (isens : Bool) (root : Ptr) (r : Str) (h : Store) (n : Ptr) (td : Int) :
    resume isens root { s := '(' :: r, h := h, n := n, tabDepth := td } =
      match MakeChild h n with
      | .ret (h1, n1) => resume isens root { s := r, h := h1, n := n1, tabDepth := td }
      | _ => .panic := by
  unfold resume
  rw [blockRun_open]
  cases MakeChild h n <;> rfl

theorem resume_close (isens : Bool) (root : Ptr) (r : Str) (h : Store) (n : Ptr) (td : Int) :
    resume isens root { s := ')' :: r, h := h, n := n, tabDepth := td } =
      match Parent h n with
      | .ret n1 => resume isens root { s := r, h := h, n := n1, tabDepth := td }
      | _ => .panic := by
  unfold resume
  rw [blockRun_close]
  cases Parent h n <;> rfl

theorem resume_space (isens : Bool) (root : Ptr) (r : Str) (h : Store) (n : Ptr) (td : Int) :
    resume isens root { s := ' ' :: r, h := h, n := n, tabDepth := td } =
      resume isens root { s := r, h := h, n := n, tabDepth := td } := by
  unfold resume
  rw [blockRun_space]

theorem resume_tab (isens : Bool) (root : Ptr) (r : Str) (h : Store) (n : Ptr) (td : Int) :
    resume isens root { s := tab :: r, h := h, n := n, tabDepth := td } =
      resume isens root { s := r, h := h, n := n, tabDepth := td } := by
  unfold resume
  rw [blockRun_tab]

theorem resume_atom (isens : Bool) (root : Ptr) (t rest : Str) (h : Store) (n : Ptr)
    (td : Int) (ht : Atom t) (hr : TokenEnd rest) :
    resume isens root { s := t ++ rest, h := h, n := n, tabDepth := td } =
      match AddToken h n t with
      | .ret h1 => resume isens root { s := rest, h := h1, n := n, tabDepth := td }
      | _ => .panic := by
  unfold resume
  rw [blockRun_atom isens root t rest h n td ht hr]
  cases AddToken h n t <;> rfl

theorem resume_comment (isens : Bool) (root : Ptr) (r : Str) (h : Store) (n : Ptr) (td : Int) :
    resume isens root { s := ';' :: r, h := h, n := n, tabDepth := td } =
      match skipLine r with
      | [] => .panic
      | _ :: s1 => resume isens root { s := s1, h := h, n := n, tabDepth := td } := by
  unfold resume
  rw [blockRun_comment]
  cases skipLine r <;> rfl

theorem resume_nl_classic (root : Ptr) (r : Str) (h : Store) (n : Ptr) (td : Int) :
    resume false root { s := nl :: r, h := h, n := n, tabDepth := td } =
      if n = root then topRun root (skipNewlines r) h
      else resume false root { s := skipNewlines r, h := h, n := n, tabDepth := td } := by
  unfold resume
  rw [blockRun_nl_classic]
  by_cases hn : n = root
  · simp only [hn, if_true]
  · simp only [hn, if_false]

theorem resume_nl_isens (root : Ptr) (r : Str) (h : Store) (n : Ptr) (td : Int) :
    resume true root { s := nl :: r, h := h, n := n, tabDepth := td } =
      if skipNewlines r = [] ∨ (skipNewlines r).head? ≠ some tab then
        topRun root (skipNewlines r) h
      else
        match indentSrfi49 (((countTabs 0 (skipNewlines r)).1 : Int) - td) h n with
        | .ret (h1, n1) =>
          resume true root { s := (countTabs 0 (skipNewlines r)).2, h := h1, n := n1,
                             tabDepth := (countTabs 0 (skipNewlines r)).1 }
        | _ => .panic := by
  unfold resume
  rw [blockRun_nl_isens]
  by_cases hc : skipNewlines r = [] ∨ (skipNewlines r).head? ≠ some tab
  · simp only [hc, if_true]
  · simp only [hc, if_false]
    cases indentSrfi49 (((countTabs 0 (skipNewlines r)).1 : Int) - td) h n <;> rfl

/-- After a newline the rest of the parse depends on what follows only
through what is left once further newlines are skipped. -/
theorem resume_nl_congr (isens : Bool) (root : Ptr) (q1 q2 : Str) (h : Store) (n : Ptr)
    (td : Int) (hq : skipNewlines q1 = skipNewlines q2) :
    resume isens root { s := nl :: q1, h := h, n := n, tabDepth := td } =
      resume isens root { s := nl :: q2, h := h, n := n, tabDepth := td } := by
  cases isens with
  | false => rw [resume_nl_classic, resume_nl_classic, hq]
  | true => rw [resume_nl_isens, resume_nl_isens, hq]

/-! ## Scanning up to a line boundary -/

/-- The scan of a text without quote characters up to a newline does not
look past that newline: if two continuations `nl :: X` and `nl :: Y` give the
same rest of the parse at the boundary (at the top level, inside a block
before the newline, and inside a block after a comment has consumed the
newline), they give the same rest of the parse after any such text. -/
theorem scan_local (root : Ptr) (X Y : Str)
    (baseT : ∀ h, topRun root (nl :: X) h = topRun root (nl :: Y) h)
    (baseB : ∀ isens h n td,
      resume isens root { s := nl :: X, h := h, n := n, tabDepth := td } =
        resume isens root { s := nl :: Y, h := h, n := n, tabDepth := td })
    (baseC : ∀ isens h n td,
      resume isens root { s := X, h := h, n := n, tabDepth := td } =
        resume isens root { s := Y, h := h, n := n, tabDepth := td }) :
    ∀ (k : Nat) (p : Str), p.length ≤ k → (∀ x ∈ p, x ≠ dquote ∧ x ≠ squote) →
      (∀ h, topRun root (p ++ nl :: X) h = topRun root (p ++ nl :: Y) h) ∧
      (∀ isens h n td,
        resume isens root { s := p ++ nl :: X, h := h, n := n, tabDepth := td } =
          resume isens root { s := p ++ nl :: Y, h := h, n := n, tabDepth := td }) := by
  intro k
  induction k with
  | zero =>
    intro p hp _
    have : p = [] := List.length_eq_zero.mp (by omega)
    subst this
    exact ⟨baseT, baseB⟩
  | succ k ih =>
    intro p hp hq
    cases p with
    | nil => exact ⟨baseT, baseB⟩
    | cons x p1 =>
      have hp1 : p1.length ≤ k := by simpa using hp
      have hq1 : ∀ y ∈ p1, y ≠ dquote ∧ y ≠ squote := fun y hy => hq y (by simp [hy])
      have hxq := hq x (by simp)
      have hsub : ∀ (q : Str), q.Sublist p1 →
          q.length ≤ k ∧ ∀ y ∈ q, y ≠ dquote ∧ y ≠ squote :=
        fun q hs => ⟨le_trans hs.length_le hp1, fun y hy => hq1 y (hs.subset hy)⟩
      have hXtab : (nl :: X).head? ≠ some tab := by simp; decide
      have hYtab : (nl :: Y).head? ≠ some tab := by simp; decide
      -- inside a block
      have hblock : ∀ isens h n td,
          resume isens root { s := (x :: p1) ++ nl :: X, h := h, n := n, tabDepth := td } =
            resume isens root { s := (x :: p1) ++ nl :: Y, h := h, n := n, tabDepth := td } := by
        intro isens h n td
        by_cases h1 : x = '('
        · subst h1
          rw [List.cons_append, List.cons_append, resume_open, resume_open]
          cases MakeChild h n with
          | ret r => exact (ih p1 hp1 hq1).2 isens r.1 r.2 td
          | err m => rfl
          | panic => rfl
          | fuel => rfl
        by_cases h2 : x = ')'
        · subst h2
          rw [List.cons_append, List.cons_append, resume_close, resume_close]
          cases Parent h n with
          | ret r => exact (ih p1 hp1 hq1).2 isens h r td
          | err m => rfl
          | panic => rfl
          | fuel => rfl
        by_cases h3 : x = ' '
        · subst h3
          rw [List.cons_append, List.cons_append, resume_space, resume_space]
          exact (ih p1 hp1 hq1).2 isens h n td
        by_cases h4 : x = tab
        · subst h4
          rw [List.cons_append, List.cons_append, resume_tab, resume_tab]
          exact (ih p1 hp1 hq1).2 isens h n td
        by_cases h5 : x = nl
        · subst h5
          rw [List.cons_append, List.cons_append]
          by_cases hs : skipNewlines p1 = []
          · -- only newlines up to the boundary
            have eX : skipNewlines (p1 ++ nl :: X) = skipNewlines (nl :: X) := by
              rw [skipNewlines_append, if_pos hs]
            have eY : skipNewlines (p1 ++ nl :: Y) = skipNewlines (nl :: Y) := by
              rw [skipNewlines_append, if_pos hs]
            rw [resume_nl_congr isens root (p1 ++ nl :: X) X h n td
                (by rw [eX]; simp [skipNewlines]),
              resume_nl_congr isens root (p1 ++ nl :: Y) Y h n td
                (by rw [eY]; simp [skipNewlines])]
            exact baseB isens h n td
          · have eX : skipNewlines (p1 ++ nl :: X) = skipNewlines p1 ++ nl :: X := by
              rw [skipNewlines_append, if_neg hs]
            have eY : skipNewlines (p1 ++ nl :: Y) = skipNewlines p1 ++ nl :: Y := by
              rw [skipNewlines_append, if_neg hs]
            obtain ⟨hl, hqq⟩ := hsub _ (skipNewlines_sublist p1)
            have IH := ih (skipNewlines p1) hl hqq
            cases isens with
            | false =>
              rw [resume_nl_classic, resume_nl_classic, eX, eY]
              by_cases hn : n = root
              · simp only [hn, if_true]; exact IH.1 h
              · simp only [hn, if_false]; exact IH.2 false h n td
            | true =>
              rw [resume_nl_isens, resume_nl_isens, eX, eY]
              have hhX : (skipNewlines p1 ++ nl :: X).head? = (skipNewlines p1).head? := by
                cases hsk : skipNewlines p1 with
                | nil => exact absurd hsk hs
                | cons a b => simp
              have hhY : (skipNewlines p1 ++ nl :: Y).head? = (skipNewlines p1).head? := by
                cases hsk : skipNewlines p1 with
                | nil => exact absurd hsk hs
                | cons a b => simp
              simp only [List.append_eq_nil, hs, false_and, false_or, hhX, hhY]
              by_cases hc : (skipNewlines p1).head? ≠ some tab
              · rw [if_pos hc, if_pos hc]; exact IH.1 h
              · rw [if_neg hc, if_neg hc]
                rw [countTabs_append _ hXtab, countTabs_append _ hYtab]
                dsimp only
                obtain ⟨hl2, hqq2⟩ := hsub _
                  ((countTabs_sublist (skipNewlines p1) 0).trans (skipNewlines_sublist p1))
                cases indentSrfi49
                  (((countTabs 0 (skipNewlines p1)).1 : Int) - td) h n with
                | ret r =>
                  exact (ih _ hl2 hqq2).2 true r.1 r.2 _
                | err m => rfl
                | panic => rfl
                | fuel => rfl
        by_cases h6 : x = ';'
        · subst h6
          rw [List.cons_append, List.cons_append, resume_comment, resume_comment,
            skipLine_append, skipLine_append]
          rcases skipLine_head p1 with hs | ⟨q, hs⟩
          · rw [hs]
            exact baseC isens h n td
          · rw [hs]
            have hsl : q.Sublist p1 := by
              have := skipLine_sublist p1
              rw [hs] at this
              exact (List.sublist_cons_self nl q).trans this
            obtain ⟨hl, hqq⟩ := hsub _ hsl
            exact (ih q hl hqq).2 isens h n td
        · -- a bare token
          have hxd : x ∉ delims := by
            simp only [delims, List.mem_cons, List.mem_singleton, List.mem_nil_iff, or_false,
              not_or]
            exact ⟨h3, h4, h5, hxq.1, h1, h2⟩
          obtain ⟨t, p2, hsplit, hat, hlen, hmem, htail⟩ := split_atom x p1 hxd h6 hxq.2
          rw [hsplit, List.append_assoc, List.append_assoc,
            resume_atom isens root t _ h n td hat (htail _ (tokenEnd_nl X)),
            resume_atom isens root t _ h n td hat (htail _ (tokenEnd_nl Y))]
          cases AddToken h n t with
          | ret r =>
            exact (ih p2 (by omega) (fun y hy => hq1 y (hmem y hy))).2 isens r n td
          | err m => rfl
          | panic => rfl
          | fuel => rfl
      refine ⟨?_, hblock⟩
      -- at the top level
      intro h
      by_cases h3 : x = ' '
      · subst h3
        rw [List.cons_append, List.cons_append, topRun_space, topRun_space]
        exact (ih p1 hp1 hq1).1 h
      by_cases h4 : x = tab
      · subst h4
        rw [List.cons_append, List.cons_append, topRun_tab, topRun_tab]
        exact (ih p1 hp1 hq1).1 h
      by_cases h5 : x = nl
      · subst h5
        rw [List.cons_append, List.cons_append, topRun_nl, topRun_nl]
        exact (ih p1 hp1 hq1).1 h
      by_cases h6 : x = ';'
      · subst h6
        rw [List.cons_append, List.cons_append, topRun_comment, topRun_comment]
        rcases skipLine_head p1 with hs | ⟨q, hs⟩
        · rw [hs]; exact baseT h
        · rw [hs]
          have hsl : (nl :: q).Sublist p1 := by
            have := skipLine_sublist p1
            rw [hs] at this
            exact this
          obtain ⟨hl, hqq⟩ := hsub _ hsl
          exact (ih (nl :: q) hl hqq).1 h
      · rw [List.cons_append, List.cons_append, topRun_block root x _ h h3 h4 h5 h6,
          topRun_block root x _ h h3 h4 h5 h6]
        cases MakeChild h root with
        | ret r =>
          by_cases h1 : x = '('
          · simp only [h1, if_true]
            exact (ih p1 hp1 hq1).2 _ r.1 r.2 0
          · simp only [h1, if_false]
            exact hblock _ r.1 r.2 0
        | err m => rfl
        | panic => rfl
        | fuel => rfl

theorem parseString_congr (s1 s2 : Str)
    (h : topRun Root.2 s1 Root.1 = topRun Root.2 s2 Root.1) :
    parseString s1 = parseString s2 := by
  rw [parseString_eq, parseString_eq, h]

theorem topRun_comment_line (root : Ptr) (c r : Str) (h : Store) (hc : nl ∉ c) :
    topRun root (';' :: (c ++ nl :: r)) h = topRun root r h := by
  rw [topRun_comment, skipLine_of_not_mem c hc, List.nil_append, topRun_nl]

theorem resume_comment_line (isens : Bool) (root : Ptr) (c r : Str) (h : Store) (n : Ptr)
    (td : Int) (hc : nl ∉ c) :
    resume isens root { s := ';' :: (c ++ nl :: r), h := h, n := n, tabDepth := td } =
      resume isens root { s := r, h := h, n := n, tabDepth := td } := by
  unfold resume
  rw [blockRun_comment_line isens root c r h n td hc]

theorem skipNewlines_semicolon (r : Str) : skipNewlines (';' :: r) = ';' :: r := by
  have : ';' ≠ nl := by decide
  simp [skipNewlines, this]

/-- In a classic block, a comment line after a newline changes nothing of the
rest of the parse. -/
theorem resume_classic_comment_line (root : Ptr) (c r : Str) (h : Store) (n : Ptr)
    (td : Int) (hc : nl ∉ c) :
    resume false root { s := nl :: ';' :: (c ++ nl :: r), h := h, n := n, tabDepth := td } =
      resume false root { s := nl :: r, h := h, n := n, tabDepth := td } := by
  rw [resume_nl_classic, resume_nl_classic, skipNewlines_semicolon]
  by_cases hn : n = root
  · rw [if_pos hn, if_pos hn, topRun_comment_line root c r h hc]
    exact topRun_skipNewlines root r h
  · rw [if_neg hn, if_neg hn, resume_comment_line false root c r h n td hc]
    unfold resume
    rw [blockRun_classic_skipNewlines root r h n td hn]

/-- In an indentation-sensitive block, a comment line after a newline changes
nothing of the rest of the parse when the next line that is not empty is not
indented. -/
theorem resume_isens_comment_line (root : Ptr) (c r : Str) (h : Store) (n : Ptr)
    (td : Int) (hc : nl ∉ c) (hr : (skipNewlines r).head? ≠ some tab) :
    resume true root { s := nl :: ';' :: (c ++ nl :: r), h := h, n := n, tabDepth := td } =
      resume true root { s := nl :: r, h := h, n := n, tabDepth := td } := by
  have e1 : (';' :: (c ++ nl :: r) = [] ∨ (';' :: (c ++ nl :: r)).head? ≠ some tab) := by
    right; simp; decide
  rw [resume_nl_isens, resume_nl_isens, skipNewlines_semicolon, if_pos e1,
    if_pos (Or.inr hr), topRun_comment_line root c r h hc]
  exact topRun_skipNewlines root r h

/-- Claim C8, as stated, fails in an indentation-sensitive block: `a`,
newline, tab, `b` parses to one block in which `b` is nested below `a`; with
the comment line `;c` inserted between the two lines the block ends at the
comment and `b` becomes a block of its own. -/
theorem comment_line_ends_indented_block :
    parseString "a\n\tb".toList =
      .ret ([{ content := [], parent := none, children := [1] },
             { content := [], parent := some 0, children := [2, 3] },
             { content := ['a'], parent := some 1, children := [] },
             { content := [], parent := some 1, children := [4] },
             { content := ['b'], parent := some 3, children := [] }], some 1) ∧
    parseString "a\n;c\n\tb".toList =
      .ret ([{ content := [], parent := none, children := [1, 3] },
             { content := [], parent := some 0, children := [2] },
             { content := ['a'], parent := some 1, children := [] },
             { content := [], parent := some 0, children := [4] },
             { content := ['b'], parent := some 3, children := [] }], some 0) := by
  decide

/-- Claim C8, amended: a comment line (`;`, a body `c` without newline, a
newline) inserted after a newline leaves the parse unchanged (1) wherever the
scan stands inside a classic block, whatever follows, (2) wherever it stands
at the top level, and (3) for a whole input whose text before the boundary
holds no quote character, in either kind of block, when the first line after
the boundary that is not empty does not begin with a tab. -/
theorem comment_line_transparent (p c r : Str) (hp : ∀ x ∈ p, x ≠ dquote ∧ x ≠ squote)
    (hc : nl ∉ c) :
    (∀ (root : Ptr) (h : Store) (n : Ptr) (td : Int),
      resume false root { s := nl :: ';' :: (c ++ nl :: r), h := h, n := n, tabDepth := td } =
        resume false root { s := nl :: r, h := h, n := n, tabDepth := td }) ∧
    (∀ (root : Ptr) (h : Store),
      topRun root (nl :: ';' :: (c ++ nl :: r)) h = topRun root (nl :: r) h) ∧
    ((skipNewlines r).head? ≠ some tab →
      parseString (p ++ nl :: ';' :: (c ++ nl :: r)) = parseString (p ++ nl :: r)) := by
  have hT : ∀ (root : Ptr) (h : Store),
      topRun root (nl :: ';' :: (c ++ nl :: r)) h = topRun root (nl :: r) h := by
    intro root h
    rw [topRun_nl, topRun_nl, topRun_comment_line root c r h hc]
  refine ⟨fun root h n td => resume_classic_comment_line root c r h n td hc, hT, ?_⟩
  intro hr
  apply parseString_congr
  refine (scan_local Root.2 (';' :: (c ++ nl :: r)) r (hT Root.2) ?_ ?_ p.length p
    (le_refl _) hp).1 Root.1
  · intro isens h n td
    cases isens with
    | false => exact resume_classic_comment_line Root.2 c r h n td hc
    | true => exact resume_isens_comment_line Root.2 c r h n td hc hr
  · intro isens h n td
    exact resume_comment_line isens Root.2 c r h n td hc

/-- The amended claim C8 at `(a`, newline, ` b)` with the comment ` note`. -/
theorem comment_line_transparent_witness :
    (∀ x ∈ "(a".toList, x ≠ dquote ∧ x ≠ squote) ∧ nl ∉ " note".toList ∧
    (skipNewlines " b)".toList).head? ≠ some tab ∧
    parseString ("(a".toList ++ nl :: ';' :: (" note".toList ++ nl :: " b)".toList))
      = parseString ("(a".toList ++ nl :: " b)".toList) :=
  ⟨by decide, by decide, by decide,
    (comment_line_transparent "(a".toList " note".toList " b)".toList (by decide)
      (by decide)).2.2 (by decide)⟩

/-! ## Growing a well-formed store -/

theorem MakeChild_grow (h : Store) (q : Nat) (ndq : Node) (hq : h[q]? = some ndq) :
    MakeChild h (some q) = .ret (grow h q ndq (Node.blank (some q)), some h.length) := by
  simp only [MakeChild, hq, grow]

theorem AddToken_grow (h : Store) (q : Nat) (ndq : Node) (t : Str) (hq : h[q]? = some ndq) :
    AddToken h (some q) t
      = .ret (grow h q ndq { content := t, parent := some q, children := [] }) := by
  simp only [AddToken, hq, grow]

theorem grow_length (h : Store) (q : Nat) (ndq new : Node) :
    (grow h q ndq new).length = h.length + 1 := by
  simp [grow]

theorem grow_new (h : Store) (q : Nat) (ndq new : Node) :
    (grow h q ndq new)[h.length]? = some new := by
  unfold grow
  rw [List.getElem?_append_right (by simp)]
  simp

theorem grow_extends (h : Store) (q : Nat) (ndq new : Node) (hq : h[q]? = some ndq) :
    Extends h (grow h q ndq new) := by
  have hql : q < h.length := (List.getElem?_eq_some_iff.mp hq).1
  refine ⟨by simp [grow], ?_⟩
  intro j ndj hndj
  have hjl : j < h.length := (List.getElem?_eq_some_iff.mp hndj).1
  unfold grow
  rw [List.getElem?_append_left (by simpa using hjl)]
  by_cases hjq : q = j
  · subst hjq
    rw [hq] at hndj
    simp only [Option.some.injEq] at hndj
    subst hndj
    exact ⟨{ ndq with children := ndq.children ++ [h.length] },
      by simp [List.getElem?_set, hql], rfl⟩
  · exact ⟨ndj, by simp [List.getElem?_set, hjq, hndj], rfl⟩

theorem depth_zero (h : Store) (i : Nat) (hd : depth h i = some 0) :
    ∃ nd, h[i]? = some nd ∧ nd.parent = none := by
  unfold depth at hd
  cases hl : h.length with
  | zero => rw [hl] at hd; simp [depthFuel] at hd
  | succ f =>
    rw [hl] at hd
    simp only [depthFuel] at hd
    cases hnd : h[i]? with
    | none => simp [hnd] at hd
    | some nd =>
      cases hp : nd.parent with
      | none => exact ⟨nd, rfl, hp⟩
      | some p =>
        cases h1 : depthFuel h f p with
        | none => simp [hnd, hp, h1] at hd
        | some d1 => simp [hnd, hp, h1] at hd

theorem depth_of_parent (h : Store) (hwf : WellFormed h) (i : Nat) (nd : Node) (p : Nat)
    (hi : h[i]? = some nd) (hp : nd.parent = some p) : ∃ d, depth h p = some d := by
  have hil : i < h.length := (List.getElem?_eq_some_iff.mp hi).1
  obtain ⟨d, hd⟩ := hwf.1 i hil
  cases d with
  | zero =>
    obtain ⟨nd0, h0, hp0⟩ := depth_zero h i hd
    rw [hi] at h0
    simp only [Option.some.injEq] at h0
    subst h0
    rw [hp] at hp0
    simp at hp0
  | succ d =>
    obtain ⟨nd1, p1, h1, hp1, hd1⟩ := depth_parent h i d hd
    rw [hi] at h1
    simp only [Option.some.injEq] at h1
    subst h1
    rw [hp] at hp1
    simp only [Option.some.injEq] at hp1
    subst hp1
    exact ⟨d, hd1⟩

theorem grow_wellFormed (h : Store) (q : Nat) (ndq new : Node) (d : Nat)
    (hwf : WellFormed h) (hq : h[q]? = some ndq) (hdq : depth h q = some d)
    (hnp : new.parent = some q) :
    WellFormed (grow h q ndq new) ∧ depth (grow h q ndq new) h.length = some (d + 1) := by
  have hext := grow_extends h q ndq new hq
  have hql : q < h.length := (List.getElem?_eq_some_iff.mp hq).1
  have hnew : depth (grow h q ndq new) h.length = some (d + 1) :=
    depth_new h _ hext (by simp [grow]) q d h.length new hdq (grow_new h q ndq new) hnp
  refine ⟨⟨?_, ?_, depth_extends h _ hext 0 0 hwf.2.2⟩, hnew⟩
  · intro i hi
    rw [grow_length] at hi
    by_cases hil : i < h.length
    · obtain ⟨di, hdi⟩ := hwf.1 i hil
      exact ⟨di, depth_extends h _ hext i di hdi⟩
    · have : i = h.length := by omega
      subst this
      exact ⟨d + 1, hnew⟩
  · intro i nd hi hp
    by_cases hil : i < h.length
    · obtain ⟨nd1, h1, hp1⟩ := hext.2 i h[i] (List.getElem?_eq_getElem hil)
      rw [hi] at h1
      simp only [Option.some.injEq] at h1
      subst h1
      exact hwf.2.1 i h[i] (List.getElem?_eq_getElem hil) (by rw [← hp1]; exact hp)
    · have hlt := (List.getElem?_eq_some_iff.mp hi).1
      rw [grow_length] at hlt
      have : i = h.length := by omega
      subst this
      rw [grow_new] at hi
      simp only [Option.some.injEq] at hi
      subst hi
      rw [hnp] at hp
      simp at hp

theorem filterMap_set_congr {α β : Type} (f g : α → Option β) :
    ∀ (l : List α) (q : Nat) (a b : α), l[q]? = some a → g b = f a →
      (∀ x ∈ l, g x = f x) → (l.set q b).filterMap g = l.filterMap f := by
  intro l
  induction l with
  | nil => intro q a b hq; simp at hq
  | cons x l ih =>
    intro q a b hq hab hall
    cases q with
    | zero =>
      simp only [List.getElem?_cons_zero, Option.some.injEq] at hq
      subst hq
      simp only [List.set_cons_zero, List.filterMap_cons, hab]
      have : List.filterMap g l = List.filterMap f l :=
        List.filterMap_congr (fun y hy => hall y (by simp [hy]))
      rw [this]
    | succ q =>
      simp only [List.getElem?_cons_succ] at hq
      simp only [List.set_cons_succ, List.filterMap_cons, hall x (by simp)]
      rw [ih q a b hq hab (fun y hy => hall y (by simp [hy]))]

/-- Adding a node keeps the tokens of the store with their depths and, when
the new node is a token, adds it at the depth of its parent. -/
theorem grow_leafDepths (h : Store) (q : Nat) (ndq new : Node) (d : Nat)
    (hwf : WellFormed h) (hq : h[q]? = some ndq) (hdq : depth h q = some d)
    (hnp : new.parent = some q) :
    leafDepths (grow h q ndq new)
      = leafDepths h ++ (if new.content = [] then [] else [(new.content, d)]) := by
  have hext := grow_extends h q ndq new hq
  have hdq1 : depth (grow h q ndq new) q = some d := depth_extends h _ hext q d hdq
  have hold : ∀ nd ∈ h, ∀ p, nd.parent = some p →
      depth (grow h q ndq new) p = depth h p := by
    intro nd hnd p hp
    obtain ⟨i, hi⟩ := List.getElem?_of_mem hnd
    obtain ⟨dp, hdp⟩ := depth_of_parent h hwf i nd p hi hp
    rw [hdp]
    exact depth_extends h _ hext p dp hdp
  have hcongr : ∀ nd ∈ h,
      (fun nd : Node =>
        if nd.content = [] then none
        else
          match nd.parent with
          | none => none
          | some p =>
            match depth (grow h q ndq new) p with
            | none => none
            | some d => some (nd.content, d)) nd
      = (fun nd : Node =>
        if nd.content = [] then none
        else
          match nd.parent with
          | none => none
          | some p =>
            match depth h p with
            | none => none
            | some d => some (nd.content, d)) nd := by
    intro nd hnd
    cases hp : nd.parent with
    | none => simp only [hp]
    | some p => simp only [hp, hold nd hnd p hp]
  have hq' := hcongr ndq (List.getElem?_mem hq)
  unfold leafDepths
  conv_lhs => rw [show grow h q ndq new
      = h.set q { ndq with children := ndq.children ++ [h.length] } ++ [new] from rfl]
  rw [List.filterMap_append]
  congr 1
  · exact filterMap_set_congr _ _ h q ndq _ hq hq' hcongr
  · have hdq2 : depth (h.set q { ndq with children := ndq.children ++ [h.length] } ++ [new]) q
        = some d := hdq1
    simp only [List.filterMap_cons, List.filterMap_nil, hnp, hdq2]
    by_cases hc : new.content = []
    · simp [hc]
    · simp [hc]

theorem wellFormed_root : WellFormed Root.1 := by
  refine ⟨?_, ?_, by decide⟩
  · intro i hi
    have : i = 0 := by simpa [Root] using hi
    subst this
    exact ⟨0, by decide⟩
  · intro i nd hi _
    have := (List.getElem?_eq_some_iff.mp hi).1
    simpa [Root] using this

theorem leafDepths_root : leafDepths Root.1 = [] := by decide

/-! ## Classic texts -/

theorem tokenDepths_bare (cnt : Nat) (rest : Str) :
    ∀ (t cur : Str), (∀ c ∈ t, c ∉ delims) →
      tokenDepths cnt cur (t ++ rest) = tokenDepths cnt (cur ++ t) rest := by
  intro t
  induction t with
  | nil => intro cur _; simp
  | cons x t ih =>
    intro cur ht
    have hx : x ∉ delims := ht x (by simp)
    rw [List.cons_append]
    simp only [tokenDepths, hx, if_false]
    rw [ih (cur ++ [x]) (fun c hc => ht c (by simp [hc]))]
    simp

theorem tokenDepths_end (cnt : Nat) (cur rest : Str) (hr : TokenEnd rest) (hc : cur ≠ []) :
    tokenDepths cnt cur rest = (cur, cnt) :: tokenDepths cnt [] rest := by
  cases rest with
  | nil => simp [tokenDepths, hc]
  | cons c r =>
    have hcd : c ∈ delims := hr
    simp [tokenDepths, hc, hcd]

theorem tokenDepths_atom (cnt : Nat) (t rest : Str) (ht : Atom t) (hr : TokenEnd rest) :
    tokenDepths cnt [] (t ++ rest) = (t, cnt) :: tokenDepths cnt [] rest := by
  rw [tokenDepths_bare cnt rest t [] ht.2.1, List.nil_append,
    tokenDepths_end cnt t rest hr ht.1]

theorem tokenDepths_open (cnt : Nat) (r : Str) :
    tokenDepths cnt [] ('(' :: r) = tokenDepths (cnt + 1) [] r := by
  simp [tokenDepths, delims]

theorem tokenDepths_close (cnt : Nat) (r : Str) :
    tokenDepths cnt [] (')' :: r) = tokenDepths (cnt - 1) [] r := by
  simp [tokenDepths, delims]

theorem tokenDepths_space (cnt : Nat) (r : Str) :
    tokenDepths cnt [] (' ' :: r) = tokenDepths cnt [] r := by
  simp [tokenDepths, delims]

theorem tokenDepths_tab (cnt : Nat) (r : Str) :
    tokenDepths cnt [] (tab :: r) = tokenDepths cnt [] r := by
  have e1 : tab ≠ '(' := by decide
  have e2 : tab ≠ ')' := by decide
  simp [tokenDepths, delims, e1, e2]

theorem tokenDepths_nl (cnt : Nat) (r : Str) :
    tokenDepths cnt [] (nl :: r) = tokenDepths cnt [] r := by
  have e1 : nl ≠ '(' := by decide
  have e2 : nl ≠ ')' := by decide
  simp [tokenDepths, delims, e1, e2]

theorem tokenDepths_skipNewlines (cnt : Nat) (r : Str) :
    tokenDepths cnt [] (skipNewlines r) = tokenDepths cnt [] r := by
  induction r with
  | nil => simp [skipNewlines]
  | cons x r ih =>
    by_cases hx : x = nl
    · subst hx
      simp only [skipNewlines, if_true, tokenDepths_nl]
      exact ih
    · simp [skipNewlines, hx]

theorem classicOK_nl (top : Bool) (cnt : Nat) (r : Str) :
    classicOK top cnt (nl :: r) = classicOK (cnt == 0) cnt r := by
  have e1 : nl ≠ '(' := by decide
  have e2 : nl ≠ ')' := by decide
  simp [classicOK, e1, e2]

theorem classicOK_skipNewlines (cnt : Nat) (r : Str)
    (h : classicOK (cnt == 0) cnt r = true) :
    classicOK (cnt == 0) cnt (skipNewlines r) = true := by
  induction r with
  | nil => simpa [skipNewlines] using h
  | cons x r ih =>
    by_cases hx : x = nl
    · subst hx
      rw [classicOK_nl] at h
      simp only [skipNewlines, if_true]
      exact ih h
    · simpa [skipNewlines, hx] using h

/-- In a classic text a character that is no parenthesis, blank or newline
stands inside a block and is no quote and no semicolon. -/
theorem classicOK_bare (top : Bool) (cnt : Nat) (x : Char) (r : Str)
    (h1 : x ≠ '(') (h2 : x ≠ ')') (h3 : x ≠ ' ') (h4 : x ≠ tab) (h5 : x ≠ nl)
    (h : classicOK top cnt (x :: r) = true) :
    top = false ∧ x ≠ dquote ∧ x ≠ squote ∧ x ≠ ';' ∧ classicOK false cnt r = true := by
  simp only [classicOK, h1, h2, h3, h4, h5, or_self, if_false] at h
  by_cases hq : x = dquote ∨ x = squote ∨ x = ';'
  · simp [hq] at h
  · simp only [hq, if_false, Bool.and_eq_true, Bool.not_eq_true'] at h
    simp only [not_or] at hq
    exact ⟨h.1, hq.1, hq.2.1, hq.2.2, h.2⟩

theorem classicOK_bare_run (cnt : Nat) (rest : Str) :
    ∀ (t : Str), (∀ c ∈ t, c ∉ delims) → classicOK false cnt (t ++ rest) = true →
      classicOK false cnt rest = true := by
  intro t
  induction t with
  | nil => intro _ h; simpa using h
  | cons x t ih =>
    intro ht h
    have hx : x ∉ delims := ht x (by simp)
    simp only [delims, List.mem_cons, List.mem_singleton, List.mem_nil_iff, or_false,
      not_or] at hx
    rw [List.cons_append] at h
    have := classicOK_bare false cnt x (t ++ rest) hx.2.2.2.2.1 hx.2.2.2.2.2 hx.1 hx.2.1
      hx.2.2.1 h
    exact ih (fun c hc => ht c (by simp [hc])) this.2.2.2.2

theorem resume_nil (isens : Bool) (root : Ptr) (h : Store) (n : Ptr) (td : Int) :
    resume isens root { s := [], h := h, n := n, tabDepth := td } = .ret h := by
  unfold resume
  rw [blockRun_nil]
  exact topRun_nil root h

/-- The scan of a classic text keeps the cursor at the depth given by the
number of unmatched `(`: from a well-formed store, the rest of the parse ends
normally and adds to the tokens of the store exactly the tokens of the text,
each at the depth of its count. -/
theorem classic_scan :
    ∀ (k : Nat) (s : Str), s.length ≤ k →
      (classicOK true 0 s = true → ∀ h, WellFormed h →
        ∃ h1, topRun (some 0) s h = .ret h1 ∧
          leafDepths h1 = leafDepths h ++ tokenDepths 0 [] s) ∧
      (∀ (cnt : Nat) (h : Store) (i : Nat) (td : Int),
        classicOK false cnt s = true → WellFormed h → depth h i = some cnt →
        ∃ h1, resume false (some 0) { s := s, h := h, n := some i, tabDepth := td } = .ret h1 ∧
          leafDepths h1 = leafDepths h ++ tokenDepths cnt [] s) := by
  intro k
  induction k with
  | zero =>
    intro s hs
    have : s = [] := List.length_eq_zero.mp (by omega)
    subst this
    refine ⟨fun _ h _ => ⟨h, topRun_nil _ h, by simp [tokenDepths]⟩, ?_⟩
    intro cnt h i td _ _ _
    exact ⟨h, resume_nil _ _ h _ td, by simp [tokenDepths]⟩
  | succ k ih =>
    intro s hs
    cases s with
    | nil =>
      refine ⟨fun _ h _ => ⟨h, topRun_nil _ h, by simp [tokenDepths]⟩, ?_⟩
      intro cnt h i td _ _ _
      exact ⟨h, resume_nil _ _ h _ td, by simp [tokenDepths]⟩
    | cons x r =>
      have hr : r.length ≤ k := by simpa using hs
      have hblock : ∀ (cnt : Nat) (h : Store) (i : Nat) (td : Int),
          classicOK false cnt (x :: r) = true → WellFormed h → depth h i = some cnt →
          ∃ h1, resume false (some 0) { s := x :: r, h := h, n := some i, tabDepth := td }
              = .ret h1 ∧
            leafDepths h1 = leafDepths h ++ tokenDepths cnt [] (x :: r) := by
        intro cnt h i td hok hwf hd
        have hil := depth_exists h i cnt hd
        have hi : h[i]? = some h[i] := List.getElem?_eq_getElem hil
        by_cases h1 : x = '('
        · subst h1
          have hok1 : classicOK false (cnt + 1) r = true := by simpa [classicOK] using hok
          obtain ⟨hwf1, hd1⟩ := grow_wellFormed h i h[i] (Node.blank (some i)) cnt hwf hi hd rfl
          have hl1 := grow_leafDepths h i h[i] (Node.blank (some i)) cnt hwf hi hd rfl
          obtain ⟨h2, hrun, hleaf⟩ := (ih r hr).2 (cnt + 1) _ h.length td hok1 hwf1 hd1
          refine ⟨h2, ?_, ?_⟩
          · rw [resume_open, MakeChild_grow h i h[i] hi]
            exact hrun
          · rw [hleaf, hl1, tokenDepths_open]
            simp [Node.blank]
        by_cases h2 : x = ')'
        · subst h2
          have hok1 : 0 < cnt ∧ classicOK false (cnt - 1) r = true := by
            simpa [classicOK] using hok
          obtain ⟨c1, rfl⟩ : ∃ c1, cnt = c1 + 1 := ⟨cnt - 1, by omega⟩
          obtain ⟨nd, p, hnd, hp, hdp⟩ := depth_parent h i c1 hd
          obtain ⟨h2, hrun, hleaf⟩ := (ih r hr).2 c1 h p td (by simpa using hok1.2) hwf hdp
          refine ⟨h2, ?_, ?_⟩
          · rw [resume_close, Parent_some h i nd hnd, hp]
            exact hrun
          · rw [hleaf, tokenDepths_close]
            simp
        by_cases h3 : x = ' '
        · subst h3
          have hok1 : classicOK false cnt r = true := by simpa [classicOK] using hok
          obtain ⟨h2, hrun, hleaf⟩ := (ih r hr).2 cnt h i td hok1 hwf hd
          exact ⟨h2, by rw [resume_space]; exact hrun, by rw [hleaf, tokenDepths_space]⟩
        by_cases h4 : x = tab
        · subst h4
          have e1 : tab ≠ '(' := by decide
          have e2 : tab ≠ ')' := by decide
          have e3 : tab ≠ nl := by decide
          have hok1 : classicOK false cnt r = true := by
            simpa [classicOK, e1, e2, e3] using hok
          obtain ⟨h2, hrun, hleaf⟩ := (ih r hr).2 cnt h i td hok1 hwf hd
          exact ⟨h2, by rw [resume_tab]; exact hrun, by rw [hleaf, tokenDepths_tab]⟩
        by_cases h5 : x = nl
        · subst h5
          rw [classicOK_nl] at hok
          have hok1 := classicOK_skipNewlines cnt r hok
          have hlen : (skipNewlines r).length ≤ k :=
            le_trans (skipNewlines_length_le r) hr
          rw [resume_nl_classic, tokenDepths_nl, ← tokenDepths_skipNewlines]
          by_cases hroot : i = 0
          · subst hroot
            have hc0 : cnt = 0 := by
              have := hwf.2.2
              rw [hd] at this
              simpa using this
            subst hc0
            simp only [if_true]
            exact (ih _ hlen).1 (by simpa using hok1) h hwf
          · have hne : (some i : Ptr) ≠ some 0 := by simpa using hroot
            have hc0 : cnt ≠ 0 := by
              intro h0
              subst h0
              obtain ⟨nd, hnd, hp⟩ := depth_zero h i hd
              exact hroot (hwf.2.1 i nd hnd hp)
            have hb : (cnt == 0) = false := by simpa using hc0
            rw [hb] at hok1
            rw [if_neg hne]
            exact (ih _ hlen).2 cnt h i td hok1 hwf hd
        · -- a bare token
          obtain ⟨_, hq1, hq2, hq3, hok1⟩ := classicOK_bare false cnt x r h1 h2 h3 h4 h5 hok
          have hxd : x ∉ delims := by
            simp only [delims, List.mem_cons, List.mem_singleton, List.mem_nil_iff, or_false,
              not_or]
            exact ⟨h3, h4, h5, hq1, h1, h2⟩
          obtain ⟨t, p2, hsplit, hat, hlen, _, htail⟩ := split_atom x r hxd hq3 hq2
          have hte : TokenEnd p2 := by simpa using htail [] tokenEnd_nil
          have hok2 : classicOK false cnt p2 = true := by
            rw [hsplit] at hok
            exact classicOK_bare_run cnt p2 t hat.2.1 hok
          obtain ⟨hwf1, _⟩ := grow_wellFormed h i h[i]
            { content := t, parent := some i, children := [] } cnt hwf hi hd rfl
          have hl1 := grow_leafDepths h i h[i]
            { content := t, parent := some i, children := [] } cnt hwf hi hd rfl
          have hd1 := depth_extends h _
            (grow_extends h i h[i] { content := t, parent := some i, children := [] } hi)
            i cnt hd
          obtain ⟨h2, hrun, hleaf⟩ := (ih p2 (by omega)).2 cnt _ i td hok2 hwf1 hd1
          refine ⟨h2, ?_, ?_⟩
          · rw [hsplit, resume_atom false (some 0) t p2 h (some i) td hat hte,
              AddToken_grow h i h[i] t hi]
            exact hrun
          · rw [hleaf, hl1, hsplit, tokenDepths_atom cnt t p2 hat hte]
            simp [hat.1]
      refine ⟨?_, hblock⟩
      intro hok h hwf
      have h0l : 0 < h.length := depth_exists h 0 0 hwf.2.2
      have h0 : h[0]? = some h[0] := List.getElem?_eq_getElem h0l
      by_cases h1 : x = '('
      · subst h1
        have hok1 : classicOK false 1 r = true := by simpa [classicOK] using hok
        obtain ⟨hwf1, hd1⟩ := grow_wellFormed h 0 h[0] (Node.blank (some 0)) 0 hwf h0 hwf.2.2 rfl
        have hl1 := grow_leafDepths h 0 h[0] (Node.blank (some 0)) 0 hwf h0 hwf.2.2 rfl
        obtain ⟨h2, hrun, hleaf⟩ := (ih r hr).2 1 _ h.length 0 hok1 hwf1 hd1
        refine ⟨h2, ?_, ?_⟩
        · rw [topRun_block (some 0) '(' r h (by decide) (by decide) (by decide) (by decide),
            MakeChild_grow h 0 h[0] h0]
          simpa using hrun
        · rw [hleaf, hl1, tokenDepths_open]
          simp [Node.blank]
      by_cases h2 : x = ')'
      · subst h2
        simp [classicOK] at hok
      by_cases h3 : x = ' '
      · subst h3
        have hok1 : classicOK true 0 r = true := by simpa [classicOK] using hok
        obtain ⟨h2, hrun, hleaf⟩ := (ih r hr).1 hok1 h hwf
        exact ⟨h2, by rw [topRun_space]; exact hrun, by rw [hleaf, tokenDepths_space]⟩
      by_cases h4 : x = tab
      · subst h4
        have e1 : tab ≠ '(' := by decide
        have e2 : tab ≠ ')' := by decide
        have e3 : tab ≠ nl := by decide
        have hok1 : classicOK true 0 r = true := by simpa [classicOK, e1, e2, e3] using hok
        obtain ⟨h2, hrun, hleaf⟩ := (ih r hr).1 hok1 h hwf
        exact ⟨h2, by rw [topRun_tab]; exact hrun, by rw [hleaf, tokenDepths_tab]⟩
      by_cases h5 : x = nl
      · subst h5
        rw [classicOK_nl] at hok
        obtain ⟨h2, hrun, hleaf⟩ := (ih r hr).1 (by simpa using hok) h hwf
        exact ⟨h2, by rw [topRun_nl]; exact hrun, by rw [hleaf, tokenDepths_nl]⟩
      · have := (classicOK_bare true 0 x r h1 h2 h3 h4 h5 hok).1
        simp at this

/-! ## Claim on nesting depth -/

/-- Claim C9, as stated, fails: the text `('(' a))` starts with `(`, holds no
comment and no string, and its parentheses are balanced; the token `a` comes
after two unmatched `(`, and the parse attaches it to a node at depth 1,
because the second `(` is the content of a character literal. -/
theorem char_literal_paren_depth :
    parenBalanced ['(', squote, '(', squote, ' ', 'a', ')', ')'] ∧
    unmatched ['(', squote, '(', squote, ' '] = 2 ∧
    ∃ h, topRun Root.2 ['(', squote, '(', squote, ' ', 'a', ')', ')'] Root.1 = .ret h ∧
      leafDepths h = [([squote, '(', squote], 1), (['a'], 1)] := by
  refine ⟨by decide, by decide,
    [{ content := [], parent := none, children := [1] },
     { content := [], parent := some 0, children := [2, 3] },
     { content := [squote, '(', squote], parent := some 1, children := [] },
     { content := ['a'], parent := some 1, children := [] }], by decide, by decide⟩

/-- Claim C9, amended: for every classic text (no quote character and no
semicolon, balanced parentheses, every top-level block beginning with `(`)
the top-level loop ends normally, and the tokens of the tree it has built
(the tree before the final collapse, which is the store `parseString` hands
back) are the tokens of the text in order, each attached to a node whose
depth is the number of `(` before the token not yet matched by a `)`. -/
theorem classic_depth_is_paren_count (s : Str) (hs : classicOK true 0 s = true) :
    ∃ h, topRun Root.2 s Root.1 = .ret h ∧
      leafDepths h = tokenDepths 0 [] s ∧
      ∀ r, collapse h (h.length + 1) Root.2 = .ret r → parseString s = .ret (h, r) := by
  obtain ⟨h, hrun, hleaf⟩ := (classic_scan s.length s (le_refl _)).1 hs Root.1 wellFormed_root
  have hrun2 : topRun Root.2 s Root.1 = .ret h := hrun
  refine ⟨h, hrun2, by rw [hleaf, leafDepths_root, List.nil_append], ?_⟩
  intro r hr
  rw [parseString_eq, hrun2]
  simp only [hr]

/-- The amended claim C9 at the text `(a (b))`, newline, `(c)`. -/
theorem classic_depth_is_paren_count_witness :
    classicOK true 0 "(a (b))\n(c)".toList = true ∧
    ∃ h, topRun Root.2 "(a (b))\n(c)".toList Root.1 = .ret h ∧
      leafDepths h = tokenDepths 0 [] "(a (b))\n(c)".toList := by
  refine ⟨by decide, ?_⟩
  obtain ⟨h, h1, h2, _⟩ := classic_depth_is_paren_count "(a (b))\n(c)".toList (by decide)
  exact ⟨h, h1, h2⟩

theorem skipNewlines_append_dquote (p r : Str) :
    skipNewlines (p ++ dquote :: r) = skipNewlines p ++ dquote :: r := by
  have e : dquote ≠ nl := by decide
  rw [skipNewlines_append]
  by_cases hs : skipNewlines p = []
  · rw [if_pos hs, hs]
    simp [skipNewlines, e]
  · rw [if_neg hs]

/-- A text without quote characters and semicolons is scanned up to what
follows it: when an unterminated string follows, the rest of the parse ends
with the token error or with a panic, never with a tree. -/
theorem scan_to_unterminated (root : Ptr) (r : Str) (hr : dquote ∉ r) :
    ∀ (k : Nat) (p : Str), p.length ≤ k →
      (∀ x ∈ p, x ≠ dquote ∧ x ≠ squote ∧ x ≠ ';') →
      (∀ h, topRun root (p ++ dquote :: r) h = .err (tokenError (dquote :: r)) ∨
        topRun root (p ++ dquote :: r) h = .panic) ∧
      (∀ isens h n td,
        resume isens root { s := p ++ dquote :: r, h := h, n := n, tabDepth := td }
            = .err (tokenError (dquote :: r)) ∨
          resume isens root { s := p ++ dquote :: r, h := h, n := n, tabDepth := td }
            = .panic) := by
  have hbase : ∀ isens h n td,
      resume isens root { s := dquote :: r, h := h, n := n, tabDepth := td }
        = .err (tokenError (dquote :: r)) := by
    intro isens h n td
    unfold resume
    rw [blockRun_unterminated isens root r h n td hr]
  intro k
  induction k with
  | zero =>
    intro p hp _
    have : p = [] := List.length_eq_zero.mp (by omega)
    subst this
    refine ⟨?_, fun isens h n td => Or.inl (hbase isens h n td)⟩
    intro h
    rw [List.nil_append,
      topRun_block root dquote r h (by decide) (by decide) (by decide) (by decide)]
    cases MakeChild h root with
    | ret q => exact Or.inl (hbase _ q.1 q.2 0)
    | err m => exact Or.inr rfl
    | panic => exact Or.inr rfl
    | fuel => exact Or.inr rfl
  | succ k ih =>
    intro p hp hq
    cases p with
    | nil =>
      refine ⟨?_, fun isens h n td => Or.inl (hbase isens h n td)⟩
      intro h
      rw [List.nil_append,
        topRun_block root dquote r h (by decide) (by decide) (by decide) (by decide)]
      cases MakeChild h root with
      | ret q => exact Or.inl (hbase _ q.1 q.2 0)
      | err m => exact Or.inr rfl
      | panic => exact Or.inr rfl
      | fuel => exact Or.inr rfl
    | cons x p1 =>
      have hp1 : p1.length ≤ k := by simpa using hp
      have hq1 : ∀ y ∈ p1, y ≠ dquote ∧ y ≠ squote ∧ y ≠ ';' :=
        fun y hy => hq y (by simp [hy])
      have hxq := hq x (by simp)
      have hsub : ∀ (q : Str), q.Sublist p1 →
          q.length ≤ k ∧ ∀ y ∈ q, y ≠ dquote ∧ y ≠ squote ∧ y ≠ ';' :=
        fun q hs => ⟨le_trans hs.length_le hp1, fun y hy => hq1 y (hs.subset hy)⟩
      have hQtab : (dquote :: r).head? ≠ some tab := by simp; decide
      have hblock : ∀ isens h n td,
          resume isens root { s := (x :: p1) ++ dquote :: r, h := h, n := n, tabDepth := td }
              = .err (tokenError (dquote :: r)) ∨
            resume isens root { s := (x :: p1) ++ dquote :: r, h := h, n := n, tabDepth := td }
              = .panic := by
        intro isens h n td
        by_cases h1 : x = '('
        · subst h1
          rw [List.cons_append, resume_open]
          cases MakeChild h n with
          | ret q => exact (ih p1 hp1 hq1).2 isens q.1 q.2 td
          | err m => exact Or.inr rfl
          | panic => exact Or.inr rfl
          | fuel => exact Or.inr rfl
        by_cases h2 : x = ')'
        · subst h2
          rw [List.cons_append, resume_close]
          cases Parent h n with
          | ret q => exact (ih p1 hp1 hq1).2 isens h q td
          | err m => exact Or.inr rfl
          | panic => exact Or.inr rfl
          | fuel => exact Or.inr rfl
        by_cases h3 : x = ' '
        · subst h3
          rw [List.cons_append, resume_space]
          exact (ih p1 hp1 hq1).2 isens h n td
        by_cases h4 : x = tab
        · subst h4
          rw [List.cons_append, resume_tab]
          exact (ih p1 hp1 hq1).2 isens h n td
        by_cases h5 : x = nl
        · subst h5
          rw [List.cons_append]
          obtain ⟨hl, hqq⟩ := hsub _ (skipNewlines_sublist p1)
          have IH := ih (skipNewlines p1) hl hqq
          cases isens with
          | false =>
            rw [resume_nl_classic, skipNewlines_append_dquote]
            by_cases hn : n = root
            · rw [if_pos hn]; exact IH.1 h
            · rw [if_neg hn]; exact IH.2 false h n td
          | true =>
            rw [resume_nl_isens, skipNewlines_append_dquote]
            by_cases hc : skipNewlines p1 ++ dquote :: r = [] ∨
                (skipNewlines p1 ++ dquote :: r).head? ≠ some tab
            · rw [if_pos hc]; exact IH.1 h
            · rw [if_neg hc, countTabs_append _ hQtab]
              dsimp only
              obtain ⟨hl2, hqq2⟩ := hsub _
                ((countTabs_sublist (skipNewlines p1) 0).trans (skipNewlines_sublist p1))
              cases indentSrfi49 (((countTabs 0 (skipNewlines p1)).1 : Int) - td) h n with
              | ret q => exact (ih _ hl2 hqq2).2 true q.1 q.2 _
              | err m => exact Or.inr rfl
              | panic => exact Or.inr rfl
              | fuel => exact Or.inr rfl
        · have hxd : x ∉ delims := by
            simp only [delims, List.mem_cons, List.mem_singleton, List.mem_nil_iff, or_false,
              not_or]
            exact ⟨h3, h4, h5, hxq.1, h1, h2⟩
          obtain ⟨t, p2, hsplit, hat, hlen, hmem, htail⟩ :=
            split_atom x p1 hxd hxq.2.2 hxq.2.1
          rw [hsplit, List.append_assoc,
            resume_atom isens root t _ h n td hat (htail _ (tokenEnd_dquote r))]
          cases AddToken h n t with
          | ret q =>
            exact (ih p2 (by omega) (fun y hy => hq1 y (hmem y hy))).2 isens q n td
          | err m => exact Or.inr rfl
          | panic => exact Or.inr rfl
          | fuel => exact Or.inr rfl
      refine ⟨?_, hblock⟩
      intro h
      by_cases h3 : x = ' '
      · subst h3
        rw [List.cons_append, topRun_space]
        exact (ih p1 hp1 hq1).1 h
      by_cases h4 : x = tab
      · subst h4
        rw [List.cons_append, topRun_tab]
        exact (ih p1 hp1 hq1).1 h
      by_cases h5 : x = nl
      · subst h5
        rw [List.cons_append, topRun_nl]
        exact (ih p1 hp1 hq1).1 h
      · rw [List.cons_append, topRun_block root x _ h h3 h4 h5 hxq.2.2]
        cases MakeChild h root with
        | ret q =>
          by_cases h1 : x = '('
          · simp only [h1, if_true]
            exact (ih p1 hp1 hq1).2 _ q.1 q.2 0
          · simp only [h1, if_false]
            exact hblock _ q.1 q.2 0
        | err m => exact Or.inr rfl
        | panic => exact Or.inr rfl
        | fuel => exact Or.inr rfl

theorem parseString_of_topRun_fails (s : Str) (m : Str)
    (h : topRun Root.2 s Root.1 = .err m ∨ topRun Root.2 s Root.1 = .panic) :
    parseString s = .err m ∨ parseString s = .panic := by
  rcases h with h | h
  · left; rw [parseString_eq, h]
  · right; rw [parseString_eq, h]


/-! ## Claim on unterminated strings -/

/-- Claim C2, amended: when a double quote with no double quote after it is
preceded only by text `p` holding no quote character and no semicolon (so
that the quote stands neither in a comment nor in a character literal), the
parse hands back no tree: if it returns at all, it returns the error of the
token scan, naming the input from that quote on.  When `p` moreover is one
line without parentheses (for example `a "bc`), it does return that error.
And in any block, whatever the mode, the cursor and the tree, the loop
returns that error as soon as the next token starts with such a quote. -/
theorem parseString_unterminated_string (p r : Str)
    (hp : ∀ c ∈ p, c ≠ dquote ∧ c ≠ squote ∧ c ≠ ';') (hr : dquote ∉ r) :
    (parseString (p ++ dquote :: r) = .err (tokenError (dquote :: r)) ∨
      parseString (p ++ dquote :: r) = .panic) ∧
    ((∀ c ∈ p, c ≠ nl ∧ c ≠ '(' ∧ c ≠ ')') →
      parseString (p ++ dquote :: r) = .err (tokenError (dquote :: r))) ∧
    ∀ (isens : Bool) (root : Ptr) (h : Store) (n : Ptr) (td : Int),
      blockRun isens root { s := dquote :: r, h := h, n := n, tabDepth := td }
        = .err (tokenError (dquote :: r)) := by
  refine ⟨?_, ?_, fun isens root h n td => blockRun_unterminated isens root r h n td hr⟩
  · exact parseString_of_topRun_fails _ _
      ((scan_to_unterminated Root.2 r hr p.length p (le_refl _) hp).1 Root.1)
  · intro hline
    have hall : ∀ c ∈ p, c ∉ [nl, dquote, squote, '(', ')', ';'] := by
      intro c hc
      have h1 := hp c hc
      have h2 := hline c hc
      simp only [List.mem_cons, List.mem_singleton, List.mem_nil_iff, or_false, not_or]
      exact ⟨h2.1, h1.1, h1.2.1, h2.2.1, h2.2.2, h1.2.2⟩
    have e : topRun Root.2 (p ++ dquote :: r) Root.1 = .err (tokenError (dquote :: r)) :=
      topRun_line_unterminated r hr p hall Root.1 (by decide)
    rw [parseString_eq, e]

/-- The amended claim C2 at the input `a "bc`. -/
theorem parseString_unterminated_string_witness :
    (∀ c ∈ "a ".toList, c ≠ dquote ∧ c ≠ squote ∧ c ≠ ';') ∧ dquote ∉ "bc".toList ∧
    (∀ c ∈ "a ".toList, c ≠ nl ∧ c ≠ '(' ∧ c ≠ ')') ∧
    parseString ("a ".toList ++ dquote :: "bc".toList)
      = .err (tokenError (dquote :: "bc".toList)) :=
  ⟨by decide, by decide, by decide,
    (parseString_unterminated_string "a ".toList "bc".toList (by decide) (by decide)).2.1
      (by decide)⟩

/-! ## Claims on single rounds of the block loop -/

/-- Claim C17: inside a block, in either mode, from any cursor, store and tab
depth, the round at `;`, a comment body `c` without newline, a newline and a
rest `r` goes on with exactly `r` and the same cursor, store and tab depth:
the newline is consumed with the comment, so no newline round is taken (the
block does not end, no depth transition is made), and the loop continues as
it does on `r` from that state. -/
theorem comment_skipped_with_newline (isens : Bool) (root : Ptr) (c r : Str) (h : Store)
    (n : Ptr) (td : Int) (hc : nl ∉ c) :
    blockStep isens root { s := ';' :: (c ++ nl :: r), h := h, n := n, tabDepth := td }
      = .next { s := r, h := h, n := n, tabDepth := td } ∧
    blockRun isens root { s := ';' :: (c ++ nl :: r), h := h, n := n, tabDepth := td }
      = blockRun isens root { s := r, h := h, n := n, tabDepth := td } := by
  refine ⟨?_, blockRun_comment_line isens root c r h n td hc⟩
  rw [blockStep_comment, skipLine_append, skipLine_of_not_mem c hc]
  rfl

/-- Claim C17 at the comment ` note` before the line `b)`. -/
theorem comment_skipped_with_newline_witness :
    nl ∉ " note".toList ∧
    blockStep false (some 0)
        { s := ';' :: (" note".toList ++ nl :: "b)".toList), h := Root.1, n := some 0,
          tabDepth := 0 }
      = .next { s := "b)".toList, h := Root.1, n := some 0, tabDepth := 0 } :=
  ⟨by decide,
    (comment_skipped_with_newline false (some 0) " note".toList "b)".toList Root.1 (some 0) 0
      (by decide)).1⟩

/-- Claim C13, as stated, fails: in the parse of `(a`, newline, `b)` the
working node of the block is node 1, the child of the root made for the
block; at the newline the cursor is that node, and the round goes on inside
the block instead of ending it, so `b` joins `a` under node 1. -/
theorem classic_newline_at_working_node :
    MakeChild Root.1 Root.2 = .ret ([{ content := [], parent := none, children := [1] },
                                     { content := [], parent := some 0, children := [] }],
                                    some 1) ∧
    blockStep false Root.2
        { s := [nl, 'b', ')'],
          h := [{ content := [], parent := none, children := [1] },
                { content := [], parent := some 0, children := [2] },
                { content := ['a'], parent := some 1, children := [] }],
          n := some 1, tabDepth := 0 }
      = .next { s := ['b', ')'],
                h := [{ content := [], parent := none, children := [1] },
                      { content := [], parent := some 0, children := [2] },
                      { content := ['a'], parent := some 1, children := [] }],
                n := some 1, tabDepth := 0 } ∧
    parseString ['(', 'a', nl, 'b', ')'] =
      .ret ([{ content := [], parent := none, children := [1] },
             { content := [], parent := some 0, children := [2, 3] },
             { content := ['a'], parent := some 1, children := [] },
             { content := ['b'], parent := some 1, children := [] }], some 1) := by
  decide

/-- Claim C13, amended: in a classic block, the round at a newline consumes
the run of newlines and then ends the block if and only if the cursor is the
tree root (where the `)` matching the opening `(` of the block leaves it);
for any other cursor, the working node of the block included, it goes on
inside the block with the cursor, store and tab depth unchanged. -/
theorem classic_block_ends_at_root (root : Ptr) (r : Str) (h : Store) (n : Ptr) (td : Int) :
    (n = root →
      blockStep false root { s := nl :: r, h := h, n := n, tabDepth := td }
        = .brk { s := skipNewlines r, h := h, n := n, tabDepth := td }) ∧
    (n ≠ root →
      blockStep false root { s := nl :: r, h := h, n := n, tabDepth := td }
        = .next { s := skipNewlines r, h := h, n := n, tabDepth := td }) ∧
    ((∃ st1, blockStep false root { s := nl :: r, h := h, n := n, tabDepth := td } = .brk st1)
      ↔ n = root) := by
  rw [blockStep_nl_classic]
  by_cases hn : n = root
  · simp [hn]
  · simp [hn]


/-- The amended claim C13 at the root and at the working node of a block. -/
theorem classic_block_ends_at_root_witness :
    (some 0 : Ptr) = some 0 ∧ (some 1 : Ptr) ≠ some 0 ∧
    blockStep false (some 0) { s := nl :: ['b'], h := Root.1, n := some 0, tabDepth := 0 }
      = .brk { s := skipNewlines ['b'], h := Root.1, n := some 0, tabDepth := 0 } ∧
    blockStep false (some 0) { s := nl :: ['b'], h := Root.1, n := some 1, tabDepth := 0 }
      = .next { s := skipNewlines ['b'], h := Root.1, n := some 1, tabDepth := 0 } :=
  ⟨rfl, by decide,
    (classic_block_ends_at_root (some 0) ['b'] Root.1 (some 0) 0).1 rfl,
    (classic_block_ends_at_root (some 0) ['b'] Root.1 (some 1) 0).2.1 (by decide)⟩

/-! ## String literals -/

/-- The pattern of one item of a string body: `[^"\\]|\\.`. -/
theorem bodyItem_dquote (r : Str) :
    Regex.run (.alt (.notOf [dquote, bslash]) (.seq (.char bslash) .any)) (dquote :: r) = [] := by
  have e : dquote ≠ bslash := by decide
  simp [Regex.run, e]

theorem bodyItem_plain (c : Char) (r : Str) (h1 : c ≠ dquote) (h2 : c ≠ bslash) :
    Regex.run (.alt (.notOf [dquote, bslash]) (.seq (.char bslash) .any)) (c :: r) = [r] := by
  simp [Regex.run, h1, h2]

theorem bodyItem_escaped (r : Str) :
    Regex.run (.alt (.notOf [dquote, bslash]) (.seq (.char bslash) .any))
      (bslash :: dquote :: r) = [r] := by
  have e : dquote ≠ nl := by decide
  simp [Regex.run, e]

theorem starLoop_stringBody (rest : Str) :
    ∀ (k : Nat) (b : Str), b.length ≤ k → isStringBody b = true →
      ∀ f, b.length ≤ f →
      (starLoop (Regex.run (.alt (.notOf [dquote, bslash]) (.seq (.char bslash) .any))) f
        (b ++ dquote :: rest)).head? = some (dquote :: rest) := by
  intro k
  induction k with
  | zero =>
    intro b hb _ f _
    have : b = [] := List.length_eq_zero.mp (by omega)
    subst this
    cases f with
    | zero => simp [starLoop]
    | succ f =>
      simp only [List.nil_append, starLoop, bodyItem_dquote]
      simp
  | succ k ih =>
    intro b hb hbody f hf
    cases b with
    | nil =>
      cases f with
      | zero => simp [starLoop]
      | succ f =>
        simp only [List.nil_append, starLoop, bodyItem_dquote]
        simp
    | cons c b1 =>
      cases f with
      | zero => simp at hf
      | succ f =>
        have hlen1 : b1.length ≤ k := by simpa using hb
        have hf1 : b1.length ≤ f := by simpa using hf
        by_cases hc : c = bslash
        · subst hc
          cases b1 with
          | nil =>
            have e : bslash ≠ dquote := by decide
            simp [isStringBody, e] at hbody
          | cons d b2 =>
            simp only [isStringBody, if_true, Bool.and_eq_true, decide_eq_true_eq] at hbody
            obtain ⟨hd, hb2⟩ := hbody
            subst hd
            have h2 := ih b2 (by simp at hlen1; omega) hb2 f (by simp at hf1; omega)
            have hne := starLoop_ne_nil
              (Regex.run (.alt (.notOf [dquote, bslash]) (.seq (.char bslash) .any))) f
              (b2 ++ dquote :: rest)
            simp only [List.cons_append, starLoop, bodyItem_escaped]
            simp only [List.filter, List.length_cons, List.length_append]
            have hlt : decide ((b2.length + (rest.length + 1))
                < b2.length + (rest.length + 1) + 1 + 1) = true := by
              simp; omega
            simp only [hlt, List.flatMap_cons, List.flatMap_nil, List.append_nil]
            rw [List.head?_append_of_ne_nil _ hne]
            exact h2
        · have hbody1 : c ≠ dquote ∧ isStringBody b1 = true := by
            cases b1 with
            | nil => simp [isStringBody, hc] at hbody; simp [hbody, isStringBody]
            | cons d b2 => simpa [isStringBody, hc] using hbody
          have h2 := ih b1 hlen1 hbody1.2 f hf1
          have hne := starLoop_ne_nil
            (Regex.run (.alt (.notOf [dquote, bslash]) (.seq (.char bslash) .any))) f
            (b1 ++ dquote :: rest)
          simp only [List.cons_append, starLoop, bodyItem_plain c _ hbody1.1 hc]
          simp only [List.filter, List.length_cons, Nat.lt_succ_self, decide_True,
            List.flatMap_cons, List.flatMap_nil, List.append_nil]
          rw [List.head?_append_of_ne_nil _ hne]
          exact h2

/-- At a string literal the string pattern matches the whole literal. -/
theorem stringRegex_matchLen (b rest : Str) (hb : isStringBody b = true) :
    stringRegex.matchLen (dquote :: (b ++ dquote :: rest)) = some (b.length + 2) := by
  have h1 := starLoop_stringBody rest b.length b (le_refl _) hb (b ++ dquote :: rest).length
    (by simp)
  cases hl : starLoop (Regex.run (.alt (.notOf [dquote, bslash]) (.seq (.char bslash) .any)))
      (b ++ dquote :: rest).length (b ++ dquote :: rest) with
  | nil => rw [hl] at h1; simp at h1
  | cons x xs =>
    rw [hl] at h1
    simp only [List.head?_cons, Option.some.injEq] at h1
    subst h1
    have hrun : stringRegex.run (dquote :: (b ++ dquote :: rest))
        = rest :: xs.flatMap (Regex.run (.char dquote)) := by
      show Regex.run (.seq (.char dquote) (.seq (.star _) (.char dquote))) _ = _
      rw [run_seq]
      have e0 : Regex.run (.char dquote) (dquote :: (b ++ dquote :: rest))
          = [b ++ dquote :: rest] := by simp [Regex.run]
      rw [e0]
      simp only [List.flatMap_cons, List.flatMap_nil, List.append_nil]
      rw [run_seq, run_star, hl]
      simp [Regex.run]
    unfold Regex.matchLen
    rw [hrun]
    simp
    omega

theorem findTokenEnd_string (b rest : Str) (hb : isStringBody b = true) :
    findTokenEnd (dquote :: (b ++ dquote :: rest)) = .ret ((b.length + 2 : Nat) : Int) := by
  simp only [findTokenEnd, FindStringIndex, if_true, findFrom,
    stringRegex_matchLen b rest hb]
  simp

/-- A round at a string literal adds it below the cursor and moves past it. -/
theorem blockStep_string (isens : Bool) (root : Ptr) (b rest : Str) (h : Store) (n : Ptr)
    (td : Int) (hb : isStringBody b = true) :
    blockStep isens root { s := dquote :: (b ++ dquote :: rest), h := h, n := n, tabDepth := td } =
      match AddToken h n (dquote :: (b ++ [dquote])) with
      | .ret h1 => .next { s := rest, h := h1, n := n, tabDepth := td }
      | _ => .panic := by
  have e1 : dquote ≠ '(' := by decide
  have e2 : dquote ≠ ')' := by decide
  have e3 : dquote ≠ ' ' := by decide
  have e4 : dquote ≠ tab := by decide
  have e5 : dquote ≠ nl := by decide
  have e6 : dquote ≠ ';' := by decide
  simp only [blockStep, e1, e2, e3, e4, e5, e6, if_false, or_self,
    findTokenEnd_string b rest hb]
  have hlt : ¬ (((b.length + 2 : Nat) : Int) < 0) := by omega
  simp only [hlt, if_false, Int.toNat_ofNat, sliceTo, sliceFrom]
  have hle : b.length + 2 ≤ (dquote :: (b ++ dquote :: rest)).length := by simp
  simp only [hle, if_true]
  have e7 : (dquote :: (b ++ dquote :: rest)).take (b.length + 2) = dquote :: (b ++ [dquote]) := by
    have : dquote :: (b ++ dquote :: rest) = (dquote :: (b ++ [dquote])) ++ rest := by simp
    rw [this]
    have hl : (dquote :: (b ++ [dquote])).length = b.length + 2 := by simp
    rw [← hl, List.take_left]
  have e8 : (dquote :: (b ++ dquote :: rest)).drop (b.length + 2) = rest := by
    have : dquote :: (b ++ dquote :: rest) = (dquote :: (b ++ [dquote])) ++ rest := by simp
    rw [this]
    have hl : (dquote :: (b ++ [dquote])).length = b.length + 2 := by simp
    rw [← hl, List.drop_left]
  rw [e7, e8]

theorem resume_string (isens : Bool) (root : Ptr) (b rest : Str) (h : Store) (n : Ptr)
    (td : Int) (hb : isStringBody b = true) :
    resume isens root { s := dquote :: (b ++ dquote :: rest), h := h, n := n, tabDepth := td } =
      match AddToken h n (dquote :: (b ++ [dquote])) with
      | .ret h1 => resume isens root { s := rest, h := h1, n := n, tabDepth := td }
      | _ => .panic := by
  unfold resume
  rw [blockRun_eq, blockStep_string isens root b rest h n td hb]
  simp only [List.cons_ne_nil, if_false]
  cases AddToken h n (dquote :: (b ++ [dquote])) <;> rfl

/-- Claim C11: for a string literal `L` (a double quote, a body of characters
other than double quote and backslash mixed with escaped quotes, a closing
double quote) and a bare token `t`, the parse of `L`, a space, `t` succeeds;
it records exactly two tokens, `L` then `t`, and they are the two leaf
children of the node handed back. -/
theorem parseString_string_then_atom (b t : Str) (hb : isStringBody b = true) (ht : Atom t) :
    parseString (dquote :: (b ++ dquote :: ' ' :: t)) =
      .ret ([{ content := [], parent := none, children := [1] },
             { content := [], parent := some 0, children := [2, 3] },
             { content := dquote :: (b ++ [dquote]), parent := some 1, children := [] },
             { content := t, parent := some 1, children := [] }], some 1) := by
  have h3 := fun h n => resume_atom true (some 0) t [] h n 0 ht tokenEnd_nil
  simp only [List.append_nil] at h3
  have e : topRun Root.2 (dquote :: (b ++ dquote :: ' ' :: t)) Root.1
      = .ret [{ content := [], parent := none, children := [1] },
             { content := [], parent := some 0, children := [2, 3] },
             { content := dquote :: (b ++ [dquote]), parent := some 1, children := [] },
             { content := t, parent := some 1, children := [] }] := by
    have e5 : dquote ≠ '(' := by decide
    rw [topRun_block Root.2 dquote _ Root.1 (by decide) (by decide) (by decide) (by decide)]
    simp only [Root, MakeChild, Node.blank, List.getElem?_cons_zero, List.set_cons_zero,
      List.length_cons, List.length_nil, List.nil_append, List.cons_append, zero_add, e5,
      if_false, decide_False, Bool.not_false]
    rw [resume_string true (some 0) b _ _ _ 0 hb]
    simp only [AddToken, List.getElem?_cons_zero, List.getElem?_cons_succ, List.set_cons_zero,
      List.set_cons_succ, List.length_cons, List.length_nil, List.nil_append, List.cons_append,
      zero_add, Nat.reduceAdd]
    rw [resume_space, h3]
    simp only [AddToken, List.getElem?_cons_zero, List.getElem?_cons_succ, List.set_cons_zero,
      List.set_cons_succ, List.length_cons, List.length_nil, List.nil_append, List.cons_append,
      zero_add, Nat.reduceAdd, resume_nil]
  rw [parseString_eq, e]
  simp [collapse, Node.first, Node.last, Root]

/-- Claim C11 at `"a\"b" next`: the tokens are `"a\"b"` and `next`. -/
theorem parseString_string_then_atom_witness :
    isStringBody ['a', bslash, dquote, 'b'] = true ∧ Atom "next".toList ∧
    parseString [dquote, 'a', bslash, dquote, 'b', dquote, ' ', 'n', 'e', 'x', 't'] =
      .ret ([{ content := [], parent := none, children := [1] },
             { content := [], parent := some 0, children := [2, 3] },
             { content := [dquote, 'a', bslash, dquote, 'b', dquote], parent := some 1,
               children := [] },
             { content := "next".toList, parent := some 1, children := [] }], some 1) :=
  ⟨by decide, by decide,
    parseString_string_then_atom ['a', bslash, dquote, 'b'] "next".toList (by decide)
      (by decide)⟩

/-! ## Properties kept by every parse -/

theorem parentTimes_kept (I : Store → Ptr → Prop) (hI : Kept I) (h : Store) :
    ∀ (k : Nat) (n n1 : Ptr), I h n → parentTimes k h n = .ret n1 → I h n1 := by
  intro k
  induction k with
  | zero =>
    intro n n1 hn hr
    simp only [parentTimes, Outcome.ret.injEq] at hr
    rw [← hr]; exact hn
  | succ k ih =>
    intro n n1 hn hr
    simp only [parentTimes] at hr
    cases hp : Parent h n with
    | ret m =>
      rw [hp] at hr
      exact ih m n1 (hI.parent h n m hn hp) hr
    | err m => rw [hp] at hr; simp [Outcome.andThen] at hr
    | panic => rw [hp] at hr; simp [Outcome.andThen] at hr
    | fuel => rw [hp] at hr; simp [Outcome.andThen] at hr

theorem makeChildTimes_kept (I : Store → Ptr → Prop) (hI : Kept I) :
    ∀ (k : Nat) (h : Store) (n : Ptr) (h1 : Store) (n1 : Ptr), I h n →
      makeChildTimes k h n = .ret (h1, n1) → I h1 n1 := by
  intro k
  induction k with
  | zero =>
    intro h n h1 n1 hn hr
    simp only [makeChildTimes, Outcome.ret.injEq, Prod.mk.injEq] at hr
    rw [← hr.1, ← hr.2]; exact hn
  | succ k ih =>
    intro h n h1 n1 hn hr
    simp only [makeChildTimes] at hr
    cases hp : MakeChild h n with
    | ret m =>
      rw [hp] at hr
      exact ih m.1 m.2 h1 n1 (hI.make h n m.1 m.2 hn hp) hr
    | err m => rw [hp] at hr; simp [Outcome.andThen] at hr
    | panic => rw [hp] at hr; simp [Outcome.andThen] at hr
    | fuel => rw [hp] at hr; simp [Outcome.andThen] at hr

theorem indentSrfi49_kept (I : Store → Ptr → Prop) (hI : Kept I) (d : Int) (h : Store)
    (n : Ptr) (h1 : Store) (n1 : Ptr) (hn : I h n)
    (hr : indentSrfi49 d h n = .ret (h1, n1)) : I h1 n1 := by
  have hsib : ∀ m, I h m → (Parent h m).andThen (fun p => MakeChild h p) = .ret (h1, n1) →
      I h1 n1 := by
    intro m hm hr2
    cases hp : Parent h m with
    | ret p =>
      rw [hp] at hr2
      exact hI.make h p h1 n1 (hI.parent h m p hm hp) hr2
    | err e => rw [hp] at hr2; simp [Outcome.andThen] at hr2
    | panic => rw [hp] at hr2; simp [Outcome.andThen] at hr2
    | fuel => rw [hp] at hr2; simp [Outcome.andThen] at hr2
  unfold indentSrfi49 at hr
  split at hr
  · cases hp : parentTimes d.natAbs h n with
    | ret m =>
      rw [hp] at hr
      exact hsib m (parentTimes_kept I hI h _ n m hn hp) hr
    | err e => rw [hp] at hr; simp [Outcome.andThen] at hr
    | panic => rw [hp] at hr; simp [Outcome.andThen] at hr
    | fuel => rw [hp] at hr; simp [Outcome.andThen] at hr
  · split at hr
    · exact hsib n hn hr
    · split at hr
      · exact makeChildTimes_kept I hI _ h n h1 n1 hn hr
      · simp at hr

/-- A round of the block loop keeps every property that the node operations
keep. -/
theorem blockStep_kept (I : Store → Ptr → Prop) (hI : Kept I) (isens : Bool) (root : Ptr)
    (st st1 : Scan) (hst : I st.h st.n)
    (h : blockStep isens root st = .next st1 ∨ blockStep isens root st = .brk st1) :
    I st1.h st1.n := by
  obtain ⟨s, hp, n, td⟩ := st
  cases s with
  | nil => simp [blockStep] at h
  | cons c r =>
    simp only [blockStep] at h
    split at h
    · cases hm : MakeChild hp n with
      | ret m =>
        rw [hm] at h
        rcases h with h | h <;> simp at h
        rw [← h]
        exact hI.make hp n m.1 m.2 hst hm
      | err e => rw [hm] at h; simp at h
      | panic => rw [hm] at h; simp at h
      | fuel => rw [hm] at h; simp at h
    · split at h
      · cases hm : Parent hp n with
        | ret m =>
          rw [hm] at h
          rcases h with h | h <;> simp at h
          rw [← h]
          exact hI.parent hp n m hst hm
        | err e => rw [hm] at h; simp at h
        | panic => rw [hm] at h; simp at h
        | fuel => rw [hm] at h; simp at h
      · split at h
        · rcases h with h | h <;> simp at h
          rw [← h]; exact hst
        · split at h
          · split at h
            · split at h
              · rcases h with h | h <;> simp at h
                rw [← h]; exact hst
              · rcases h with h | h <;> simp at h
                rw [← h]; exact hst
            · split at h
              · rcases h with h | h <;> simp at h
                rw [← h]; exact hst
              · cases hm : indentSrfi49
                    (((countTabs 0 (skipNewlines (c :: r))).1 : Int) - td) hp n with
                | ret m =>
                  rw [hm] at h
                  rcases h with h | h <;> simp at h
                  rw [← h]
                  exact indentSrfi49_kept I hI _ hp n m.1 m.2 hst hm
                | err e => rw [hm] at h; simp at h
                | panic => rw [hm] at h; simp at h
                | fuel => rw [hm] at h; simp at h
          · split at h
            · split at h
              · rcases h with h | h <;> simp at h
                rw [← h]; exact hst
              · simp at h
            · split at h
              · split at h
                · simp at h
                · split at h
                  · rename_i tok s1 _ _
                    cases hm : AddToken hp n tok with
                    | ret m =>
                      rw [hm] at h
                      rcases h with h | h <;> simp at h
                      rw [← h]
                      exact hI.token hp n tok m hst hm
                    | err e => rw [hm] at h; simp at h
                    | panic => rw [hm] at h; simp at h
                    | fuel => rw [hm] at h; simp at h
                  · simp at h
              · simp at h

theorem blockRun_kept (I : Store → Ptr → Prop) (hI : Kept I) (isens : Bool) (root : Ptr) :
    ∀ (k : Nat) (st : Scan), st.s.length ≤ k → I st.h st.n →
      ∀ s1 h1, blockRun isens root st = .ret (s1, h1) → ∃ n1, I h1 n1 := by
  intro k
  induction k with
  | zero =>
    intro st hk hst s1 h1 hr
    have h0 : st.s = [] := List.length_eq_zero.mp (by omega)
    rw [blockRun_eq, if_pos h0] at hr
    simp only [Outcome.ret.injEq, Prod.mk.injEq] at hr
    exact ⟨st.n, by rw [← hr.2]; exact hst⟩
  | succ k ih =>
    intro st hk hst s1 h1 hr
    rw [blockRun_eq] at hr
    split at hr
    · simp only [Outcome.ret.injEq, Prod.mk.injEq] at hr
      exact ⟨st.n, by rw [← hr.2]; exact hst⟩
    · cases hstep : blockStep isens root st with
      | next st1 =>
        rw [hstep] at hr
        have hlt := blockStep_length_lt isens root st st1 (Or.inl hstep)
        exact ih st1 (by omega) (blockStep_kept I hI isens root st st1 hst (Or.inl hstep))
          s1 h1 hr
      | brk st1 =>
        rw [hstep] at hr
        simp only [Outcome.ret.injEq, Prod.mk.injEq] at hr
        have := blockStep_kept I hI isens root st st1 hst (Or.inr hstep)
        exact ⟨st1.n, by rw [← hr.2]; exact this⟩
      | fail msg => rw [hstep] at hr; simp at hr
      | panic => rw [hstep] at hr; simp at hr

theorem doTopNode_kept (I : Store → Ptr → Prop) (hI : Kept I) (root : Ptr)
    (hroot : ∀ h n, I h n → I h root) (s : Str) (h : Store) (n : Ptr) (hn : I h n)
    (s1 : Str) (h1 : Store) (hr : doTopNode root s h = .ret (s1, h1)) : ∃ n1, I h1 n1 := by
  cases s with
  | nil => simp [doTopNode] at hr
  | cons c r =>
    rw [doTopNode_eq] at hr
    cases hm : MakeChild h root with
    | ret m =>
      rw [hm] at hr
      exact blockRun_kept I hI _ root _ _ (le_refl _)
        (hI.make h root m.1 m.2 (hroot h n hn) hm) s1 h1 hr
    | err e => rw [hm] at hr; simp at hr
    | panic => rw [hm] at hr; simp at hr
    | fuel => rw [hm] at hr; simp at hr

theorem topStep_kept (I : Store → Ptr → Prop) (hI : Kept I) (root : Ptr)
    (hroot : ∀ h n, I h n → I h root) (s : Str) (h : Store) (n : Ptr) (hn : I h n)
    (s1 : Str) (h1 : Store) (hr : topStep root s h = .next (s1, h1)) : ∃ n1, I h1 n1 := by
  cases s with
  | nil => simp [topStep] at hr
  | cons c r =>
    simp only [topStep] at hr
    split at hr
    · simp only [Step.next.injEq, Prod.mk.injEq] at hr
      exact ⟨n, by rw [← hr.2]; exact hn⟩
    · split at hr
      · simp only [Step.next.injEq, Prod.mk.injEq] at hr
        exact ⟨n, by rw [← hr.2]; exact hn⟩
      · split at hr
        · split at hr
          · simp only [Step.next.injEq, Prod.mk.injEq] at hr
            exact ⟨n, by rw [← hr.2]; exact hn⟩
          · simp at hr
        · cases hd : doTopNode root (c :: r) h with
          | ret p =>
            rw [hd] at hr
            simp only [Step.next.injEq, Prod.mk.injEq] at hr
            obtain ⟨n1, hn1⟩ := doTopNode_kept I hI root hroot (c :: r) h n hn p.1 p.2 hd
            exact ⟨n1, by rw [← hr.2]; exact hn1⟩
          | err e => rw [hd] at hr; simp at hr
          | panic => rw [hd] at hr; simp at hr
          | fuel => rw [hd] at hr; simp at hr

/-- Every property that the node operations keep, and that holds again with
the cursor back at the root, holds of the store at the end of the top-level
loop. -/
theorem topRun_kept (I : Store → Ptr → Prop) (hI : Kept I) (root : Ptr)
    (hroot : ∀ h n, I h n → I h root) :
    ∀ (k : Nat) (s : Str) (h : Store) (n : Ptr), s.length ≤ k → I h n →
      ∀ h1, topRun root s h = .ret h1 → ∃ n1, I h1 n1 := by
  intro k
  induction k with
  | zero =>
    intro s h n hk hn h1 hr
    have h0 : s = [] := List.length_eq_zero.mp (by omega)
    rw [topRun_eq, if_pos h0] at hr
    simp only [Outcome.ret.injEq] at hr
    exact ⟨n, by rw [← hr]; exact hn⟩
  | succ k ih =>
    intro s h n hk hn h1 hr
    rw [topRun_eq] at hr
    split at hr
    · simp only [Outcome.ret.injEq] at hr
      exact ⟨n, by rw [← hr]; exact hn⟩
    · cases hstep : topStep root s h with
      | next p =>
        rw [hstep] at hr
        have hlt := (topStep_length_lt root s h).2 p.1 p.2 hstep
        obtain ⟨n1, hn1⟩ := topStep_kept I hI root hroot s h n hn p.1 p.2 hstep
        exact ih p.1 p.2 n1 (by omega) hn1 h1 hr
      | brk st1 => rw [hstep] at hr; simp at hr
      | fail msg => rw [hstep] at hr; simp at hr
      | panic => rw [hstep] at hr; simp at hr

/-- The top-level loop never exhausts its budget. -/
theorem topRun_ne_fuel (root : Ptr) :
    ∀ (k : Nat) (s : Str) (h : Store), s.length ≤ k → topRun root s h ≠ .fuel := by
  intro k
  induction k with
  | zero =>
    intro s h hk
    have h0 : s = [] := List.length_eq_zero.mp (by omega)
    rw [topRun_eq, if_pos h0]
    simp
  | succ k ih =>
    intro s h hk
    rw [topRun_eq]
    split
    · simp
    · cases hstep : topStep root s h with
      | next p =>
        have hlt := (topStep_length_lt root s h).2 p.1 p.2 hstep
        exact ih p.1 p.2 (by omega)
      | brk st1 => exact absurd hstep ((topStep_length_lt root s h).1 st1)
      | fail msg => simp
      | panic => simp

/-! ## Tidy stores and the collapse -/

theorem grow_tidy (h : Store) (q : Nat) (ndq new : Node) (ht : Tidy h)
    (hq : h[q]? = some ndq) (hnew : new.children = []) : Tidy (grow h q ndq new) := by
  have hql : q < h.length := (List.getElem?_eq_some_iff.mp hq).1
  refine ⟨by rw [grow_length]; omega, ?_⟩
  intro i nd hi
  have hil := (List.getElem?_eq_some_iff.mp hi).1
  rw [grow_length] at hil ⊢
  by_cases hik : i = h.length
  · subst hik
    rw [grow_new] at hi
    simp only [Option.some.injEq] at hi
    subst hi
    rw [hnew]
    simp
  · have hil2 : i < h.length := by omega
    unfold grow at hi
    rw [List.getElem?_append_left (by simpa using hil2)] at hi
    by_cases hiq : q = i
    · subst hiq
      simp only [List.getElem?_set, hql, if_true, Option.some.injEq] at hi
      subst hi
      obtain ⟨hp, hc⟩ := ht.2 q ndq hq
      refine ⟨?_, ?_⟩
      · simp only
        rw [List.pairwise_append]
        refine ⟨hp, by simp, ?_⟩
        intro a ha b hb
        simp only [List.mem_singleton] at hb
        rw [hb]
        exact (hc a ha).2
      · intro c hcm
        simp only [List.mem_append, List.mem_singleton] at hcm
        rcases hcm with hcm | hcm
        · have := hc c hcm
          exact ⟨this.1, by omega⟩
        · rw [hcm]; omega
    · simp only [List.getElem?_set, hiq, if_false] at hi
      obtain ⟨hp, hc⟩ := ht.2 i nd hi
      exact ⟨hp, fun c hcm => ⟨(hc c hcm).1, by have := (hc c hcm).2; omega⟩⟩

theorem tidy_kept : Kept (fun h _ => Tidy h) := by
  refine ⟨?_, ?_, ?_⟩
  · intro h n h1 n1 ht hm
    cases n with
    | none => simp [MakeChild] at hm
    | some q =>
      cases hq : h[q]? with
      | none => simp [MakeChild, hq] at hm
      | some ndq =>
        rw [MakeChild_grow h q ndq hq] at hm
        simp only [Outcome.ret.injEq, Prod.mk.injEq] at hm
        rw [← hm.1]
        exact grow_tidy h q ndq _ ht hq rfl
  · intro h n n1 ht _
    exact ht
  · intro h n t h1 ht hm
    cases n with
    | none => simp [AddToken] at hm
    | some q =>
      cases hq : h[q]? with
      | none => simp [AddToken, hq] at hm
      | some ndq =>
        rw [AddToken_grow h q ndq t hq] at hm
        simp only [Outcome.ret.injEq] at hm
        rw [← hm]
        exact grow_tidy h q ndq _ ht hq rfl

theorem tidy_root : Tidy Root.1 := by
  refine ⟨by decide, ?_⟩
  intro i nd hi
  have hil := (List.getElem?_eq_some_iff.mp hi).1
  have : i = 0 := by simpa [Root] using hil
  subst this
  simp only [Root, List.getElem?_cons_zero, Option.some.injEq] at hi
  subst hi
  simp [Node.blank]

/-- The store at the end of the top-level loop is tidy. -/
theorem topRun_tidy (s : Str) (h1 : Store) (hr : topRun Root.2 s Root.1 = .ret h1) :
    Tidy h1 := by
  obtain ⟨_, hn⟩ := topRun_kept (fun h _ => Tidy h) tidy_kept Root.2 (fun _ _ ht => ht)
    s.length s Root.1 none (le_refl _) tidy_root h1 hr
  exact hn

/-- On a tidy store the collapse ends within its budget, and its result is
the one of the walk. -/
theorem collapse_tidy (h : Store) (ht : Tidy h) :
    ∀ (f i : Nat), i < h.length → h.length - i + 1 ≤ f →
      ∃ r, collapse h f (some i) = .ret r ∧ Collapses h i r := by
  intro f
  induction f with
  | zero => intro i _ hf; omega
  | succ f ih =>
    intro i hi hf
    have hnd : h[i]? = some h[i] := List.getElem?_eq_getElem hi
    obtain ⟨hp, hc⟩ := ht.2 i h[i] hnd
    simp only [collapse, hnd]
    cases hch : h[i].children with
    | nil =>
      by_cases hcont : h[i].content = []
      · have hf1 : f = (f - 1) + 1 := by omega
        refine ⟨none, ?_, Collapses.drop i h[i] hnd hcont hch⟩
        simp only [Node.first, Node.last, hch, hcont, List.head?_nil, List.getLast?_nil,
          and_self, if_true]
        rw [hf1]
        simp [collapse]
      · refine ⟨some i, ?_, Collapses.stay i h[i] hnd (Or.inl hcont)⟩
        simp [hcont]
    | cons c cs =>
      cases cs with
      | nil =>
        by_cases hcont : h[i].content = []
        · have hcb := hc c (by rw [hch]; simp)
          obtain ⟨r, hr, hcol⟩ := ih c hcb.2 (by omega)
          refine ⟨r, ?_, Collapses.down i h[i] c r hnd hcont hch hcol⟩
          simp only [Node.first, Node.last, hch, hcont, List.head?_cons, List.getLast?_singleton,
            and_self, if_true]
          exact hr
        · refine ⟨some i, ?_, Collapses.stay i h[i] hnd (Or.inl hcont)⟩
          simp [hcont]
      | cons c2 cs2 =>
        refine ⟨some i, ?_, Collapses.stay i h[i] hnd (Or.inr (by rw [hch]; simp))⟩
        have hne : (c :: c2 :: cs2).head? ≠ (c :: c2 :: cs2).getLast? := by
          rw [hch] at hp
          have hlast : (c :: c2 :: cs2).getLast? = some ((c2 :: cs2).getLast (by simp)) := by
            rw [List.getLast?_cons_cons, List.getLast?_eq_getLast]
          rw [hlast]
          simp only [List.head?_cons, ne_eq, Option.some.injEq]
          have hmem : (c2 :: cs2).getLast (by simp) ∈ c2 :: cs2 := List.getLast_mem _
          have := (List.pairwise_cons.mp hp).1 _ hmem
          omega
        simp only [Node.first, Node.last, hch]
        rw [if_neg (fun hx => hne hx.1)]

theorem parseString_of_topRun (s : Str) (h : Store) (hr : topRun Root.2 s Root.1 = .ret h) :
    ∃ r, parseString s = .ret (h, r) ∧ Collapses h 0 r := by
  have ht := topRun_tidy s h hr
  obtain ⟨r, hc, hcol⟩ := collapse_tidy h ht (h.length + 1) 0 ht.1 (by omega)
  refine ⟨r, ?_, hcol⟩
  have hc2 : collapse h (h.length + 1) Root.2 = .ret r := hc
  rw [parseString_eq, hr]
  simp only [hc2]

/-! ## Claims on the collapse and on termination -/

/-- Claim C12, as stated, fails: on the empty input the tree is the root
alone, a node without content and without children, and the collapse replaces
it by nil, so no node of the tree is handed back. -/
theorem empty_input_collapses_to_nil :
    parseString [] = .ret ([{ content := [], parent := none, children := [] }], none) := by
  decide

/-- Claim C12, amended: whenever the top-level loop ends normally with a
store `h`, the parse succeeds with that store, and the node handed back is
the one reached from the root by moving to the child as long as the current
node has no content and exactly one child; the walk stops at a node with
content or with two or more children, which is handed back; at a node with
no content and no children, nil is handed back. -/
theorem collapse_walk (s : Str) (h : Store) (hr : topRun Root.2 s Root.1 = .ret h) :
    ∃ r, parseString s = .ret (h, r) ∧ Collapses h 0 r := by
  exact parseString_of_topRun s h hr

/-- The amended claim C12 at the input `(a b)`. -/
theorem collapse_walk_witness :
    topRun Root.2 "(a b)".toList Root.1 =
      .ret [{ content := [], parent := none, children := [1] },
            { content := [], parent := some 0, children := [2, 3] },
            { content := ['a'], parent := some 1, children := [] },
            { content := ['b'], parent := some 1, children := [] }] ∧
    ∃ r, parseString "(a b)".toList =
        .ret ([{ content := [], parent := none, children := [1] },
               { content := [], parent := some 0, children := [2, 3] },
               { content := ['a'], parent := some 1, children := [] },
               { content := ['b'], parent := some 1, children := [] }], r) ∧
      Collapses [{ content := [], parent := none, children := [1] },
                 { content := [], parent := some 0, children := [2, 3] },
                 { content := ['a'], parent := some 1, children := [] },
                 { content := ['b'], parent := some 1, children := [] }] 0 r :=
  ⟨by decide, collapse_walk "(a b)".toList _ (by decide)⟩

/-- The remaining input is a decreasing measure.  The budgets of the model
are never exhausted: every round of the top-level loop that goes on, every
call of `doTopNode` that returns without error, and every round of the block
loop that goes on or leaves the loop, ends with strictly less input than it
started with; a round that does not ends the parse (with an error, or with a
panic). -/
theorem parse_terminates (s : Str) :
    parseString s ≠ .fuel ∧
    (∀ (root : Ptr) (s0 : Str) (h : Store) (s1 : Str) (h1 : Store),
      topStep root s0 h = .next (s1, h1) → s1.length < s0.length) ∧
    (∀ (root : Ptr) (s0 : Str) (h : Store) (q : Str × Store), topStep root s0 h ≠ .brk q) ∧
    (∀ (root : Ptr) (c : Char) (r : Str) (h : Store),
      doTopNode root (c :: r) h ≠ .fuel ∧
      ∀ s1 h1, doTopNode root (c :: r) h = .ret (s1, h1) → s1.length < (c :: r).length) ∧
    (∀ (isens : Bool) (root : Ptr) (st st1 : Scan),
      blockStep isens root st = .next st1 ∨ blockStep isens root st = .brk st1 →
      st1.s.length < st.s.length) := by
  refine ⟨?_, fun root s0 h s1 h1 => (topStep_length_lt root s0 h).2 s1 h1,
    fun root s0 h q => (topStep_length_lt root s0 h).1 q,
    fun root c r h => doTopNode_total root c r h,
    fun isens root st st1 => blockStep_length_lt isens root st st1⟩
  cases hr : topRun Root.2 s Root.1 with
  | ret h =>
    obtain ⟨r, hp, _⟩ := parseString_of_topRun s h hr
    rw [hp]; simp
  | err m => rw [parseString_eq, hr]; simp
  | panic => rw [parseString_eq, hr]; simp
  | fuel => exact absurd hr (topRun_ne_fuel Root.2 s.length s Root.1 (le_refl _))

/-- At the input `(a)`, newline, `b`, the first round of the top-level loop
runs the block `(a)` and leaves `b`. -/
theorem parse_terminates_witness :
    topStep Root.2 "(a)\nb".toList Root.1 =
      .next ("b".toList, [{ content := [], parent := none, children := [1] },
                          { content := [], parent := some 0, children := [2] },
                          { content := ['a'], parent := some 1, children := [] }]) ∧
    "b".toList.length < "(a)\nb".toList.length :=
  ⟨by decide, (parse_terminates []).2.1 Root.2 "(a)\nb".toList Root.1 "b".toList
    [{ content := [], parent := none, children := [1] },
     { content := [], parent := some 0, children := [2] },
     { content := ['a'], parent := some 1, children := [] }] (by decide)⟩

/-! ## Newlines inside a classic block -/

theorem resume_classic_skipNewlines (root : Ptr) (r : Str) (h : Store) (n : Ptr) (td : Int)
    (hn : n ≠ root) :
    resume false root { s := r, h := h, n := n, tabDepth := td } =
      resume false root { s := skipNewlines r, h := h, n := n, tabDepth := td } := by
  unfold resume
  rw [blockRun_classic_skipNewlines root r h n td hn]

/-- In a classic block, with the cursor anywhere but at the root, a newline
and a space give the same rest of the parse. -/
theorem resume_classic_nl_space (root : Ptr) (r : Str) (h : Store) (n : Ptr) (td : Int)
    (hn : n ≠ root) :
    resume false root { s := nl :: r, h := h, n := n, tabDepth := td } =
      resume false root { s := ' ' :: r, h := h, n := n, tabDepth := td } := by
  rw [resume_nl_classic, if_neg hn, resume_space,
    ← resume_classic_skipNewlines root r h n td hn]

theorem insideOK_other (cnt : Nat) (x : Char) (r : Str) (h1 : x ≠ '(') (h2 : x ≠ ')')
    (h : insideOK cnt (x :: r) = true) :
    x ≠ dquote ∧ x ≠ squote ∧ x ≠ ';' ∧ insideOK cnt r = true := by
  simp only [insideOK, h1, h2, if_false] at h
  by_cases hq : x = dquote ∨ x = squote ∨ x = ';'
  · simp [hq] at h
  · simp only [hq, if_false] at h
    simp only [not_or] at hq
    exact ⟨hq.1, hq.2.1, hq.2.2, h⟩

theorem insideOK_skipNewlines (cnt : Nat) (r : Str) (h : insideOK cnt r = true) :
    insideOK cnt (skipNewlines r) = true := by
  induction r with
  | nil => simpa [skipNewlines] using h
  | cons x r ih =>
    by_cases hx : x = nl
    · subst hx
      simp only [skipNewlines, if_true]
      exact ih (insideOK_other cnt nl r (by decide) (by decide) h).2.2.2
    · simpa [skipNewlines, hx] using h

theorem insideOK_bare_run (cnt : Nat) (rest : Str) :
    ∀ (t : Str), (∀ c ∈ t, c ∉ delims) → insideOK cnt (t ++ rest) = true →
      insideOK cnt rest = true := by
  intro t
  induction t with
  | nil => intro _ h; simpa using h
  | cons x t ih =>
    intro ht h
    have hx : x ∉ delims := ht x (by simp)
    simp only [delims, List.mem_cons, List.mem_singleton, List.mem_nil_iff, or_false,
      not_or] at hx
    rw [List.cons_append] at h
    exact ih (fun c hc => ht c (by simp [hc]))
      (insideOK_other cnt x (t ++ rest) hx.2.2.2.2.1 hx.2.2.2.2.2 h).2.2.2

theorem depth_pos_ne_root (h : Store) (hwf : WellFormed h) (i cnt : Nat)
    (hd : depth h i = some cnt) (hc : 1 ≤ cnt) : (some i : Ptr) ≠ some 0 := by
  intro hi
  simp only [Option.some.injEq] at hi
  subst hi
  have := hwf.2.2
  rw [hd] at this
  simp only [Option.some.injEq] at this
  omega

/-- Inside the outermost parentheses of a classic block, the scan of a text
without quote characters and semicolons ends in the same way before a newline
and before a space. -/
theorem classic_nl_space_local (r : Str) :
    ∀ (k : Nat) (p : Str), p.length ≤ k →
      ∀ (cnt : Nat) (h : Store) (i : Nat) (td : Int),
        insideOK cnt p = true → 1 ≤ cnt → WellFormed h → depth h i = some cnt →
        resume false (some 0) { s := p ++ nl :: r, h := h, n := some i, tabDepth := td } =
          resume false (some 0) { s := p ++ ' ' :: r, h := h, n := some i, tabDepth := td } := by
  intro k
  induction k with
  | zero =>
    intro p hp cnt h i td _ hc hwf hd
    have : p = [] := List.length_eq_zero.mp (by omega)
    subst this
    exact resume_classic_nl_space (some 0) r h (some i) td (depth_pos_ne_root h hwf i cnt hd hc)
  | succ k ih =>
    intro p hp cnt h i td hok hc hwf hd
    have hne := depth_pos_ne_root h hwf i cnt hd hc
    cases p with
    | nil => exact resume_classic_nl_space (some 0) r h (some i) td hne
    | cons x p1 =>
      have hp1 : p1.length ≤ k := by simpa using hp
      have hil := depth_exists h i cnt hd
      have hi : h[i]? = some h[i] := List.getElem?_eq_getElem hil
      by_cases h1 : x = '('
      · subst h1
        have hok1 : insideOK (cnt + 1) p1 = true := by simpa [insideOK] using hok
        obtain ⟨hwf1, hd1⟩ := grow_wellFormed h i h[i] (Node.blank (some i)) cnt hwf hi hd rfl
        rw [List.cons_append, List.cons_append, resume_open, resume_open,
          MakeChild_grow h i h[i] hi]
        exact ih p1 hp1 (cnt + 1) _ h.length td hok1 (by omega) hwf1 hd1
      by_cases h2 : x = ')'
      · subst h2
        have hok1 : 2 ≤ cnt ∧ insideOK (cnt - 1) p1 = true := by
          simpa [insideOK] using hok
        obtain ⟨c1, rfl⟩ : ∃ c1, cnt = c1 + 1 := ⟨cnt - 1, by omega⟩
        obtain ⟨nd, q, hnd, hq, hdq⟩ := depth_parent h i c1 hd
        rw [List.cons_append, List.cons_append, resume_close, resume_close,
          Parent_some h i nd hnd, hq]
        exact ih p1 hp1 c1 h q td (by simpa using hok1.2) (by omega) hwf hdq
      obtain ⟨hq1, hq2, hq3, hok1⟩ := insideOK_other cnt x p1 h1 h2 hok
      by_cases h3 : x = ' '
      · subst h3
        rw [List.cons_append, List.cons_append, resume_space, resume_space]
        exact ih p1 hp1 cnt h i td hok1 hc hwf hd
      by_cases h4 : x = tab
      · subst h4
        rw [List.cons_append, List.cons_append, resume_tab, resume_tab]
        exact ih p1 hp1 cnt h i td hok1 hc hwf hd
      by_cases h5 : x = nl
      · subst h5
        rw [List.cons_append, List.cons_append, resume_nl_classic, resume_nl_classic,
          if_neg hne, if_neg hne]
        by_cases hs : skipNewlines p1 = []
        · rw [skipNewlines_append, if_pos hs, skipNewlines_append, if_pos hs]
          have e1 : skipNewlines (nl :: r) = skipNewlines r := by simp [skipNewlines]
          have e0 : ' ' ≠ nl := by decide
          have e2 : skipNewlines (' ' :: r) = ' ' :: r := by simp [skipNewlines, e0]
          rw [e1, e2, resume_space]
          exact (resume_classic_skipNewlines (some 0) r h (some i) td hne).symm
        · rw [skipNewlines_append, if_neg hs, skipNewlines_append, if_neg hs]
          exact ih (skipNewlines p1) (le_trans (skipNewlines_length_le p1) hp1) cnt h i td
            (insideOK_skipNewlines cnt p1 hok1) hc hwf hd
      · have hxd : x ∉ delims := by
          simp only [delims, List.mem_cons, List.mem_singleton, List.mem_nil_iff, or_false,
            not_or]
          exact ⟨h3, h4, h5, hq1, h1, h2⟩
        obtain ⟨t, p2, hsplit, hat, hlen, _, htail⟩ := split_atom x p1 hxd hq3 hq2
        have hok2 : insideOK cnt p2 = true := by
          rw [hsplit] at hok
          exact insideOK_bare_run cnt p2 t hat.2.1 hok
        obtain ⟨hwf1, _⟩ := grow_wellFormed h i h[i]
          { content := t, parent := some i, children := [] } cnt hwf hi hd rfl
        have hd1 := depth_extends h _
          (grow_extends h i h[i] { content := t, parent := some i, children := [] } hi)
          i cnt hd
        rw [hsplit, List.append_assoc, List.append_assoc,
          resume_atom false (some 0) t _ h (some i) td hat (htail _ (tokenEnd_nl r)),
          resume_atom false (some 0) t _ h (some i) td hat (htail _ (tokenEnd_space r)),
          AddToken_grow h i h[i] t hi]
        exact ih p2 (by omega) cnt _ i td hok2 hc hwf1 hd1

/-- Where the newline reaches the newline case of the block loop, it may be
replaced by a space.  From every state of a classic block with the cursor
anywhere but at the root (the outermost parenthesis is still open) the rest
of the parse is the same on a newline and on a space; and for every input
that starts with a classic block, when the text `p` between its opening `(`
and the newline stays inside the outermost parentheses and holds no quote
character and no semicolon (so that no token is cut by a late match), the
parse with the newline replaced by a space gives the same result. -/
theorem classic_newline_as_space (p r : Str) (hp : insideOK 1 p = true) :
    (∀ (root : Ptr) (h : Store) (n : Ptr) (td : Int) (q : Str), n ≠ root →
      resume false root { s := nl :: q, h := h, n := n, tabDepth := td } =
        resume false root { s := ' ' :: q, h := h, n := n, tabDepth := td }) ∧
    parseString ('(' :: (p ++ nl :: r)) = parseString ('(' :: (p ++ ' ' :: r)) := by
  refine ⟨fun root h n td q hn => resume_classic_nl_space root q h n td hn, ?_⟩
  apply parseString_congr
  have h0 : Root.1[0]? = some (Node.blank none) := rfl
  obtain ⟨hwf1, hd1⟩ := grow_wellFormed Root.1 0 (Node.blank none) (Node.blank (some 0)) 0
    wellFormed_root h0 wellFormed_root.2.2 rfl
  rw [topRun_block Root.2 '(' _ Root.1 (by decide) (by decide) (by decide) (by decide),
    topRun_block Root.2 '(' _ Root.1 (by decide) (by decide) (by decide) (by decide)]
  have hm : MakeChild Root.1 Root.2
      = .ret (grow Root.1 0 (Node.blank none) (Node.blank (some 0)), some Root.1.length) :=
    MakeChild_grow Root.1 0 (Node.blank none) h0
  rw [hm]
  simp only [if_true, decide_True, Bool.not_true]
  exact classic_nl_space_local r p.length p (le_refl _) 1 _ _ 0 hp (le_refl _) hwf1 hd1

/-- The newline of `(a (b`, newline, `c) d)` may be replaced by a space. -/
theorem classic_newline_as_space_witness :
    insideOK 1 "a (b".toList = true ∧
    parseString ('(' :: ("a (b".toList ++ nl :: "c) d)".toList))
      = parseString ('(' :: ("a (b".toList ++ ' ' :: "c) d)".toList)) :=
  ⟨by decide, (classic_newline_as_space "a (b".toList "c) d)".toList (by decide)).2⟩

/-! ## The depth of the cursor -/

theorem andThen_ret {α β : Type} (x : Outcome α) (f : α → Outcome β) (b : β)
    (h : x.andThen f = .ret b) : ∃ a, x = .ret a ∧ f a = .ret b := by
  cases x with
  | ret a => exact ⟨a, rfl, h⟩
  | err m => simp [Outcome.andThen] at h
  | panic => simp [Outcome.andThen] at h
  | fuel => simp [Outcome.andThen] at h

theorem cursorDepth_some (h : Store) (i : Nat) (D : Int)
    (hd : cursorDepth h (some i) = some D) : ∃ d : Nat, depth h i = some d ∧ D = d := by
  simp only [cursorDepth] at hd
  cases hx : depth h i with
  | none => rw [hx] at hd; simp at hd
  | some d => rw [hx] at hd; simp at hd; exact ⟨d, rfl, hd.symm⟩

theorem cursorDepth_of_depth (h : Store) (i d : Nat) (hd : depth h i = some d) :
    cursorDepth h (some i) = some (d : Int) := by
  simp [cursorDepth, hd]

theorem Parent_depth (h : Store) (n m : Ptr) (D : Int) (hd : cursorDepth h n = some D)
    (hr : Parent h n = .ret m) : cursorDepth h m = some (D - 1) ∧ n ≠ none := by
  cases n with
  | none => simp [Parent] at hr
  | some i =>
    obtain ⟨d, hdi, rfl⟩ := cursorDepth_some h i D hd
    refine ⟨?_, by simp⟩
    cases d with
    | zero =>
      obtain ⟨nd, hnd, hp⟩ := depth_zero h i hdi
      simp only [Parent, hnd, Outcome.ret.injEq] at hr
      rw [← hr, hp]; simp [cursorDepth]
    | succ e =>
      obtain ⟨nd, p, hnd, hp, hdp⟩ := depth_parent h i e hdi
      simp only [Parent, hnd, Outcome.ret.injEq] at hr
      rw [← hr, hp, cursorDepth_of_depth h p e hdp]
      simp

theorem MakeChild_depth (h : Store) (n : Ptr) (h1 : Store) (n1 : Ptr) (D : Int)
    (hwf : WellFormed h) (hd : cursorDepth h n = some D)
    (hr : MakeChild h n = .ret (h1, n1)) :
    WellFormed h1 ∧ cursorDepth h1 n1 = some (D + 1) ∧ n ≠ none ∧ n1 ≠ none := by
  cases n with
  | none => simp [MakeChild] at hr
  | some i =>
    obtain ⟨d, hdi, rfl⟩ := cursorDepth_some h i D hd
    cases hnd : h[i]? with
    | none => simp [MakeChild, hnd] at hr
    | some nd =>
      rw [MakeChild_grow h i nd hnd] at hr
      simp only [Outcome.ret.injEq, Prod.mk.injEq] at hr
      obtain ⟨rfl, rfl⟩ := hr
      obtain ⟨h1wf, h1d⟩ := grow_wellFormed h i nd (Node.blank (some i)) d hwf hnd hdi rfl
      refine ⟨h1wf, ?_, by simp, by simp⟩
      rw [cursorDepth_of_depth _ _ _ h1d]; simp

theorem AddToken_depth (h : Store) (n : Ptr) (t : Str) (h1 : Store) (D : Int)
    (hwf : WellFormed h) (hd : cursorDepth h n = some D)
    (hr : AddToken h n t = .ret h1) :
    WellFormed h1 ∧ cursorDepth h1 n = some D ∧ n ≠ none := by
  cases n with
  | none => simp [AddToken] at hr
  | some i =>
    obtain ⟨d, hdi, rfl⟩ := cursorDepth_some h i D hd
    cases hnd : h[i]? with
    | none => simp [AddToken, hnd] at hr
    | some nd =>
      rw [AddToken_grow h i nd t hnd] at hr
      simp only [Outcome.ret.injEq] at hr
      subst hr
      obtain ⟨h1wf, _⟩ := grow_wellFormed h i nd
        { content := t, parent := some i, children := [] } d hwf hnd hdi rfl
      refine ⟨h1wf, ?_, by simp⟩
      exact cursorDepth_of_depth _ _ _
        (depth_extends h _ (grow_extends h i nd _ hnd) i d hdi)

theorem parentTimes_depth (h : Store) :
    ∀ (k : Nat) (n m : Ptr) (D : Int), cursorDepth h n = some D →
      parentTimes k h n = .ret m → cursorDepth h m = some (D - k) := by
  intro k
  induction k with
  | zero =>
    intro n m D hd hr
    simp only [parentTimes, Outcome.ret.injEq] at hr
    rw [← hr, hd]; simp
  | succ k ih =>
    intro n m D hd hr
    simp only [parentTimes] at hr
    obtain ⟨a, ha, hr2⟩ := andThen_ret _ _ _ hr
    have := ih a m (D - 1) (Parent_depth h n a D hd ha).1 hr2
    rw [this]; congr 1; push_cast; ring

theorem makeChildTimes_depth :
    ∀ (k : Nat) (h : Store) (n : Ptr) (h1 : Store) (n1 : Ptr) (D : Int), WellFormed h →
      cursorDepth h n = some D → makeChildTimes k h n = .ret (h1, n1) →
      WellFormed h1 ∧ cursorDepth h1 n1 = some (D + k) ∧ (0 < k → n ≠ none ∧ n1 ≠ none) := by
  intro k
  induction k with
  | zero =>
    intro h n h1 n1 D hwf hd hr
    simp only [makeChildTimes, Outcome.ret.injEq, Prod.mk.injEq] at hr
    obtain ⟨rfl, rfl⟩ := hr
    exact ⟨hwf, by rw [hd]; simp, by intro h0; omega⟩
  | succ k ih =>
    intro h n h1 n1 D hwf hd hr
    simp only [makeChildTimes] at hr
    obtain ⟨a, ha, hr2⟩ := andThen_ret _ _ _ hr
    obtain ⟨awf, ad, hn, han⟩ := MakeChild_depth h n a.1 a.2 D hwf hd ha
    obtain ⟨h1wf, h1d, h1n⟩ := ih a.1 a.2 h1 n1 (D + 1) awf ad hr2
    refine ⟨h1wf, ?_, fun _ => ⟨hn, ?_⟩⟩
    · rw [h1d]; congr 1; push_cast; ring
    · rcases Nat.eq_zero_or_pos k with h0 | h0
      · subst h0
        simp only [makeChildTimes, Outcome.ret.injEq, Prod.mk.injEq] at hr2
        rw [← hr2.2]; exact han
      · exact (h1n h0).2

/-- A depth transition that returns has moved the cursor by the change of
depth it was given, and its result is a node. -/
theorem indentSrfi49_depth (delta : Int) (h : Store) (n : Ptr) (h1 : Store) (n1 : Ptr)
    (D : Int) (hwf : WellFormed h) (hd : cursorDepth h n = some D)
    (hr : indentSrfi49 delta h n = .ret (h1, n1)) :
    WellFormed h1 ∧ cursorDepth h1 n1 = some (D + delta) ∧ n ≠ none ∧ n1 ≠ none := by
  have hsib : ∀ (m : Ptr) (E : Int), cursorDepth h m = some E →
      (Parent h m).andThen (fun p => MakeChild h p) = .ret (h1, n1) →
      WellFormed h1 ∧ cursorDepth h1 n1 = some E ∧ m ≠ none ∧ n1 ≠ none := by
    intro m E hm hr2
    obtain ⟨p, hp, hr3⟩ := andThen_ret _ _ _ hr2
    obtain ⟨hpd, hmn⟩ := Parent_depth h m p E hm hp
    obtain ⟨a, b, _, c⟩ := MakeChild_depth h p h1 n1 (E - 1) hwf hpd hr3
    refine ⟨a, ?_, hmn, c⟩
    rw [b]; congr 1; ring
  unfold indentSrfi49 at hr
  split at hr
  · rename_i hneg
    obtain ⟨m, hm, hr2⟩ := andThen_ret _ _ _ hr
    have hmd := parentTimes_depth h _ n m D hd hm
    obtain ⟨a, b, c, e⟩ := hsib m _ hmd hr2
    refine ⟨a, ?_, ?_, e⟩
    · rw [b]; congr 1
      have : (delta.natAbs : Int) = -delta := by omega
      rw [this]; ring
    · intro hn
      subst hn
      have hk : 0 < delta.natAbs := by omega
      obtain ⟨k, hk2⟩ : ∃ k, delta.natAbs = k + 1 := ⟨delta.natAbs - 1, by omega⟩
      rw [hk2] at hm
      simp [parentTimes, Parent, Outcome.andThen] at hm
  · split at hr
    · rename_i h0
      obtain ⟨a, b, c, e⟩ := hsib n D hd hr
      exact ⟨a, by rw [b, h0]; simp, c, e⟩
    · split at hr
      · rename_i hpos
        obtain ⟨a, b, c⟩ := makeChildTimes_depth _ h n h1 n1 D hwf hd hr
        have hk : 0 < delta.toNat := by omega
        refine ⟨a, ?_, (c hk).1, (c hk).2⟩
        rw [b]; congr 1
        have : (delta.toNat : Int) = delta := by omega
        rw [this]
      · simp at hr

/-- What a round of the block loop that goes on has done, by the character
it stood at: a node made, the parent taken, a depth transition, nothing but
input skipped, or a token added. -/
theorem blockStep_next_cases (isens : Bool) (root : Ptr) (st st1 : Scan) (x : Char)
    (r : Str) (hs : st.s = x :: r) (h : blockStep isens root st = .next st1) :
    (x = '(' ∧ MakeChild st.h st.n = .ret (st1.h, st1.n) ∧ st1.tabDepth = st.tabDepth) ∨
    (x = ')' ∧ Parent st.h st.n = .ret st1.n ∧ st1.h = st.h ∧
      st1.tabDepth = st.tabDepth) ∨
    (x = nl ∧ isens = true ∧ ∃ newDepth : Nat,
      indentSrfi49 ((newDepth : Int) - st.tabDepth) st.h st.n = .ret (st1.h, st1.n) ∧
      st1.tabDepth = newDepth) ∨
    (x ≠ '(' ∧ x ≠ ')' ∧ st1.h = st.h ∧ st1.n = st.n ∧ st1.tabDepth = st.tabDepth) ∨
    (x ≠ '(' ∧ x ≠ ')' ∧ (∃ tok, AddToken st.h st.n tok = .ret st1.h) ∧ st1.n = st.n ∧
      st1.tabDepth = st.tabDepth) := by
  obtain ⟨s, hp, n, td⟩ := st
  simp only at hs
  subst hs
  simp only [blockStep] at h
  split at h
  · rename_i hx
    left
    cases hm : MakeChild hp n with
    | ret m =>
      rw [hm] at h
      simp at h
      rw [← h]
      exact ⟨hx, rfl, rfl⟩
    | err e => rw [hm] at h; simp at h
    | panic => rw [hm] at h; simp at h
    | fuel => rw [hm] at h; simp at h
  · rename_i hx1
    split at h
    · rename_i hx
      right; left
      cases hm : Parent hp n with
      | ret m =>
        rw [hm] at h
        simp at h
        rw [← h]
        exact ⟨hx, rfl, rfl, rfl⟩
      | err e => rw [hm] at h; simp at h
      | panic => rw [hm] at h; simp at h
      | fuel => rw [hm] at h; simp at h
    · rename_i hx2
      split at h
      · simp at h
        rw [← h]
        exact Or.inr (Or.inr (Or.inr (Or.inl ⟨hx1, hx2, rfl, rfl, rfl⟩)))
      · split at h
        · rename_i hx4
          split at h
          · split at h
            · simp at h
            · simp at h
              rw [← h]
              exact Or.inr (Or.inr (Or.inr (Or.inl ⟨hx1, hx2, rfl, rfl, rfl⟩)))
          · rename_i hsens
            split at h
            · simp at h
            · cases hm : indentSrfi49
                  (((countTabs 0 (skipNewlines (x :: r))).1 : Int) - td) hp n with
              | ret m =>
                rw [hm] at h
                simp at h
                rw [← h]
                refine Or.inr (Or.inr (Or.inl ⟨hx4, ?_, _, hm, rfl⟩))
                cases isens <;> simp at hsens ⊢
              | err e => rw [hm] at h; simp at h
              | panic => rw [hm] at h; simp at h
              | fuel => rw [hm] at h; simp at h
        · split at h
          · split at h
            · simp at h
              rw [← h]
              exact Or.inr (Or.inr (Or.inr (Or.inl ⟨hx1, hx2, rfl, rfl, rfl⟩)))
            · simp at h
          · split at h
            · split at h
              · simp at h
              · split at h
                · rename_i tok s1 _ _
                  cases hm : AddToken hp n tok with
                  | ret m =>
                    rw [hm] at h
                    simp at h
                    rw [← h]
                    exact Or.inr (Or.inr (Or.inr (Or.inr ⟨hx1, hx2, ⟨tok, hm⟩, rfl, rfl⟩)))
                  | err e => rw [hm] at h; simp at h
                  | panic => rw [hm] at h; simp at h
                  | fuel => rw [hm] at h; simp at h
                · simp at h
            · simp at h

/-- The node operations keep the store one tree under the root. -/
theorem wellFormed_kept : Kept (fun h (_ : Ptr) => WellFormed h) := by
  refine ⟨?_, ?_, ?_⟩
  · intro h n h1 n1 hw hm
    cases n with
    | none => simp [MakeChild] at hm
    | some i =>
      cases hnd : h[i]? with
      | none => simp [MakeChild, hnd] at hm
      | some nd =>
        have hi : i < h.length := (List.getElem?_eq_some_iff.mp hnd).1
        obtain ⟨d, hd⟩ := hw.1 i hi
        exact (MakeChild_depth h (some i) h1 n1 d hw (cursorDepth_of_depth h i d hd) hm).1
  · intro h n n1 hw _
    exact hw
  · intro h n t h1 hw hm
    cases n with
    | none => simp [AddToken] at hm
    | some i =>
      cases hnd : h[i]? with
      | none => simp [AddToken, hnd] at hm
      | some nd =>
        have hi : i < h.length := (List.getElem?_eq_some_iff.mp hnd).1
        obtain ⟨d, hd⟩ := hw.1 i hi
        exact (AddToken_depth h (some i) t h1 d hw (cursorDepth_of_depth h i d hd) hm).1

/-- The depth of the cursor through a block: at every state of the block
loop met in a parse the store is one tree under the root, `tabDepth` is not
negative, and the depth of the cursor below the root (`-1` for the nil
cursor) is `1 + tabDepth + o - c` for the `o` characters `(` and `c`
characters `)` the block has read. -/
theorem inBlock_depth (s : Str) (h : Store) (isens : Bool) (st : Scan) (o c : Nat)
    (hb : InBlock (some 0) s h isens st o c) : WellFormed h →
    WellFormed st.h ∧ 0 ≤ st.tabDepth ∧
      cursorDepth st.h st.n = some (1 + st.tabDepth + (o : Int) - (c : Int)) := by
  induction hb with
  | start x r h h1 n h1' h2 h3 h4 hm =>
    intro hwf
    have hd0 : cursorDepth h (some 0) = some 0 := cursorDepth_of_depth h 0 0 hwf.2.2
    obtain ⟨a, b, _, _⟩ := MakeChild_depth h (some 0) h1 n 0 hwf hd0 hm
    exact ⟨a, le_refl _, by rw [b]; simp⟩
  | step s h isens st o c x r st1 _ hs hstep ih =>
    intro hwf
    obtain ⟨swf, std, sd⟩ := ih hwf
    rcases blockStep_next_cases isens (some 0) st st1 x r hs hstep with
      ⟨hx, hm, ht⟩ | ⟨hx, hm, hh, ht⟩ | ⟨hx, _, nd, hm, ht⟩ | ⟨hx1, hx2, hh, hn, ht⟩ |
      ⟨hx1, hx2, ⟨tok, hm⟩, hn, ht⟩
    · obtain ⟨a, b, _, _⟩ := MakeChild_depth _ _ _ _ _ swf sd hm
      have hx2 : x ≠ ')' := by rw [hx]; decide
      refine ⟨a, by rw [ht]; exact std, ?_⟩
      rw [b, ht, if_pos hx, if_neg hx2]; congr 1; push_cast; ring
    · obtain ⟨b, _⟩ := Parent_depth _ _ _ _ sd hm
      have hx1 : x ≠ '(' := by rw [hx]; decide
      refine ⟨by rw [hh]; exact swf, by rw [ht]; exact std, ?_⟩
      rw [hh, b, ht, if_pos hx, if_neg hx1]; congr 1; push_cast; ring
    · obtain ⟨a, b, _, _⟩ := indentSrfi49_depth _ _ _ _ _ _ swf sd hm
      have hx1 : x ≠ '(' := by rw [hx]; decide
      have hx2 : x ≠ ')' := by rw [hx]; decide
      refine ⟨a, by rw [ht]; exact Int.natCast_nonneg nd, ?_⟩
      rw [b, ht, if_neg hx1, if_neg hx2]; congr 1; ring
    · refine ⟨by rw [hh]; exact swf, by rw [ht]; exact std, ?_⟩
      rw [hh, hn, ht, if_neg hx1, if_neg hx2]; exact sd
    · obtain ⟨a, b, _⟩ := AddToken_depth _ _ _ _ _ swf sd hm
      refine ⟨a, by rw [ht]; exact std, ?_⟩
      rw [hn, ht, if_neg hx1, if_neg hx2]; exact b
  | later s h s1 h1 isens st o c hstep _ ih =>
    intro hwf
    apply ih
    obtain ⟨_, hh⟩ := topStep_kept _ wellFormed_kept (some 0) (fun _ _ hw => hw) s h none hwf s1 h1 hstep
    exact hh

/-- A depth transition from a node at depth `d` returns a node whenever the
depth it aims at, `d + delta`, is at least one; when it climbs, the ancestors
it asks for are there. -/
theorem indentSrfi49_succeeds (delta : Int) (h : Store) (i d : Nat)
    (hd : depth h i = some d) (hle : 1 ≤ (d : Int) + delta) :
    (∃ h1 r, indentSrfi49 delta h (some i) = .ret (h1, some r)) ∧
    (delta ≤ 0 → ∃ q, ancestor h (delta.natAbs + 1) i = some q) := by
  by_cases hpos : 0 < delta
  · refine ⟨?_, fun h0 => by omega⟩
    have hi := depth_exists h i d hd
    obtain ⟨k, hk⟩ : ∃ k, delta.toNat = k + 1 := ⟨delta.toNat - 1, by omega⟩
    obtain ⟨h1, hm, _⟩ := makeChildTimes_chain k h i d h[i]
      (List.getElem?_eq_getElem hi) hd
    refine ⟨h1, h.length + k, ?_⟩
    unfold indentSrfi49
    rw [if_neg (by omega), if_neg (by omega), if_pos hpos, hk]
    exact hm
  · have hk : delta.natAbs + 1 ≤ d := by omega
    obtain ⟨q, hq, ha, hdq⟩ := parentTimes_climb h (delta.natAbs + 1) i d hd hk
    refine ⟨?_, fun _ => ⟨q, ha⟩⟩
    have hql := depth_exists h q _ hdq
    have hmk := MakeChild_grow h q h[q] (List.getElem?_eq_getElem hql)
    rw [parentTimes_succ] at hq
    refine ⟨grow h q h[q] (Node.blank (some q)), h.length, ?_⟩
    unfold indentSrfi49
    by_cases hneg : delta < 0
    · rw [if_pos hneg]
      cases hp : parentTimes delta.natAbs h (some i) with
      | ret m =>
        rw [hp] at hq
        simp only [Outcome.andThen] at hq ⊢
        rw [hq]
        exact hmk
      | err e => rw [hp] at hq; simp [Outcome.andThen] at hq
      | panic => rw [hp] at hq; simp [Outcome.andThen] at hq
      | fuel => rw [hp] at hq; simp [Outcome.andThen] at hq
    · have h0 : delta = 0 := by omega
      subst h0
      simp only [Int.natAbs_zero, parentTimes, Outcome.andThen] at hq
      rw [if_neg hneg, if_pos rfl, hq]
      exact hmk

/-- Claim C19: in an indentation-sensitive block, at every state of the
block loop met in a parse whose cursor is a node (it has not been moved
above the root), the depth of the cursor below the tree root is
`1 + tabDepth + o - c`, where `o` and `c` count the `(` and the `)` the
block has read.  Consequently, as long as the block has read no
parenthesis, the cursor is a node and a depth transition to any new tab
depth returns a node, at depth `1 + newDepth`; when it climbs, the
ancestors it asks for exist; and the newline round of the loop goes on or
ends the block, it does not panic. -/
theorem isens_block_cursor_depth (s : Str) (st : Scan) (o c : Nat)
    (hb : InBlock Root.2 s Root.1 true st o c) :
    (∀ i, st.n = some i → ∃ d : Nat, depth st.h i = some d ∧
      (d : Int) = 1 + st.tabDepth + (o : Int) - (c : Int)) ∧
    (o = 0 → c = 0 → ∃ i, st.n = some i ∧ ∀ newDepth : Nat,
      (∃ h1 r, indentSrfi49 ((newDepth : Int) - st.tabDepth) st.h st.n = .ret (h1, some r) ∧
        depth h1 r = some (1 + newDepth)) ∧
      ((newDepth : Int) ≤ st.tabDepth →
        ∃ q, ancestor st.h (((newDepth : Int) - st.tabDepth).natAbs + 1) i = some q)) ∧
    (o = 0 → c = 0 → ∀ r, st.s = nl :: r →
      ∃ st1, blockStep true Root.2 st = .next st1 ∨ blockStep true Root.2 st = .brk st1) := by
  obtain ⟨hwf, htd, hcd⟩ := inBlock_depth s Root.1 true st o c hb wellFormed_root
  have hfirst : ∀ i, st.n = some i → ∃ d : Nat, depth st.h i = some d ∧
      (d : Int) = 1 + st.tabDepth + (o : Int) - (c : Int) := by
    intro i hi
    rw [hi] at hcd
    obtain ⟨d, hd, he⟩ := cursorDepth_some _ _ _ hcd
    exact ⟨d, hd, he.symm⟩
  have hsecond : o = 0 → c = 0 → ∃ i, st.n = some i ∧ ∀ newDepth : Nat,
      (∃ h1 r, indentSrfi49 ((newDepth : Int) - st.tabDepth) st.h st.n = .ret (h1, some r) ∧
        depth h1 r = some (1 + newDepth)) ∧
      ((newDepth : Int) ≤ st.tabDepth →
        ∃ q, ancestor st.h (((newDepth : Int) - st.tabDepth).natAbs + 1) i = some q) := by
    intro ho hc
    subst ho; subst hc
    cases hn : st.n with
    | none =>
      rw [hn] at hcd
      simp only [cursorDepth, Option.some.injEq] at hcd
      omega
    | some i =>
      refine ⟨i, rfl, fun newDepth => ?_⟩
      obtain ⟨d, hd, he⟩ := hfirst i hn
      obtain ⟨⟨h1, r, hr⟩, hanc⟩ := indentSrfi49_succeeds ((newDepth : Int) - st.tabDepth)
        st.h i d hd (by omega)
      refine ⟨⟨h1, r, hr, ?_⟩, fun hle => hanc (by omega)⟩
      obtain ⟨_, hd1, _, _⟩ := indentSrfi49_depth _ _ _ _ _ _ hwf
        (cursorDepth_of_depth _ _ _ hd) hr
      obtain ⟨d1, hd1, he1⟩ := cursorDepth_some _ _ _ hd1
      rw [hd1]; congr 1; omega
  refine ⟨hfirst, hsecond, ?_⟩
  intro ho hc r hs
  obtain ⟨i, hn, htr⟩ := hsecond ho hc
  obtain ⟨s0, h0, n0, td0⟩ := st
  simp only at hs hn htr
  subst hs
  rw [blockStep_nl_isens]
  split
  · exact ⟨_, Or.inr rfl⟩
  · obtain ⟨⟨h1, r1, hr, _⟩, _⟩ := htr (countTabs 0 (skipNewlines r)).1
    rw [hr]
    exact ⟨_, Or.inl rfl⟩

/-- Claim C15 (amended): as long as a block has read no more `)` than `(`,
the cursor is a node other than the tree root, so a `)` does not ask for the
parent of the root: its round goes on with a node as cursor; and a depth
transition to any new tab depth returns a node. -/
theorem cursor_below_root_while_balanced (s : Str) (isens : Bool) (st : Scan) (o c : Nat)
    (hb : InBlock Root.2 s Root.1 isens st o c) (hbal : c ≤ o) :
    (∃ i, st.n = some i ∧ i ≠ 0) ∧
    (∀ r, st.s = ')' :: r →
      ∃ st1 j, blockStep isens Root.2 st = .next st1 ∧ st1.n = some j) ∧
    (∀ newDepth : Nat, ∃ h1 j,
      indentSrfi49 ((newDepth : Int) - st.tabDepth) st.h st.n = .ret (h1, some j)) := by
  obtain ⟨hwf, htd, hcd⟩ := inBlock_depth s Root.1 isens st o c hb wellFormed_root
  cases hn : st.n with
  | none =>
    rw [hn] at hcd
    simp only [cursorDepth, Option.some.injEq] at hcd
    omega
  | some i =>
    rw [hn] at hcd
    obtain ⟨d, hd, he⟩ := cursorDepth_some _ _ _ hcd
    have hdpos : 1 ≤ d := by omega
    refine ⟨⟨i, rfl, ?_⟩, ?_, ?_⟩
    · intro h0
      subst h0
      rw [hwf.2.2] at hd
      simp only [Option.some.injEq] at hd
      omega
    · intro r hs
      obtain ⟨e, rfl⟩ : ∃ e, d = e + 1 := ⟨d - 1, by omega⟩
      obtain ⟨nd, p, hnd, hp, _⟩ := depth_parent st.h i e hd
      obtain ⟨s0, h0, n0, td0⟩ := st
      simp only at hs hn hnd
      subst hs; subst hn
      rw [blockStep_close]
      simp only [Parent, hnd, hp]
      exact ⟨_, p, rfl, rfl⟩
    · intro newDepth
      exact (indentSrfi49_succeeds _ st.h i d hd (by omega)).1

/-- Claim C15, as stated, fails on the input of two closing parentheses: the
block loop reaches its second round with the cursor at the tree root, that
round asks for the parent of the root and goes on with the nil cursor, and
the parse returns. -/
theorem unbalanced_close_asks_parent_of_root :
    InBlock Root.2 "))".toList Root.1 true
      { s := [')'],
        h := [{ content := [], parent := none, children := [1] },
              { content := [], parent := some 0, children := [] }],
        n := Root.2, tabDepth := 0 } 0 1 ∧
    blockStep true Root.2
      { s := [')'],
        h := [{ content := [], parent := none, children := [1] },
              { content := [], parent := some 0, children := [] }],
        n := Root.2, tabDepth := 0 } =
      .next { s := [],
              h := [{ content := [], parent := none, children := [1] },
                    { content := [], parent := some 0, children := [] }],
              n := none, tabDepth := 0 } ∧
    parseString "))".toList =
      .ret ([{ content := [], parent := none, children := [1] },
             { content := [], parent := some 0, children := [] }], none) := by
  refine ⟨?_, by decide, by decide⟩
  have h0 := @InBlock.start Root.2 ')' [')'] Root.1
    [{ content := [], parent := none, children := [1] },
     { content := [], parent := some 0, children := [] }] (some 1)
    (by decide) (by decide) (by decide) (by decide) (by decide)
  exact InBlock.step _ _ _ _ _ _ ')' [')']
    { s := [')'],
      h := [{ content := [], parent := none, children := [1] },
            { content := [], parent := some 0, children := [] }],
      n := Root.2, tabDepth := 0 } h0 rfl (by decide)

theorem cursor_below_root_while_balanced_witness :
    0 ≤ 1 ∧
    ((∃ i, (some 2 : Ptr) = some i ∧ i ≠ 0) ∧
     (∀ r, [')'] = ')' :: r →
       ∃ st1 j, blockStep false Root.2
         { s := [')'],
           h := [{ content := [], parent := none, children := [1] },
                 { content := [], parent := some 0, children := [2] },
                 { content := [], parent := some 1, children := [] }],
           n := some 2, tabDepth := 0 } = .next st1 ∧ st1.n = some j) ∧
     (∀ newDepth : Nat, ∃ h1 j,
       indentSrfi49 ((newDepth : Int) - 0)
         [{ content := [], parent := none, children := [1] },
          { content := [], parent := some 0, children := [2] },
          { content := [], parent := some 1, children := [] }] (some 2) = .ret (h1, some j))) :=
  ⟨by decide,
    cursor_below_root_while_balanced "(()".toList false
      { s := [')'],
        h := [{ content := [], parent := none, children := [1] },
              { content := [], parent := some 0, children := [2] },
              { content := [], parent := some 1, children := [] }],
        n := some 2, tabDepth := 0 } 1 0
      (InBlock.step _ _ _ _ _ _ '(' [')'] _
        (@InBlock.start Root.2 '(' ['(', ')'] Root.1
          [{ content := [], parent := none, children := [1] },
           { content := [], parent := some 0, children := [] }] (some 1)
          (by decide) (by decide) (by decide) (by decide) (by decide))
        rfl (by decide))
      (by decide)⟩

theorem isens_block_cursor_depth_witness :
    InBlock Root.2 ['a', nl, tab, 'b'] Root.1 true
      { s := ['b'],
        h := [{ content := [], parent := none, children := [1] },
              { content := [], parent := some 0, children := [2, 3] },
              { content := ['a'], parent := some 1, children := [] },
              { content := [], parent := some 1, children := [] }],
        n := some 3, tabDepth := 1 } 0 0 ∧
    (∀ i, (some 3 : Ptr) = some i → ∃ d : Nat,
      depth [{ content := [], parent := none, children := [1] },
             { content := [], parent := some 0, children := [2, 3] },
             { content := ['a'], parent := some 1, children := [] },
             { content := [], parent := some 1, children := [] }] i = some d ∧
      (d : Int) = 1 + 1 + ((0 : Nat) : Int) - ((0 : Nat) : Int)) :=
  have hb : InBlock Root.2 ['a', nl, tab, 'b'] Root.1 true
      { s := ['b'],
        h := [{ content := [], parent := none, children := [1] },
              { content := [], parent := some 0, children := [2, 3] },
              { content := ['a'], parent := some 1, children := [] },
              { content := [], parent := some 1, children := [] }],
        n := some 3, tabDepth := 1 } 0 0 :=
    InBlock.step _ _ _ _ _ _ nl [tab, 'b'] _
      (InBlock.step _ _ _ _ _ _ 'a' [nl, tab, 'b']
        { s := [nl, tab, 'b'],
          h := [{ content := [], parent := none, children := [1] },
                { content := [], parent := some 0, children := [2] },
                { content := ['a'], parent := some 1, children := [] }],
          n := some 1, tabDepth := 0 }
        (@InBlock.start Root.2 'a' [nl, tab, 'b'] Root.1
          [{ content := [], parent := none, children := [1] },
           { content := [], parent := some 0, children := [] }] (some 1)
          (by decide) (by decide) (by decide) (by decide) (by decide))
        rfl (by decide))
      rfl (by decide)
  ⟨hb, (isens_block_cursor_depth _ _ 0 0 hb).1⟩

/-! ## The rightmost path and the depth-first order -/

theorem grow_at (h : Store) (q : Nat) (ndq new : Node) (hq : h[q]? = some ndq) :
    (grow h q ndq new)[q]? = some { ndq with children := ndq.children ++ [h.length] } := by
  have hql : q < h.length := (List.getElem?_eq_some_iff.mp hq).1
  unfold grow
  rw [List.getElem?_append_left (by simpa using hql)]
  simp [List.getElem?_set, hql]

theorem grow_other (h : Store) (q : Nat) (ndq new : Node) (j : Nat) (hj : j ≠ q)
    (hjl : j < h.length) : (grow h q ndq new)[j]? = h[j]? := by
  unfold grow
  rw [List.getElem?_append_left (by simpa using hjl)]
  simp [List.getElem?_set, Ne.symm hj]

theorem flatMap_eq_of_forall {α β : Type} (f g : α → List β) :
    ∀ l : List α, (∀ a ∈ l, f a = g a) → l.flatMap f = l.flatMap g := by
  intro l
  induction l with
  | nil => intro _; rfl
  | cons a l ih =>
    intro hl
    rw [List.flatMap_cons, List.flatMap_cons, hl a (List.mem_cons_self a l),
      ih (fun b hb => hl b (List.mem_cons_of_mem a hb))]

theorem dfs_succ (h : Store) (f i : Nat) (nd : Node) (hi : h[i]? = some nd) :
    dfs h (f + 1) i = i :: nd.children.flatMap (dfs h f) := by
  simp only [dfs, hi]

theorem dfs_none (h : Store) (f i : Nat) (hi : h.length ≤ i) : dfs h f i = [] := by
  cases f with
  | zero => rfl
  | succ f => simp only [dfs, List.getElem?_eq_none hi]

/-- In a tidy store the depth-first reading below node `i` lists nodes from
`i` on. -/
theorem dfs_ge (h : Store) (ht : Tidy h) :
    ∀ (f i x : Nat), x ∈ dfs h f i → i ≤ x := by
  intro f
  induction f with
  | zero => intro i x hx; simp [dfs] at hx
  | succ f ih =>
    intro i x hx
    cases hi : h[i]? with
    | none => simp [dfs, hi] at hx
    | some nd =>
      rw [dfs_succ h f i nd hi] at hx
      rcases List.mem_cons.mp hx with hx | hx
      · omega
      · obtain ⟨c, hc, hxc⟩ := List.mem_flatMap.mp hx
        have := ih c x hxc
        have := ((ht.2 i nd hi).2 c hc).1
        omega

/-- In a tidy store a budget of levels that reaches the end of the store is
enough. -/
theorem dfs_fuel (h : Store) (ht : Tidy h) :
    ∀ (f g i : Nat), h.length ≤ f + i → h.length ≤ g + i → dfs h f i = dfs h g i := by
  intro f
  induction f with
  | zero =>
    intro g i hf _
    rw [dfs_none h 0 i (by omega), dfs_none h g i (by omega)]
  | succ f ih =>
    intro g i hf hg
    cases g with
    | zero => rw [dfs_none h 0 i (by omega), dfs_none h (f + 1) i (by omega)]
    | succ g =>
      cases hi : h[i]? with
      | none => simp only [dfs, hi]
      | some nd =>
        rw [dfs_succ h f i nd hi, dfs_succ h g i nd hi]
        congr 1
        apply flatMap_eq_of_forall
        intro c hc
        have := ((ht.2 i nd hi).2 c hc).1
        exact ih g c (by omega) (by omega)

/-- Adding a child to node `q` does not change the reading below a node that
does not reach `q`. -/
theorem dfs_untouched (h : Store) (q : Nat) (ndq new : Node) (ht : Tidy h) :
    ∀ (f i : Nat), i < h.length → q ∉ dfs h f i →
      dfs (grow h q ndq new) f i = dfs h f i := by
  intro f
  induction f with
  | zero => intro i _ _; rfl
  | succ f ih =>
    intro i hil hq
    obtain ⟨nd, hi⟩ : ∃ nd, h[i]? = some nd := ⟨h[i], List.getElem?_eq_getElem hil⟩
    rw [dfs_succ h f i _ hi] at hq ⊢
    have hiq : i ≠ q := by
      intro e
      apply hq
      rw [e]
      exact List.mem_cons_self _ _
    have hi2 : (grow h q ndq new)[i]? = some nd := by
      rw [grow_other h q ndq new i hiq hil]; exact hi
    rw [dfs_succ _ f i _ hi2]
    congr 1
    apply flatMap_eq_of_forall
    intro c hc
    apply ih c ((ht.2 i _ hi).2 c hc).2
    intro hqc
    exact hq (List.mem_cons_of_mem _ (List.mem_flatMap.mpr ⟨c, hc, hqc⟩))

theorem chain_le (h : Store) (ht : Tidy h) (i q : Nat) (hc : Chain h i q) : i ≤ q := by
  induction hc with
  | here i => exact le_refl _
  | down p nd c q hp hl _ ih =>
    have := ((ht.2 p nd hp).2 c (List.mem_of_getLast?_eq_some hl)).1
    omega


/-- Adding a last child to node `q` appends the new node to the depth-first
reading below every node from which the chain of last children leads to
`q`. -/
theorem dfs_chain (h : Store) (q : Nat) (ndq new : Node) (ht : Tidy h)
    (hq : h[q]? = some ndq) (hnew : new.children = []) (i : Nat) (hc : Chain h i q) :
    ∀ f, h.length + 1 ≤ f + i → (dfs h f i).Pairwise (fun a b => a < b) →
      dfs (grow h q ndq new) f i = dfs h f i ++ [h.length] := by
  have hql : q < h.length := (List.getElem?_eq_some_iff.mp hq).1
  induction hc with
  | here i =>
    intro f hf _
    obtain ⟨f1, rfl⟩ : ∃ f1, f = f1 + 1 := ⟨f - 1, by omega⟩
    obtain ⟨f2, rfl⟩ : ∃ f2, f1 = f2 + 1 := ⟨f1 - 1, by omega⟩
    rw [dfs_succ _ _ i _ (grow_at h i ndq new hq), dfs_succ h _ i ndq hq]
    simp only [List.flatMap_append, List.flatMap_cons, List.flatMap_nil, List.append_nil,
      List.cons_append]
    rw [dfs_succ _ f2 h.length new (grow_new h i ndq new), hnew]
    simp only [List.flatMap_nil]
    congr 2
    apply flatMap_eq_of_forall
    intro c hcm
    have hcb := (ht.2 i ndq hq).2 c hcm
    apply dfs_untouched h i ndq new ht _ c hcb.2
    intro hmem
    have := dfs_ge h ht _ c i hmem
    omega
  | down p nd c q hp hl hcq ih =>
    intro f hf hsorted
    have hcle := chain_le h ht c q hcq
    have hcb := (ht.2 p nd hp).2 c (List.mem_of_getLast?_eq_some hl)
    have hpq : p ≠ q := by omega
    obtain ⟨f1, rfl⟩ : ∃ f1, f = f1 + 1 := ⟨f - 1, by omega⟩
    obtain ⟨f2, hf2⟩ : ∃ f2, f1 = f2 + 1 := ⟨f1 - 1, by omega⟩
    have hp2 : (grow h q ndq new)[p]? = some nd := by
      rw [grow_other h q ndq new p hpq (by omega)]; exact hp
    obtain ⟨ys, hys⟩ := List.getLast?_eq_some_iff.mp hl
    rw [dfs_succ _ _ p _ hp2, dfs_succ h _ p nd hp] at *
    rw [hys] at hsorted ⊢
    simp only [List.flatMap_append, List.flatMap_cons, List.flatMap_nil, List.append_nil,
      List.cons_append] at hsorted ⊢
    obtain ⟨ndc, hndc⟩ : ∃ ndc, h[c]? = some ndc := ⟨h[c], List.getElem?_eq_getElem hcb.2⟩
    have hcfirst : c ∈ dfs h f1 c := by
      rw [hf2, dfs_succ h f2 c ndc hndc]; exact List.mem_cons_self _ _
    have hs2 := (List.pairwise_cons.mp hsorted).2
    rw [List.pairwise_append] at hs2
    rw [ih hq hql f1 (by omega) hs2.2.1, List.append_assoc]
    congr 2
    apply flatMap_eq_of_forall
    intro a ha
    have hab := (ht.2 p nd hp).2 a (by rw [hys]; exact List.mem_append_left _ ha)
    apply dfs_untouched h q ndq new ht _ a hab.2
    intro hmem
    have := hs2.2.2 q (List.mem_flatMap.mpr ⟨a, ha, hmem⟩) c hcfirst
    omega

theorem chain_grow (h : Store) (q : Nat) (ndq new : Node) (ht : Tidy h)
    (hq : h[q]? = some ndq) (i : Nat) (hc : Chain h i q) :
    Chain (grow h q ndq new) i q ∧ Chain (grow h q ndq new) i h.length := by
  have hql : q < h.length := (List.getElem?_eq_some_iff.mp hq).1
  induction hc with
  | here i =>
    refine ⟨Chain.here i, ?_⟩
    exact Chain.down i _ h.length h.length (grow_at h i ndq new hq)
      (by simp) (Chain.here _)
  | down p nd c q hp hl hcq ih =>
    have hcle := chain_le h ht c q hcq
    have hcb := (ht.2 p nd hp).2 c (List.mem_of_getLast?_eq_some hl)
    have hp2 : (grow h q ndq new)[p]? = some nd := by
      rw [grow_other h q ndq new p (by omega) (by omega)]; exact hp
    obtain ⟨a, b⟩ := ih hq hql
    exact ⟨Chain.down p nd c q hp2 hl a, Chain.down p nd c _ hp2 hl b⟩

/-- The node before the last of a chain of last children. -/
theorem chain_last (h : Store) (i q : Nat) (hc : Chain h i q) (hne : i ≠ q) :
    ∃ p nd, Chain h i p ∧ h[p]? = some nd ∧ nd.children.getLast? = some q := by
  induction hc with
  | here i => exact absurd rfl hne
  | down p nd c q hp hl hcq ih =>
    by_cases hcq2 : c = q
    · subst hcq2
      exact ⟨p, nd, Chain.here p, hp, hl⟩
    · obtain ⟨p1, nd1, a, b, e⟩ := ih hcq2
      exact ⟨p1, nd1, Chain.down p nd c p1 hp hl a, b, e⟩

theorem parentOf_grow (h : Store) (q : Nat) (ndq new : Node) (hq : h[q]? = some ndq)
    (j : Nat) (hj : j < h.length) : parentOf (grow h q ndq new) j = parentOf h j := by
  obtain ⟨nd, hnd⟩ : ∃ nd, h[j]? = some nd := ⟨h[j], List.getElem?_eq_getElem hj⟩
  obtain ⟨nd1, h1, h2⟩ := (grow_extends h q ndq new hq).2 j nd hnd
  simp only [parentOf, h1, hnd, h2]

/-- Adding a last child to a node of the rightmost path keeps the store
ordered; the node and its new child are on the rightmost path. -/
theorem grow_ordered (h : Store) (q : Nat) (ndq new : Node) (ho : Ordered h)
    (hc : RightPath h q) (hq : h[q]? = some ndq) (hpar : new.parent = some q)
    (hnew : new.children = []) :
    Ordered (grow h q ndq new) ∧ RightPath (grow h q ndq new) q ∧
      RightPath (grow h q ndq new) h.length := by
  obtain ⟨ht, h0, hpo, hdfs⟩ := ho
  have hql : q < h.length := (List.getElem?_eq_some_iff.mp hq).1
  obtain ⟨c1, c2⟩ := chain_grow h q ndq new ht hq 0 hc
  refine ⟨⟨grow_tidy h q ndq new ht hq hnew, ?_, ?_, ?_⟩, c1, c2⟩
  · rw [parentOf_grow h q ndq new hq 0 ht.1]; exact h0
  · intro p nd c hp hcm
    have hpl := (List.getElem?_eq_some_iff.mp hp).1
    rw [grow_length] at hpl
    by_cases hpk : p = h.length
    · subst hpk
      rw [grow_new] at hp
      simp only [Option.some.injEq] at hp
      subst hp
      rw [hnew] at hcm
      simp at hcm
    · have hpl2 : p < h.length := by omega
      by_cases hpq : p = q
      · subst hpq
        rw [grow_at h p ndq new hq] at hp
        simp only [Option.some.injEq] at hp
        subst hp
        simp only [List.mem_append, List.mem_singleton] at hcm
        rcases hcm with hcm | hcm
        · rw [parentOf_grow h p ndq new hq c ((ht.2 p ndq hq).2 c hcm).2]
          exact hpo p ndq c hq hcm
        · subst hcm
          simp only [parentOf, grow_new, hpar]
      · rw [grow_other h q ndq new p hpq hpl2] at hp
        rw [parentOf_grow h q ndq new hq c ((ht.2 p nd hp).2 c hcm).2]
        exact hpo p nd c hp hcm
  · rw [grow_length]
    have hs : (dfs h (h.length + 1) 0).Pairwise (fun a b => a < b) := by
      rw [dfs_fuel h ht (h.length + 1) h.length 0 (by omega) (by omega), hdfs]
      exact List.pairwise_lt_range _
    rw [dfs_chain h q ndq new ht hq hnew 0 hc (h.length + 1) (by omega) hs,
      dfs_fuel h ht (h.length + 1) h.length 0 (by omega) (by omega), hdfs, List.range_succ]

/-- The node operations keep the store ordered and the cursor, when it is a
node, on the rightmost path. -/
theorem ordered_kept : Kept (fun h n => Ordered h ∧ ∀ i, n = some i → RightPath h i) := by
  refine ⟨?_, ?_, ?_⟩
  · intro h n h1 n1 hI hm
    cases n with
    | none => simp [MakeChild] at hm
    | some q =>
      cases hq : h[q]? with
      | none => simp [MakeChild, hq] at hm
      | some ndq =>
        rw [MakeChild_grow h q ndq hq] at hm
        simp only [Outcome.ret.injEq, Prod.mk.injEq] at hm
        obtain ⟨rfl, rfl⟩ := hm
        obtain ⟨a, _, b⟩ := grow_ordered h q ndq (Node.blank (some q)) hI.1 (hI.2 q rfl) hq
          rfl rfl
        refine ⟨a, ?_⟩
        intro i hi
        simp only [Option.some.injEq] at hi
        rw [← hi]; exact b
  · intro h n n1 hI hm
    refine ⟨hI.1, ?_⟩
    intro p hp
    cases n with
    | none => simp [Parent] at hm
    | some q =>
      cases hq : h[q]? with
      | none => simp [Parent, hq] at hm
      | some ndq =>
        simp only [Parent, hq, Outcome.ret.injEq] at hm
        have hc := hI.2 q rfl
        by_cases hq0 : 0 = q
        · subst hq0
          have := hI.1.2.1
          simp only [parentOf, hq] at this
          rw [this] at hm
          rw [← hm] at hp
          simp at hp
        · obtain ⟨p1, nd1, a, b, e⟩ := chain_last h 0 q hc hq0
          have := hI.1.2.2.1 p1 nd1 q b (List.mem_of_getLast?_eq_some e)
          simp only [parentOf, hq] at this
          rw [this] at hm
          rw [← hm] at hp
          simp only [Option.some.injEq] at hp
          rw [← hp]; exact a
  · intro h n t h1 hI hm
    cases n with
    | none => simp [AddToken] at hm
    | some q =>
      cases hq : h[q]? with
      | none => simp [AddToken, hq] at hm
      | some ndq =>
        rw [AddToken_grow h q ndq t hq] at hm
        simp only [Outcome.ret.injEq] at hm
        subst hm
        obtain ⟨a, b, _⟩ := grow_ordered h q ndq
          { content := t, parent := some q, children := [] } hI.1 (hI.2 q rfl) hq rfl rfl
        refine ⟨a, ?_⟩
        intro i hi
        simp only [Option.some.injEq] at hi
        rw [← hi]; exact b

theorem ordered_root : Ordered Root.1 := by
  refine ⟨tidy_root, by decide, ?_, by decide⟩
  intro p nd c hp hc
  have hpl := (List.getElem?_eq_some_iff.mp hp).1
  have : p = 0 := by simpa [Root] using hpl
  subst this
  simp only [Root, List.getElem?_cons_zero, Option.some.injEq] at hp
  subst hp
  simp [Node.blank] at hc

/-- A property that the node operations keep holds at every state of the
block loop met in a parse. -/
theorem inBlock_kept (I : Store → Ptr → Prop) (hI : Kept I) (root : Ptr)
    (hroot : ∀ h n, I h n → I h root) (s : Str) (h : Store) (isens : Bool) (st : Scan)
    (o c : Nat) (hb : InBlock root s h isens st o c) : (∃ n, I h n) → I st.h st.n := by
  induction hb with
  | start x r h h1 n _ _ _ _ hm =>
    intro ⟨n0, hn0⟩
    exact hI.make h root h1 n (hroot h n0 hn0) hm
  | step s h isens st o c x r st1 _ _ hstep ih =>
    intro hn
    exact blockStep_kept I hI isens root st st1 (ih hn) (Or.inl hstep)
  | later s h s1 h1 isens st o c hstep _ ih =>
    intro ⟨n0, hn0⟩
    exact ih (topStep_kept I hI root hroot s h n0 hn0 s1 h1 hstep)

/-- Reading the store by index gives its tokens in the order they were
added. -/
theorem range_tokens :
    ∀ (l pre : Store), (List.range' pre.length l.length).filterMap (tokenAt (pre ++ l))
      = l.filterMap (fun nd => if nd.content = [] then none else some nd.content) := by
  intro l
  induction l with
  | nil => intro pre; rfl
  | cons a l ih =>
    intro pre
    have e : pre ++ a :: l = (pre ++ [a]) ++ l := by simp
    have := ih (pre ++ [a])
    rw [← e] at this
    simp only [List.length_append, List.length_singleton] at this
    have hat : tokenAt (pre ++ a :: l) pre.length
        = if a.content = [] then none else some a.content := by
      have hg : (pre ++ a :: l)[pre.length]? = some a := by
        rw [List.getElem?_append_right (le_refl _)]; simp
      simp only [tokenAt, hg]
    simp only [List.length_cons, List.range'_succ, List.filterMap_cons]
    rw [this, hat]

/-! ## The tokens of the input -/

theorem cuts_refl (s : Str) (h : Store) : Cuts s h s h :=
  ⟨[], by simp, fun _ hL => hL⟩

theorem cuts_trans (s : Str) (h : Store) (s1 : Str) (h1 : Store) (s2 : Str) (h2 : Store)
    (a : Cuts s h s1 h1) (b : Cuts s1 h1 s2 h2) : Cuts s h s2 h2 := by
  obtain ⟨n1, e1, t1⟩ := a
  obtain ⟨n2, e2, t2⟩ := b
  refine ⟨n1 ++ n2, by rw [e2, e1, List.append_assoc], ?_⟩
  intro L hL
  rw [List.append_assoc]
  exact t1 _ (t2 L hL)

theorem cuts_of_tokens (s : Str) (h : Store) (s1 : Str) (h1 : Store)
    (hh : addedTokens h1 = addedTokens h) (ht : ∀ L, Tokens s1 L → Tokens s L) :
    Cuts s h s1 h1 :=
  ⟨[], by rw [hh]; simp, fun L hL => ht L hL⟩

theorem tokens_skipNewlines : ∀ (s : Str) (L : List Str),
    Tokens (skipNewlines s) L → Tokens s L := by
  intro s
  induction s with
  | nil => intro L hL; exact hL
  | cons c r ih =>
    intro L hL
    simp only [skipNewlines] at hL
    split at hL
    · rename_i hc
      exact Tokens.skip c r L (Or.inr (Or.inr (Or.inr (Or.inr hc)))) (ih L hL)
    · exact hL

theorem tokens_countTabs : ∀ (s : Str) (m : Nat) (L : List Str),
    Tokens (countTabs m s).2 L → Tokens s L := by
  intro s
  induction s with
  | nil => intro m L hL; exact hL
  | cons c r ih =>
    intro m L hL
    simp only [countTabs] at hL
    split at hL
    · rename_i hc
      exact Tokens.skip c r L (Or.inr (Or.inr (Or.inr (Or.inl hc)))) (ih _ L hL)
    · exact hL

theorem grow_added (h : Store) (q : Nat) (ndq new : Node) (hq : h[q]? = some ndq) :
    addedTokens (grow h q ndq new)
      = addedTokens h ++ (if new.content = [] then [] else [new.content]) := by
  unfold addedTokens grow
  rw [List.filterMap_append]
  congr 1
  · exact filterMap_set_congr _ _ h q ndq _ hq rfl (fun _ _ => rfl)
  · by_cases hc : new.content = []
    · simp [hc]
    · simp [hc]

theorem MakeChild_added (h : Store) (n : Ptr) (h1 : Store) (n1 : Ptr)
    (hm : MakeChild h n = .ret (h1, n1)) : addedTokens h1 = addedTokens h := by
  cases n with
  | none => simp [MakeChild] at hm
  | some q =>
    cases hq : h[q]? with
    | none => simp [MakeChild, hq] at hm
    | some ndq =>
      rw [MakeChild_grow h q ndq hq] at hm
      simp only [Outcome.ret.injEq, Prod.mk.injEq] at hm
      rw [← hm.1, grow_added h q ndq _ hq]
      simp [Node.blank]

theorem AddToken_added (h : Store) (n : Ptr) (t : Str) (h1 : Store)
    (hm : AddToken h n t = .ret h1) (ht : t ≠ []) :
    addedTokens h1 = addedTokens h ++ [t] := by
  cases n with
  | none => simp [AddToken] at hm
  | some q =>
    cases hq : h[q]? with
    | none => simp [AddToken, hq] at hm
    | some ndq =>
      rw [AddToken_grow h q ndq t hq] at hm
      simp only [Outcome.ret.injEq] at hm
      rw [← hm, grow_added h q ndq _ hq]
      simp [ht]

theorem makeChildTimes_added :
    ∀ (k : Nat) (h : Store) (n : Ptr) (h1 : Store) (n1 : Ptr),
      makeChildTimes k h n = .ret (h1, n1) → addedTokens h1 = addedTokens h := by
  intro k
  induction k with
  | zero =>
    intro h n h1 n1 hr
    simp only [makeChildTimes, Outcome.ret.injEq, Prod.mk.injEq] at hr
    rw [← hr.1]
  | succ k ih =>
    intro h n h1 n1 hr
    simp only [makeChildTimes] at hr
    obtain ⟨a, ha, hr2⟩ := andThen_ret _ _ _ hr
    rw [ih a.1 a.2 h1 n1 hr2, MakeChild_added h n a.1 a.2 ha]

/-- A depth transition adds no token. -/
theorem indentSrfi49_added (delta : Int) (h : Store) (n : Ptr) (h1 : Store) (n1 : Ptr)
    (hr : indentSrfi49 delta h n = .ret (h1, n1)) : addedTokens h1 = addedTokens h := by
  have hsib : ∀ m, (Parent h m).andThen (fun p => MakeChild h p) = .ret (h1, n1) →
      addedTokens h1 = addedTokens h := by
    intro m hr2
    obtain ⟨p, _, hr3⟩ := andThen_ret _ _ _ hr2
    exact MakeChild_added h p h1 n1 hr3
  unfold indentSrfi49 at hr
  split at hr
  · obtain ⟨m, _, hr2⟩ := andThen_ret _ _ _ hr
    exact hsib m hr2
  · split at hr
    · exact hsib n hr
    · split at hr
      · exact makeChildTimes_added _ h n h1 n1 hr
      · simp at hr

/-- A round of the block loop cuts tokens in order. -/
theorem blockStep_cuts (isens : Bool) (root : Ptr) (st st1 : Scan)
    (h : blockStep isens root st = .next st1 ∨ blockStep isens root st = .brk st1) :
    Cuts st.s st.h st1.s st1.h := by
  have hlt := blockStep_length_lt isens root st st1 h
  obtain ⟨s, hp, n, td⟩ := st
  cases s with
  | nil => simp [blockStep] at h
  | cons c r =>
    simp only at hlt
    simp only [blockStep] at h
    split at h
    · rename_i hc
      cases hm : MakeChild hp n with
      | ret m =>
        rw [hm] at h
        rcases h with h | h <;> simp at h
        rw [← h]
        exact cuts_of_tokens _ _ _ _ (MakeChild_added hp n m.1 m.2 hm)
          (fun L hL => Tokens.skip c r L (Or.inl hc) hL)
      | err e => rw [hm] at h; simp at h
      | panic => rw [hm] at h; simp at h
      | fuel => rw [hm] at h; simp at h
    · rename_i hc1
      split at h
      · rename_i hc
        cases hm : Parent hp n with
        | ret m =>
          rw [hm] at h
          rcases h with h | h <;> simp at h
          rw [← h]
          exact cuts_of_tokens _ _ _ _ rfl
            (fun L hL => Tokens.skip c r L (Or.inr (Or.inl hc)) hL)
        | err e => rw [hm] at h; simp at h
        | panic => rw [hm] at h; simp at h
        | fuel => rw [hm] at h; simp at h
      · rename_i hc2
        split at h
        · rename_i hc
          rcases h with h | h <;> simp at h
          rw [← h]
          refine cuts_of_tokens _ _ _ _ rfl (fun L hL => Tokens.skip c r L ?_ hL)
          rcases hc with hc | hc
          · exact Or.inr (Or.inr (Or.inl hc))
          · exact Or.inr (Or.inr (Or.inr (Or.inl hc)))
        · rename_i hc3
          split at h
          · rename_i hc
            split at h
            · split at h
              · rcases h with h | h <;> simp at h
                rw [← h]
                exact cuts_of_tokens _ _ _ _ rfl (tokens_skipNewlines (c :: r))
              · rcases h with h | h <;> simp at h
                rw [← h]
                exact cuts_of_tokens _ _ _ _ rfl (tokens_skipNewlines (c :: r))
            · split at h
              · rcases h with h | h <;> simp at h
                rw [← h]
                exact cuts_of_tokens _ _ _ _ rfl (tokens_skipNewlines (c :: r))
              · cases hm : indentSrfi49
                    (((countTabs 0 (skipNewlines (c :: r))).1 : Int) - td) hp n with
                | ret m =>
                  rw [hm] at h
                  rcases h with h | h <;> simp at h
                  rw [← h]
                  exact cuts_of_tokens _ _ _ _ (indentSrfi49_added _ hp n m.1 m.2 hm)
                    (fun L hL => tokens_skipNewlines (c :: r) L
                      (tokens_countTabs (skipNewlines (c :: r)) 0 L hL))
                | err e => rw [hm] at h; simp at h
                | panic => rw [hm] at h; simp at h
                | fuel => rw [hm] at h; simp at h
          · rename_i hc4
            split at h
            · rename_i hc
              simp only [skipLine, hc4, if_false, sliceFrom] at h
              split at h
              · rename_i s1 heq
                split at heq
                · simp only [Outcome.ret.injEq] at heq
                  rcases h with h | h <;> simp at h
                  rw [← h, ← heq, hc]
                  exact cuts_of_tokens _ _ _ _ rfl (fun L hL => Tokens.comment r L hL)
                · simp at heq
              · simp at h
            · rename_i hc5
              obtain ⟨e, he, hb⟩ := findTokenEnd_bounds c r
              rw [he] at h
              simp only at h
              split at h
              · simp at h
              · rename_i hneg
                rcases hb with hb | hb
                · omega
                · simp only [sliceTo, sliceFrom] at h
                  have hle : e.toNat ≤ (c :: r).length := by omega
                  simp only [hle, if_true] at h
                  cases hm : AddToken hp n (List.take e.toNat (c :: r)) with
                  | ret m =>
                    rw [hm] at h
                    rcases h with h | h <;> simp at h
                    rw [← h]
                    have htok : List.take e.toNat (c :: r) ≠ [] := by
                      intro h0
                      have := congrArg List.length h0
                      simp only [List.length_take, List.length_nil] at this
                      omega
                    refine ⟨[List.take e.toNat (c :: r)],
                      AddToken_added hp n _ m hm htok, ?_⟩
                    intro L hL
                    have hsp : c ≠ ' ' := fun hx => hc3 (Or.inl hx)
                    have htb : c ≠ tab := fun hx => hc3 (Or.inr hx)
                    exact Tokens.token c r e L hc1 hc2 hsp htb hc4 hc5 he (by omega) hle hL
                  | err e => rw [hm] at h; simp at h
                  | panic => rw [hm] at h; simp at h
                  | fuel => rw [hm] at h; simp at h

/-- The block loop cuts tokens in order. -/
theorem blockRun_cuts (isens : Bool) (root : Ptr) :
    ∀ (k : Nat) (st : Scan), st.s.length ≤ k →
      ∀ s1 h1, blockRun isens root st = .ret (s1, h1) → Cuts st.s st.h s1 h1 := by
  intro k
  induction k with
  | zero =>
    intro st hk s1 h1 hr
    have h0 : st.s = [] := List.length_eq_zero.mp (by omega)
    rw [blockRun_eq, if_pos h0] at hr
    simp only [Outcome.ret.injEq, Prod.mk.injEq] at hr
    rw [← hr.1, ← hr.2]
    exact cuts_refl _ _
  | succ k ih =>
    intro st hk s1 h1 hr
    rw [blockRun_eq] at hr
    split at hr
    · simp only [Outcome.ret.injEq, Prod.mk.injEq] at hr
      rw [← hr.1, ← hr.2]
      exact cuts_refl _ _
    · cases hstep : blockStep isens root st with
      | next st1 =>
        rw [hstep] at hr
        have hlt := blockStep_length_lt isens root st st1 (Or.inl hstep)
        exact cuts_trans _ _ _ _ _ _ (blockStep_cuts isens root st st1 (Or.inl hstep))
          (ih st1 (by omega) s1 h1 hr)
      | brk st1 =>
        rw [hstep] at hr
        simp only [Outcome.ret.injEq, Prod.mk.injEq] at hr
        rw [← hr.1, ← hr.2]
        exact blockStep_cuts isens root st st1 (Or.inr hstep)
      | fail msg => rw [hstep] at hr; simp at hr
      | panic => rw [hstep] at hr; simp at hr

theorem doTopNode_cuts (root : Ptr) (s : Str) (h : Store) (s1 : Str) (h1 : Store)
    (hr : doTopNode root s h = .ret (s1, h1)) : Cuts s h s1 h1 := by
  cases s with
  | nil => simp [doTopNode] at hr
  | cons c r =>
    rw [doTopNode_eq] at hr
    cases hm : MakeChild h root with
    | ret m =>
      rw [hm] at hr
      have hb := blockRun_cuts _ root _ _ (le_refl _) s1 h1 hr
      refine cuts_trans _ _ _ _ _ _ ?_ hb
      refine cuts_of_tokens _ _ _ _ (MakeChild_added h root m.1 m.2 hm) ?_
      intro L hL
      simp only at hL
      split at hL
      · rename_i hc
        exact Tokens.skip c r L (Or.inl hc) hL
      · exact hL
    | err e => rw [hm] at hr; simp at hr
    | panic => rw [hm] at hr; simp at hr
    | fuel => rw [hm] at hr; simp at hr

theorem skipLineTop_eq : ∀ (s s1 : Str), skipLineTop s = .ret s1 →
    ∃ z, s1 = nl :: z ∧ skipLine s = nl :: z := by
  intro s
  induction s with
  | nil => intro s1 h; simp [skipLineTop] at h
  | cons c r ih =>
    intro s1 h
    simp only [skipLineTop] at h
    split at h
    · rename_i hc
      simp only [Outcome.ret.injEq] at h
      exact ⟨r, by rw [← h, hc], by simp [skipLine, hc]⟩
    · rename_i hc
      obtain ⟨z, hz, hs⟩ := ih s1 h
      exact ⟨z, hz, by simp [skipLine, hc, hs]⟩

/-- A round of the top-level loop cuts tokens in order. -/
theorem topStep_cuts (root : Ptr) (s : Str) (h : Store) (s1 : Str) (h1 : Store)
    (hr : topStep root s h = .next (s1, h1)) : Cuts s h s1 h1 := by
  cases s with
  | nil => simp [topStep] at hr
  | cons c r =>
    simp only [topStep] at hr
    split at hr
    · rename_i hc
      simp only [Step.next.injEq, Prod.mk.injEq] at hr
      rw [← hr.1, ← hr.2]
      refine cuts_of_tokens _ _ _ _ rfl (fun L hL => Tokens.skip c r L ?_ hL)
      rcases hc with hc | hc
      · exact Or.inr (Or.inr (Or.inl hc))
      · exact Or.inr (Or.inr (Or.inr (Or.inl hc)))
    · split at hr
      · rename_i hc
        simp only [Step.next.injEq, Prod.mk.injEq] at hr
        rw [← hr.1, ← hr.2]
        exact cuts_of_tokens _ _ _ _ rfl
          (fun L hL => Tokens.skip c r L (Or.inr (Or.inr (Or.inr (Or.inr hc)))) hL)
      · rename_i hcn
        split at hr
        · rename_i hc
          cases hsl : skipLineTop (c :: r) with
          | ret s2 =>
            rw [hsl] at hr
            simp only [Step.next.injEq, Prod.mk.injEq] at hr
            rw [← hr.1, ← hr.2]
            obtain ⟨z, hz, hs⟩ := skipLineTop_eq _ _ hsl
            simp only [skipLine, hcn, if_false] at hs
            refine cuts_of_tokens _ _ _ _ rfl ?_
            intro L hL
            rw [hc]
            apply Tokens.comment r L
            rw [hs]
            rw [hz] at hL
            cases hL with
            | skip _ _ _ _ hrest => exact hrest
            | token _ _ e _ _ _ _ _ hx => exact absurd rfl hx
          | err e => rw [hsl] at hr; simp at hr
          | panic => rw [hsl] at hr; simp at hr
          | fuel => rw [hsl] at hr; simp at hr
        · cases hd : doTopNode root (c :: r) h with
          | ret p =>
            rw [hd] at hr
            simp only [Step.next.injEq, Prod.mk.injEq] at hr
            rw [← hr.1, ← hr.2]
            exact doTopNode_cuts root (c :: r) h p.1 p.2 hd
          | err e => rw [hd] at hr; simp at hr
          | panic => rw [hd] at hr; simp at hr
          | fuel => rw [hd] at hr; simp at hr

/-- The top-level loop cuts tokens in order: the tokens added to the store
are the tokens of the input. -/
theorem topRun_cuts (root : Ptr) :
    ∀ (k : Nat) (s : Str) (h : Store), s.length ≤ k →
      ∀ h1, topRun root s h = .ret h1 → Cuts s h [] h1 := by
  intro k
  induction k with
  | zero =>
    intro s h hk h1 hr
    have h0 : s = [] := List.length_eq_zero.mp (by omega)
    rw [topRun_eq, if_pos h0] at hr
    simp only [Outcome.ret.injEq] at hr
    rw [← hr, h0]
    exact cuts_refl _ _
  | succ k ih =>
    intro s h hk h1 hr
    rw [topRun_eq] at hr
    split at hr
    · rename_i h0
      simp only [Outcome.ret.injEq] at hr
      rw [← hr, h0]
      exact cuts_refl _ _
    · cases hstep : topStep root s h with
      | next p =>
        rw [hstep] at hr
        have hlt := (topStep_length_lt root s h).2 p.1 p.2 hstep
        exact cuts_trans _ _ _ _ _ _ (topStep_cuts root s h p.1 p.2 hstep)
          (ih p.1 p.2 (by omega) h1 hr)
      | brk st1 => rw [hstep] at hr; simp at hr
      | fail msg => rw [hstep] at hr; simp at hr
      | panic => rw [hstep] at hr; simp at hr

theorem topRun_of_parseString (s : Str) (h : Store) (r : Ptr)
    (hp : parseString s = .ret (h, r)) : topRun Root.2 s Root.1 = .ret h := by
  rw [parseString_eq] at hp
  cases ht : topRun Root.2 s Root.1 with
  | ret h1 =>
    rw [ht] at hp
    simp only at hp
    cases hc : collapse h1 (h1.length + 1) Root.2 with
    | ret r1 =>
      rw [hc] at hp
      simp only [Outcome.ret.injEq, Prod.mk.injEq] at hp
      rw [hp.1]
    | err e => rw [hc] at hp; simp at hp
    | panic => rw [hc] at hp; simp at hp
    | fuel => rw [hc] at hp; simp at hp
  | err e => rw [ht] at hp; simp at hp
  | panic => rw [ht] at hp; simp at hp
  | fuel => rw [ht] at hp; simp at hp

/-- In an ordered store the tokens read depth-first are the tokens in the
order they were added. -/
theorem ordered_tokens (h : Store) (ho : Ordered h) : dfsTokens h = addedTokens h := by
  unfold dfsTokens addedTokens
  rw [ho.2.2.2, List.range_eq_range']
  have := range_tokens h []
  simpa using this

/-- Claim C18: token order is kept.  At every state of the block loop met in
a parse, the cursor, when it is a node (it has not been moved above the
root), is on the rightmost path of the tree: the root, its last child, the
last child of that node, and so on.  And for every input on which the parse
succeeds, the contents of the token nodes of the tree before the collapse,
read depth-first and left to right from the root, are the tokens in the order
in which the scan added them, which are the tokens of the input in the order
of the input. -/
theorem token_order_kept (s : Str) :
    (∀ (isens : Bool) (st : Scan) (o c : Nat), InBlock Root.2 s Root.1 isens st o c →
      ∀ i, st.n = some i → RightPath st.h i) ∧
    (∀ (h : Store) (r : Ptr), parseString s = .ret (h, r) →
      dfsTokens h = addedTokens h ∧ Tokens s (dfsTokens h)) := by
  have hroot : ∀ (h : Store) (n : Ptr), (Ordered h ∧ ∀ i, n = some i → RightPath h i) →
      (Ordered h ∧ ∀ i, Root.2 = some i → RightPath h i) := by
    intro h n hI
    refine ⟨hI.1, ?_⟩
    intro i hi
    have : i = 0 := by
      simp only [Root, Option.some.injEq] at hi
      exact hi.symm
    rw [this]
    exact Chain.here 0
  have hstart : Ordered Root.1 ∧ ∀ i, Root.2 = some i → RightPath Root.1 i :=
    hroot Root.1 none ⟨ordered_root, fun i hi => by simp at hi⟩
  refine ⟨?_, ?_⟩
  · intro isens st o c hb
    exact (inBlock_kept _ ordered_kept Root.2 hroot s Root.1 isens st o c hb
      ⟨Root.2, hstart⟩).2
  · intro h r hp
    have ht := topRun_of_parseString s h r hp
    obtain ⟨n1, ho, _⟩ := topRun_kept _ ordered_kept Root.2 hroot s.length s Root.1 Root.2
      (le_refl _) hstart h ht
    have he := ordered_tokens h ho
    refine ⟨he, ?_⟩
    obtain ⟨new, hn, htok⟩ := topRun_cuts Root.2 s.length s Root.1 (le_refl _) h ht
    have h0 : addedTokens Root.1 = [] := by decide
    rw [h0, List.nil_append] at hn
    have := htok [] Tokens.done
    rw [List.append_nil, ← hn, ← he] at this
    exact this

theorem token_order_kept_witness :
    parseString "(a (b) c)".toList =
      .ret ([{ content := [], parent := none, children := [1] },
             { content := [], parent := some 0, children := [2, 3, 5] },
             { content := ['a'], parent := some 1, children := [] },
             { content := [], parent := some 1, children := [4] },
             { content := ['b'], parent := some 3, children := [] },
             { content := ['c'], parent := some 1, children := [] }], some 1) ∧
    dfsTokens [{ content := [], parent := none, children := [1] },
               { content := [], parent := some 0, children := [2, 3, 5] },
               { content := ['a'], parent := some 1, children := [] },
               { content := [], parent := some 1, children := [4] },
               { content := ['b'], parent := some 3, children := [] },
               { content := ['c'], parent := some 1, children := [] }] = [['a'], ['b'], ['c']] ∧
    Tokens "(a (b) c)".toList [['a'], ['b'], ['c']] :=
  have hp : parseString "(a (b) c)".toList =
      .ret ([{ content := [], parent := none, children := [1] },
             { content := [], parent := some 0, children := [2, 3, 5] },
             { content := ['a'], parent := some 1, children := [] },
             { content := [], parent := some 1, children := [4] },
             { content := ['b'], parent := some 3, children := [] },
             { content := ['c'], parent := some 1, children := [] }], some 1) := by decide
  ⟨hp, by decide, ((token_order_kept "(a (b) c)".toList).2 _ _ hp).2⟩

/-! ## Rounds that neither fail nor consume input -/

/-- Claim C16, at the inputs `;` and `a ;c`, which end in a comment with no
newline after it: the round of the top-level loop at `;` panics, and so do
the call of block processing at `a ;c` and its round at `;c`.  None of them
returns an error or leaves less input. -/
theorem comment_round_panics :
    topStep Root.2 [';'] Root.1 = .panic ∧
    topStep Root.2 ['a', ' ', ';', 'c'] Root.1 = .panic ∧
    doTopNode Root.2 ['a', ' ', ';', 'c'] Root.1 = .panic ∧
    blockStep true Root.2
      { s := [';', 'c'],
        h := [{ content := [], parent := none, children := [1] },
              { content := [], parent := some 0, children := [2] },
              { content := ['a'], parent := some 1, children := [] }],
        n := some 1, tabDepth := 0 } = .panic := by
  decide

/-- Claim C14, at the input `('a`, newline, `'b')`: the newline stands
between the characters `'a`, which are no character literal, and the literal
`'b'`.  The character pattern does not match at the start of `'a`, newline,
`'b')`, and the match found at index 3 gives the end 6, so the newline ends up
inside a token: the parse gives one leaf of six characters with the newline
in it, and with the newline replaced by a space a leaf with the space in it.
The two trees differ. -/
theorem classic_newline_late_match :
    findTokenEnd [squote, 'a', nl, squote, 'b', squote, ')'] = .ret 6 ∧
    isCharLiteral [squote, 'a', nl, squote, 'b', squote] = false ∧
    parseString ['(', squote, 'a', nl, squote, 'b', squote, ')'] =
      .ret ([{ content := [], parent := none, children := [1] },
             { content := [], parent := some 0, children := [2] },
             { content := [squote, 'a', nl, squote, 'b', squote], parent := some 1,
               children := [] }], some 2) ∧
    parseString ['(', squote, 'a', ' ', squote, 'b', squote, ')'] =
      .ret ([{ content := [], parent := none, children := [1] },
             { content := [], parent := some 0, children := [2] },
             { content := [squote, 'a', ' ', squote, 'b', squote], parent := some 1,
               children := [] }], some 2) ∧
    parseString ['(', squote, 'a', nl, squote, 'b', squote, ')'] ≠
      parseString ['(', squote, 'a', ' ', squote, 'b', squote, ')'] := by
  decide

end Piklisp
